import Mathlib

/-!
# bobappleyard/script: names, shapes, the stack machine and the image reader

A shallow embedding of `objects.go`, `interp.go` and `bytecode/image.go`.

Modelling conventions

* Go pointers (`*Name`, `*shape`, `*UserObject`, `*class`) are indices into
  heaps held by a `Store`; `new(T)` allocates the next index, pointer equality
  is index equality.
* `entityId` is `uint32`: ids are naturals and the atomic counters wrap
  modulo `2^32` exactly as `atomic.AddUint32` does.
* Go `int` (sizes, offsets, stack indices) is `Int`.  These quantities only
  grow by one per executed loop iteration or are decoded from at most four
  bytes, so a 64-bit `int` cannot wrap on them.
* Execution is single threaded: a compare-and-swap always finds the value it
  has just loaded, so it succeeds on its first attempt.
* The value stack of a frame is a slice: its elements, the identity of its
  backing array and its capacity.  `enter` copies the slice, not the array, so
  a write through the current stack (`append` within the capacity, the copy
  loop of `shuffle`) shows in every saved frame that shares the array.
* A panic is the result `Res.fault`; a loop the source bounds by its data runs
  on fuel, and `Res.diverge` is what is left when the fuel is spent.
* The image reader takes its input as a list of bytes and records the item
  calls (`Int`, `Float`, `Bytes`, `Compound`) its handler receives; `ItemId`
  and the byte count of a compound item are `uint32`, reduced modulo `2^32`.
-/

namespace Script

/-! ## Names and shapes (`objects.go`) -/

/-- The modulus of `uint32` arithmetic. -/
def uint32Size : Nat := 4294967296

/-- The Go struct `nameItem`: the shape that introduced a name and where. -/
structure nameItem where
  introduced : Nat
  offset : Int
deriving DecidableEq, Repr

/-- The Go struct `Name`; `items` is the list behind the `__items` pointer. -/
structure Name where
  id : Nat
  str : String
  parent : Option Nat
  items : List nameItem
deriving DecidableEq, Repr

/-- The Go struct `shape`; `children` is the list behind `__children`,
`names` and `children` hold references. -/
structure shape where
  id : Nat
  shapeset : List Nat
  names : List Nat
  size : Int
  children : List Nat
deriving DecidableEq, Repr

/-- The global counters `shapeIds` and `nameIds` and the two heaps. -/
structure Store where
  shapeIds : Nat
  nameIds : Nat
  nameHeap : List Name
  shapeHeap : List shape
deriving DecidableEq, Repr

/-- The state of a freshly started program: counters at zero, nothing allocated. -/
def Store.empty : Store := ⟨0, 0, [], []⟩

/-- The method `atomicCounter.next`: `atomic.AddUint32(c, 1)` returns the new value. -/
def atomicCounter.next (c : Nat) : Nat := (c + 1) % uint32Size

/-- Dereference a `*Name`. -/
def Store.getName (σ : Store) (n : Nat) : Name :=
  σ.nameHeap.getD n ⟨0, "", none, []⟩

/-- Dereference a `*shape`. -/
def Store.getShape (σ : Store) (s : Nat) : shape :=
  σ.shapeHeap.getD s ⟨0, [], [], 0, []⟩

/-- The call `new(Name).init(str)`: returns the new store and the new pointer. -/
def Name.init (σ : Store) (str : String) : Store × Nat :=
  let id := atomicCounter.next σ.nameIds
  ({ σ with nameIds := id, nameHeap := σ.nameHeap ++ [⟨id, str, none, []⟩] },
    σ.nameHeap.length)

/-- The method `Name.getItems`. -/
def getItems (σ : Store) (n : Nat) : List nameItem := (σ.getName n).items

/-- The comparison `itemSorter.Less`, as the non-strict order it sorts into. -/
def itemLe (a b : nameItem) : Prop := a.introduced ≤ b.introduced

instance : DecidableRel itemLe := fun a b => Nat.decLe a.introduced b.introduced

/-- The call `sort.Sort(itemSorter(items))`, as a stable insertion sort on
`introduced`.  Go fixes the result only up to the order of items with equal
`introduced`, which a name gets only when it occurs twice in one `extend`. -/
def sortItems (items : List nameItem) : List nameItem :=
  List.insertionSort itemLe items

/-- The method `Name.appendItem`: copy, append, sort, publish.  The
compare-and-swap succeeds at once, no retry happens. -/
def appendItem (σ : Store) (n : Nat) (x : nameItem) : Store :=
  let oldItems := getItems σ n
  let items := sortItems (oldItems ++ [x])
  { σ with nameHeap := σ.nameHeap.modify (fun nm => { nm with items := items }) n }

/-- The call `new(shape).init(shapeset, names, size)`. -/
def shape.init (σ : Store) (shapeset : List Nat) (names : List Nat) (size : Int) :
    Store × Nat :=
  let id := atomicCounter.next σ.shapeIds
  let ids := shapeset ++ [id]
  ({ σ with shapeIds := id, shapeHeap := σ.shapeHeap ++ [⟨id, ids, names, size, []⟩] },
    σ.shapeHeap.length)

/-- The method `shape.getChildren`. -/
def getChildren (σ : Store) (s : Nat) : List Nat := (σ.getShape s).children

/-- The method `shape.tryAppendChild`.  The compare-and-swap succeeds, and the
method returns its negation, so the result is `false`. -/
def tryAppendChild (σ : Store) (s : Nat) (x : Nat) : Store × Bool :=
  let oldChildren := getChildren σ s
  let children := oldChildren ++ [x]
  let swapped := true
  ({ σ with shapeHeap := σ.shapeHeap.modify (fun sh => { sh with children := children }) s },
    !swapped)

/-- The loop of `shape.lookup`.  The list arguments are the parts of `items`
and of `s.shapeset` from `nCur` and from `sCur` on; the loop ends when one of
them is empty.  Every pass advances one cursor, so `nLen + sLen` passes, the
first argument, are never used up before that. -/
def lookupLoop : Nat → List nameItem → List Nat → Int
  | 0, _, _ => -1
  | _ + 1, [], _ => -1
  | _ + 1, _ :: _, [] => -1
  | fuel + 1, it :: its, shapeId :: sids =>
    if shapeId = it.introduced then it.offset
    else if shapeId > it.introduced then lookupLoop fuel its (shapeId :: sids)
    else lookupLoop fuel (it :: its) sids

/-- The method `shape.lookup`. -/
def lookup (σ : Store) (s : Nat) (n : Nat) : Int :=
  let items := getItems σ n
  let nLen := items.length
  let sLen := (σ.getShape s).shapeset.length
  lookupLoop (nLen + sLen) items (σ.getShape s).shapeset

/-- The method `shape.contains`. -/
def contains (σ : Store) (s : Nat) (ns : List Nat) : Bool :=
  ns.all (fun n => lookup σ s n != -1)

/-- The loop `for i, n := range missing` of `shape.extend`, from index `i` on. -/
def informNames (σ : Store) (childId : Nat) (size : Int) : Nat → List Nat → Store
  | _, [] => σ
  | i, n :: rest =>
    informNames (appendItem σ n ⟨childId, size + i⟩) childId size (i + 1) rest

/-- The part of `shape.extend` from the label `retry` on.  Each unit of fuel
pays for one pass from `retry`. -/
def extendRetry : Nat → Store → Nat → List Nat → Option (Store × Nat)
  | 0, _, _, _ => none
  | fuel + 1, σ, s, missing =>
    let children := getChildren σ s
    match children.find? (fun child => contains σ child missing) with
    | some child => some (σ, child)
    | none =>
      let sh := σ.getShape s
      let (σ1, child) := shape.init σ sh.shapeset missing (sh.size + missing.length)
      let σ2 := informNames σ1 (σ1.getShape child).id sh.size 0 missing
      let (σ3, failed) := tryAppendChild σ2 s child
      if !failed then extendRetry fuel σ3 s missing
      else some (σ3, child)

/-- The method `shape.extend`. -/
def extend (fuel : Nat) (σ : Store) (s : Nat) (ns : List Nat) : Option (Store × Nat) :=
  let missing := ns.filter (fun n => lookup σ s n == -1)
  if missing.length = 0 then some (σ, s)
  else extendRetry fuel σ s missing

/-! ## Specification vocabulary for the shape graph -/

/-- The loop of `shape.lookup` once more, by recursion on the two lists, with
no bound on the number of passes. -/
def mergeWalk : List nameItem → List Nat → Int
  | [], _ => -1
  | _ :: _, [] => -1
  | it :: its, shapeId :: sids =>
    if shapeId = it.introduced then it.offset
    else if shapeId > it.introduced then mergeWalk its (shapeId :: sids)
    else mergeWalk (it :: its) sids
termination_by its sids => its.length + sids.length

/-- The first item of a name whose introducing shape belongs to a shapeset. -/
def firstMatch (items : List nameItem) (ss : List Nat) : Option nameItem :=
  items.find? (fun it => decide (it.introduced ∈ ss))

/-- The items that the loop of `extend` records on the name `m` for a child
with id `childId`, counting positions of `missing` from `i`. -/
def newItems (childId : Nat) (size : Int) (m : Nat) : Nat → List Nat → List nameItem
  | _, [] => []
  | i, n :: rest =>
    (if n = m then [⟨childId, size + i⟩] else []) ++ newItems childId size m (i + 1) rest

/-- One pass of `extend` through the creation of a child: allocate it, inform
the names, append it to the children of `s`. -/
def createChild (σ : Store) (s : Nat) (missing : List Nat) : Store × Nat :=
  let sh := σ.getShape s
  let (σ1, child) := shape.init σ sh.shapeset missing (sh.size + missing.length)
  let σ2 := informNames σ1 (σ1.getShape child).id sh.size 0 missing
  ((tryAppendChild σ2 s child).1, child)

/-- The representation invariant of the shape graph: shapesets and occurrence
lists are sorted, every id in use has been issued by the counter, field counts
are not negative, an occurrence record lies inside every shape that has its
introducing shape in the ancestry, and a child extends the shapeset of its
parent. -/
structure WF (σ : Store) : Prop where
  shapesetSorted : ∀ s, (σ.getShape s).shapeset.Sorted (· < ·)
  shapesetBound : ∀ s, ∀ id ∈ (σ.getShape s).shapeset, id ≤ σ.shapeIds
  idMem : ∀ s, s < σ.shapeHeap.length → (σ.getShape s).id ∈ (σ.getShape s).shapeset
  itemsSorted : ∀ n, (getItems σ n).Sorted itemLe
  itemsBound : ∀ n, ∀ it ∈ getItems σ n, it.introduced ≤ σ.shapeIds
  sizeNonneg : ∀ s, 0 ≤ (σ.getShape s).size
  offsets : ∀ s n, ∀ it ∈ getItems σ n, it.introduced ∈ (σ.getShape s).shapeset →
    0 ≤ it.offset ∧ it.offset < (σ.getShape s).size
  childrenValid : ∀ s, ∀ c ∈ getChildren σ s, c < σ.shapeHeap.length
  childrenExtend : ∀ s, ∀ c ∈ getChildren σ s, ∀ id ∈ (σ.getShape s).shapeset,
    id ∈ (σ.getShape c).shapeset

/-- The states built from the empty store by allocating names, allocating root
shapes with `init(nil, nil, 0)` and extending shapes, while the 32-bit shape
id counter has not run out.  References passed to `extend` point to allocated
objects. -/
inductive Built : Store → Prop where
  | empty : Built Store.empty
  | name (σ : Store) (str : String) : Built σ → Built (Name.init σ str).1
  | root (σ : Store) : Built σ → σ.shapeIds + 1 < uint32Size →
      Built (shape.init σ [] [] 0).1
  | extend (σ σ1 : Store) (fuel s r : Nat) (ns : List Nat) : Built σ →
      s < σ.shapeHeap.length → (∀ n ∈ ns, n < σ.nameHeap.length) →
      σ.shapeIds + 1 < uint32Size → Script.extend fuel σ s ns = some (σ1, r) → Built σ1

/-- The shape record that `extend` allocates for a new child of `s`. -/
def childShape (σ : Store) (s : Nat) (missing : List Nat) : shape :=
  ⟨atomicCounter.next σ.shapeIds,
    (σ.getShape s).shapeset ++ [atomicCounter.next σ.shapeIds], missing,
    (σ.getShape s).size + missing.length, []⟩

/-- The names of `ns` that `extend` finds missing from `s`. -/
def missingNames (σ : Store) (s : Nat) (ns : List Nat) : List Nat :=
  ns.filter (fun n => lookup σ s n == -1)

/-- The first existing child of `s` that contains the given names. -/
def findChild (σ : Store) (s : Nat) (missing : List Nat) : Option Nat :=
  (getChildren σ s).find? (fun child => contains σ child missing)

/-- What `extend` computes when it is given enough fuel: `s` itself, an
existing child, or a newly created child. -/
def extendResult (σ : Store) (s : Nat) (ns : List Nat) : Store × Nat :=
  if (missingNames σ s ns).length = 0 then (σ, s)
  else match findChild σ s (missingNames σ s ns) with
    | some child => (σ, child)
    | none => createChild σ s (missingNames σ s ns)

/-- A store with one root shape (reference 0) and two names without items
(references 0 and 1). -/
def exampleStore : Store :=
  (Name.init (Name.init (shape.init Store.empty [] [] 0).1 "hello").1 "goodbye").1

/-- The store after a root (reference 0), the names `a` and `b` (references 0
and 1) and `root.extend([a])`, whose child (reference 1, id 2) holds `a`. -/
def mergeStoreChild : Store :=
  let σ := (shape.init Store.empty [] [] 0).1
  let σ := (Name.init σ "a").1
  let σ := (Name.init σ "b").1
  match extend 2 σ 0 [0] with
  | some r => r.1
  | none => σ

/-- The store `mergeStoreChild` after a second root (reference 2, id 3) and its
child by `extend([b, a])` (reference 3, id 4): the name `a` has two items, one
from each child. -/
def mergeStore : Store :=
  let σ := (shape.init mergeStoreChild [] [] 0).1
  match extend 2 σ 2 [1, 0] with
  | some r => r.1
  | none => σ

/-! ## Values, classes and objects (`objects.go`, `primitives.go`) -/

/-- Go's `V`: the dynamic type and value held by the interface field `val`.
Pointers are references into the heaps, a `Primitive` function value is the
index of a native function, a `float64` is its bit pattern. -/
inductive V where
  | nil
  | int (x : Int)
  | float (bits : Nat)
  | str (s : String)
  | bool (b : Bool)
  | object (ref : Nat)
  | cls (ref : Nat)
  | name (ref : Nat)
  | array (ref : Nat)
  | primitive (fn : Nat)
deriving DecidableEq, Repr

/-- The Go struct `UserObject`; `cls` is the field `class`. -/
structure UserObject where
  cls : V
  fields : List V
deriving DecidableEq, Repr

/-- The Go struct `class`. -/
structure Class where
  ancestor : Option Nat
  shape : Nat
  names : List Nat
  values : List V
deriving DecidableEq, Repr

/-- The type `builtinClasses`, which `primitives.go` uses and does not
declare: one field for each class that `interp.go` and `objects.go` select. -/
structure builtinClasses where
  Integer : V
  Float : V
  String : V
  Class : V
  Array : V
  Primitive : V
  Field : V
deriving DecidableEq, Repr

/-- The Go struct `builtinNames`. -/
structure builtinNames where
  lookup : V
  getSlot : V
  setSlot : V
  callSlot : V
deriving DecidableEq, Repr

/-- The Go struct `builtins`. -/
structure builtins where
  classes : builtinClasses
  names : builtinNames
deriving DecidableEq, Repr

/-- The Go struct `Interpreter`; `names` is the map from strings to names. -/
structure Interpreter where
  builtins : builtins
  packageRoot : V
  names : List (String × Nat)
deriving DecidableEq, Repr

/-- Everything the pointers of a process point to. -/
structure Heap where
  store : Store
  objects : List UserObject
  classes : List Class
deriving DecidableEq, Repr

/-- How a Go call ends: it returns, it panics, or the fuel of the model ran out. -/
inductive Res (α : Type) where
  | ok (a : α)
  | fault (msg : String)
  | diverge
deriving DecidableEq, Repr

/-- Sequencing of calls: a panic or an exhausted fuel ends the caller too. -/
def Res.bind {α β : Type} (r : Res α) (f : α → Res β) : Res β :=
  match r with
  | .ok a => f a
  | .fault msg => .fault msg
  | .diverge => .diverge

instance : Monad Res where
  pure := Res.ok
  bind := Res.bind

/-- Go's `l[i]`, which panics when `i` is out of range. -/
def index {α : Type} (l : List α) (i : Int) : Res α :=
  if i < 0 then .fault "index out of range"
  else match l.get? i.toNat with
    | some a => .ok a
    | none => .fault "index out of range"

/-- Go's `l[i] = a`, which panics when `i` is out of range. -/
def assign {α : Type} (l : List α) (i : Int) (a : α) : Res (List α) :=
  if i < 0 then .fault "index out of range"
  else if i.toNat < l.length then .ok (l.set i.toNat a)
  else .fault "index out of range"

/-- Go's `l[:n]` for `n` from 0 to the length of `l`.  It panics when `n` is
negative or above the capacity; between the length and the capacity Go shows
what the backing array holds behind the length, which is not modelled and is a
fault here as well. -/
def sliceTo {α : Type} (l : List α) (n : Int) : Res (List α) :=
  if n < 0 then .fault "slice bounds out of range"
  else if n.toNat ≤ l.length then .ok (l.take n.toNat)
  else .fault "slice bounds out of range"

/-- Go's `==` on two `V`: interface values with the same uncomparable dynamic
type, here two functions, make the comparison panic. -/
def V.eq (a b : V) : Res Bool :=
  match a, b with
  | .primitive _, .primitive _ => .fault "comparing uncomparable type"
  | _, _ => .ok (decide (a = b))

/-- The method `V.AsInt`. -/
def V.AsInt (v : V) : Int × Bool :=
  match v with
  | .int x => (x, true)
  | _ => (0, false)

/-- The method `V.AsObject`. -/
def V.AsObject (v : V) : Option Nat × Bool :=
  match v with
  | .object r => (some r, true)
  | _ => (none, false)

/-- The method `V.AsBool`. -/
def V.AsBool (v : V) : Bool :=
  match v with
  | .bool val => val
  | _ => true

/-- The method `Interpreter.ClassOf`. -/
def Interpreter.ClassOf (e : Interpreter) (h : Heap) (x : V) : Res V :=
  let cs := e.builtins.classes
  match x with
  | .object r =>
    match h.objects.get? r with
    | some xv => .ok xv.cls
    | none => .fault "nil pointer dereference"
  | .int _ => .ok cs.Integer
  | .float _ => .ok cs.Float
  | .str _ => .ok cs.String
  | .cls _ => .ok cs.Class
  | .array _ => .ok cs.Array
  | .primitive _ => .ok cs.Primitive
  | _ => .fault "unkown object type"

/-- The method `class.lookup`: the zero `V` when the name is not found. -/
def Class.lookup (h : Heap) (c : Class) (n : Nat) : Res V :=
  let idx := Script.lookup h.store c.shape n
  if idx = -1 then .ok V.nil
  else index c.values idx
/-! ## The stack machine (`interp.go`) -/

/-- A Go `byte`. -/
abbrev byte := Fin 256

/-- The Go struct `unit`. -/
structure unit where
  Values : List V
deriving DecidableEq, Repr

/-- The Go struct `frame`; `unit` is a pointer, `none` when nil.  The slice
`stack` is held as its elements (`stack`), the identity of its backing array
(`stackArray`) and its capacity (`stackCap`): a frame copied by `enter` has
the same backing array as the frame it was copied from, and what is written to
the array through one of them is seen through the other.  `code` and `closure`
are never written to and are held by their elements alone. -/
structure frame where
  this : V
  slot : V
  handler : V
  argc : Int
  pos : Int
  base : Int
  code : List byte
  closure : List V
  stack : List V
  unit : Option unit
  stackArray : Nat
  stackCap : Nat
deriving DecidableEq, Repr

/-- The Go struct `Process`; `frame` is the embedded struct. -/
structure Process where
  host : Interpreter
  result : V
  frame : frame
  control : List Script.frame
deriving DecidableEq, Repr

/-- The zero value of `builtins`. -/
def builtins.zero : builtins :=
  ⟨⟨V.nil, V.nil, V.nil, V.nil, V.nil, V.nil, V.nil⟩, ⟨V.nil, V.nil, V.nil, V.nil⟩⟩

/-- The interpreter returned by `New()`. -/
def New : Interpreter := ⟨builtins.zero, V.nil, []⟩

/-- The zero value of `frame`. -/
def frame.zero : frame := ⟨V.nil, V.nil, V.nil, 0, 0, 0, [], [], [], none, 0, 0⟩

/-- The process `new(Process)` of the tests, bound to a host. -/
def Process.new (host : Interpreter) : Process := ⟨host, V.nil, frame.zero, []⟩

/-- The opcodes, in the order of the `iota` block. -/
def HALT : Int := 0
/-- Opcode 1. -/
def THIS : Int := 1
/-- Opcode 2. -/
def BOUND : Int := 2
/-- Opcode 3. -/
def FREE : Int := 3
/-- Opcode 4. -/
def GLOBAL : Int := 4
/-- Opcode 5. -/
def JUMP : Int := 5
/-- Opcode 6. -/
def BRANCH : Int := 6
/-- Opcode 7. -/
def PUSH : Int := 7
/-- Opcode 8. -/
def LOOKUP : Int := 8
/-- Opcode 9. -/
def GET : Int := 9
/-- Opcode 10. -/
def SET : Int := 10
/-- Opcode 11. -/
def CALL : Int := 11
/-- Opcode 12. -/
def TGET : Int := 12
/-- Opcode 13. -/
def TCALL : Int := 13
/-- Opcode 14. -/
def FRAME : Int := 14
/-- Opcode 15. -/
def RETURN : Int := 15

/-- A native function: what `fn(p).perform(p)` does to the heap and to the
process (`perform` itself does nothing). -/
abbrev Native := Heap × Process → Res (Heap × Process)

/-- The method `Process.throw`. -/
def Process.throw {α : Type} (e : String) : Res α := .fault e

/-- The method `Process.nextByte`. -/
def Process.nextByte (p : Process) : Res (Int × Process) := do
  let res ← index p.frame.code p.frame.pos
  let p := { p with frame := { p.frame with pos := p.frame.pos + 1 } }
  pure ((res.val : Int), p)

/-- The method `Process.next2Bytes`; `b2 << 8` is `b2 * 2 ^ 8`. -/
def Process.next2Bytes (p : Process) : Res (Int × Process) := do
  let (b1, p) ← p.nextByte
  let (b2, p) ← p.nextByte
  pure (b2 * 2 ^ 8 + b1, p)

/-- The method `Process.next4Bytes`; `b2 << 16` is `b2 * 2 ^ 16`. -/
def Process.next4Bytes (p : Process) : Res (Int × Process) := do
  let (b1, p) ← p.next2Bytes
  let (b2, p) ← p.next2Bytes
  pure (b2 * 2 ^ 16 + b1, p)

/-- The capacity of the array that `append` allocates when a slice of capacity
`oldCap` is to hold `newLen` elements: twice the old capacity, or `newLen` when
that is more.  The runtime then rounds the size up to an allocation class,
which changes nothing for a stack of up to 32 values that grows by one. -/
def growCap (newLen oldCap : Nat) : Nat :=
  if newLen > 2 * oldCap then newLen else 2 * oldCap

/-- The assignment `stack[i] = x` on the backing array `arr`, as a frame saved
by `enter` sees it: a frame whose stack has this array holds the new element,
when its stack is long enough to show it. -/
def frame.seeWrite (arr i : Nat) (x : V) (f : frame) : frame :=
  if f.stackArray = arr then { f with stack := f.stack.set i x } else f

/-- The identity of a newly allocated backing array: one that no stack of the
process has. -/
def Process.freshArray (p : Process) : Nat :=
  (p.control.map (fun f => f.stackArray)).foldl max p.frame.stackArray + 1

/-- The method `Process.push`, that is `append(p.stack, x)`: while the
capacity allows, the element is written to the backing array in place, where
the saved frames that share the array see it; a full stack is copied to a new
array. -/
def Process.push (p : Process) (x : V) : Process :=
  let n := p.frame.stack.length
  if n < p.frame.stackCap then
    { p with frame := { p.frame with stack := p.frame.stack ++ [x] },
             control := p.control.map (frame.seeWrite p.frame.stackArray n x) }
  else
    { p with frame := { p.frame with stack := p.frame.stack ++ [x],
                                     stackArray := p.freshArray,
                                     stackCap := growCap (n + 1) p.frame.stackCap } }

/-- The method `Process.pop`. -/
def Process.pop (p : Process) : Res (V × Process) := do
  let stop : Int := (p.frame.stack.length : Int) - 1
  let last ← index p.frame.stack stop
  let stack ← sliceTo p.frame.stack stop
  pure (last, { p with frame := { p.frame with stack := stack } })

/-- The method `Process.enter`. -/
def Process.enter (p : Process) : Process :=
  { p with control := p.control ++ [p.frame] }

/-- The method `Process.leave`. -/
def Process.leave (p : Process) : Res Process := do
  let stop : Int := (p.control.length : Int) - 1
  let fr ← index p.control stop
  let control ← sliceTo p.control stop
  pure { p with frame := fr, control := control }

/-- The loop of `Process.shuffle`, from index `i` on, with `n = argc - i`
passes left.  The assignment `p.stack[dest+i] = p.stack[src+i]` writes to the
backing array, so the saved frames that share it see the new element. -/
def Process.shuffleLoop (dest src : Int) : Nat → Int → Process → Res Process
  | 0, _, p => .ok p
  | n + 1, i, p => do
    let x ← index p.frame.stack (src + i)
    let stack ← assign p.frame.stack (dest + i) x
    let p := { p with frame := { p.frame with stack := stack },
                      control := p.control.map
                        (frame.seeWrite p.frame.stackArray (dest + i).toNat x) }
    Process.shuffleLoop dest src n (i + 1) p

/-- The method `Process.shuffle`. -/
def Process.shuffle (p : Process) (argc : Int) : Res Process := do
  let dest := p.frame.base
  let src := (p.frame.stack.length : Int) - argc
  let p ← Process.shuffleLoop dest src argc.toNat 0 p
  let stack ← sliceTo p.frame.stack (dest + argc)
  pure { p with frame := { p.frame with stack := stack } }

/-- What a frame saved by `enter` shows after `i` passes of the loop of
`shuffle`, for a current stack `st` on the backing array `arr` and a saved
frame that was `f` before: `g` has the registers of `f` and a stack as long;
it is `f` when `f` has another backing array, and otherwise its stack has the
values copied down to `base`, as far as it reaches, and the elements of `f`
elsewhere. -/
def savedAfter (arr : Nat) (st : List V) (base src i : Nat) (f g : frame) : Prop :=
  { g with stack := f.stack } = f ∧ g.stack.length = f.stack.length ∧
  (f.stackArray ≠ arr → g = f) ∧
  (f.stackArray = arr → ∀ m, g.stack[m]? =
    if base ≤ m ∧ m < base + i ∧ m < f.stack.length then st[src + (m - base)]?
    else f.stack[m]?)

/-- The method `Process.lookup`.  Each unit of fuel pays for one call. -/
def Process.lookup : Nat → Heap → Process → V → Res Process
  | 0, _, _, _ => .diverge
  | fuel + 1, h, p, nm =>
    match nm with
    | .name nmv => do
      let cls ← p.host.ClassOf h p.result
      match cls with
      | .cls ref =>
        match h.classes.get? ref with
        | none => .fault "nil pointer dereference"
        | some bcls => do
          let slot ← bcls.lookup h nmv
          pure { p with frame := { p.frame with slot := slot } }
      | _ => do
        let p := p.push p.result
        let p := p.enter
        let p := p.push nm
        let p := { p with result := cls }
        let p ← Process.lookup fuel h p p.host.builtins.names.lookup
        let p := { p with frame := { p.frame with slot := p.result } }
        let (res, p) ← p.pop
        pure { p with result := res }
    | _ => Process.throw "name wrong type"

/-- The method `Process.getFieldOffset`.  The pointer `&obj.fields[offset]` it
returns is the reference of the object and the index of the field. -/
def Process.getFieldOffset (h : Heap) (p : Process) : Res (Nat × Int) :=
  match p.frame.slot with
  | .object sref =>
    match h.objects.get? sref with
    | none => .fault "nil pointer dereference"
    | some so => do
      let f0 ← index so.fields 0
      let (offset, ok) := f0.AsInt
      if !ok then Process.throw "unexpected field offset type"
      else
        let (obj, ok) := p.frame.this.AsObject
        if !ok then Process.throw "unexpected target type"
        else
          match obj with
          | none => .fault "nil pointer dereference"
          | some oref =>
            match h.objects.get? oref with
            | none => .fault "nil pointer dereference"
            | some o => do
              let _ ← index o.fields offset
              pure (oref, offset)
  | _ => .fault "interface conversion"

/-- Read through a pointer returned by `getFieldOffset`. -/
def Heap.readField (h : Heap) (ptr : Nat × Int) : Res V :=
  match h.objects.get? ptr.1 with
  | none => .fault "nil pointer dereference"
  | some o => index o.fields ptr.2

/-- Write through a pointer returned by `getFieldOffset`. -/
def Heap.writeField (h : Heap) (ptr : Nat × Int) (val : V) : Res Heap :=
  match h.objects.get? ptr.1 with
  | none => .fault "nil pointer dereference"
  | some o => do
    let fields ← assign o.fields ptr.2 val
    pure { h with objects := h.objects.set ptr.1 { o with fields := fields } }

/-- The method `Process.callPrimitive`; the heap comes back with the process
because the native function may have written to it. -/
def Process.callPrimitive (natives : Nat → Native) (h : Heap) (p : Process) (argc : Int)
    (tail : Bool) : Res (Bool × Heap × Process) := do
  let c ← p.host.ClassOf h p.frame.slot
  let same ← c.eq p.host.builtins.classes.Primitive
  if !same then pure (false, h, p)
  else
    let p ← if tail then p.shuffle argc else pure p
    match p.result with
    | .primitive fn =>
      let p := { p with frame := { p.frame with argc := argc } }
      let (h, p) ← natives fn (h, p)
      pure (true, h, p)
    | _ => Process.throw "unexpected primitive method type"

/-- The method `Process.call`.  Each unit of fuel pays for one pass of its loop. -/
def Process.call (natives : Nat → Native) :
    Nat → Heap → Process → Int → Bool → Res (Heap × Process)
  | 0, _, _, _, _ => .diverge
  | fuel + 1, h, p, argc, tail => do
    let calln := p.host.builtins.names.callSlot
    let (done, h, p) ← p.callPrimitive natives h argc tail
    if done then pure (h, p)
    else
      let p := p.push p.result
      let p := { p with result := p.frame.slot }
      let argc := argc + 1
      let p ← Process.lookup fuel h p calln
      Process.call natives fuel h p argc tail

/-- The method `Process.get`. -/
def Process.get (natives : Nat → Native) (fuel : Nat) (h : Heap) (p : Process)
    (tail : Bool) : Res (Heap × Process) := do
  let c ← p.host.ClassOf h p.frame.slot
  let isField ← c.eq p.host.builtins.classes.Field
  let p ← if isField then do
      let field ← p.getFieldOffset h
      let v ← h.readField field
      pure { p with result := v }
    else pure p
  let p := if !tail then p.enter else p
  let p := p.push p.result
  let p ← Process.lookup fuel h p p.host.builtins.names.getSlot
  Process.call natives fuel h p 1 tail

/-- The method `Process.set`. -/
def Process.set (natives : Nat → Native) (fuel : Nat) (h : Heap) (p : Process)
    (val : V) : Res (Heap × Process) := do
  let c ← p.host.ClassOf h p.frame.slot
  let isField ← c.eq p.host.builtins.classes.Field
  let h ← if isField then do
      let field ← p.getFieldOffset h
      h.writeField field val
    else pure h
  let p := p.enter
  let p := p.push val
  let p := p.push p.result
  let p ← Process.lookup fuel h p p.host.builtins.names.setSlot
  Process.call natives fuel h p 2 false

/-- The constant `p.unit.Values[id]`. -/
def Process.constant (p : Process) (id : Int) : Res V :=
  match p.frame.unit with
  | none => .fault "nil pointer dereference"
  | some u => index u.Values id

/-- The method `Process.run`.  Each unit of fuel pays for one instruction; an
opcode above `RETURN` matches no case and the loop goes on. -/
def Process.run (natives : Nat → Native) : Nat → Heap → Process → Res (Heap × Process)
  | 0, _, _ => .diverge
  | fuel + 1, h, p => do
    let (op, p) ← p.nextByte
    if op = HALT then pure (h, p)
    else if op = THIS then
      Process.run natives fuel h { p with result := p.frame.this }
    else if op = BOUND then do
      let (n, p) ← p.nextByte
      let v ← index p.frame.stack (p.frame.base + n)
      Process.run natives fuel h { p with result := v }
    else if op = FREE then do
      let (n, p) ← p.next2Bytes
      let v ← index p.frame.stack n
      Process.run natives fuel h { p with result := v }
    else if op = GLOBAL then do
      let (id, p) ← p.next4Bytes
      let v ← p.constant id
      Process.run natives fuel h { p with result := v }
    else if op = JUMP then do
      let (loc, p) ← p.next2Bytes
      Process.run natives fuel h { p with frame := { p.frame with pos := loc } }
    else if op = BRANCH then do
      let (bpos, p) ← p.next2Bytes
      let p := if !p.result.AsBool then { p with frame := { p.frame with pos := bpos } } else p
      Process.run natives fuel h p
    else if op = PUSH then
      Process.run natives fuel h (p.push p.result)
    else if op = LOOKUP then do
      let (id, p) ← p.next4Bytes
      let name ← p.constant id
      let p ← Process.lookup fuel h p name
      Process.run natives fuel h p
    else if op = GET then do
      let (h, p) ← Process.get natives fuel h p false
      Process.run natives fuel h p
    else if op = SET then do
      let (val, p) ← p.pop
      let p := { p with result := V.nil }
      let (h, p) ← Process.set natives fuel h p val
      Process.run natives fuel h p
    else if op = CALL then do
      let (argc, p) ← p.nextByte
      let (h, p) ← Process.call natives fuel h p argc false
      Process.run natives fuel h p
    else if op = TGET then do
      let (h, p) ← Process.get natives fuel h p true
      Process.run natives fuel h p
    else if op = TCALL then do
      let (argc, p) ← p.nextByte
      let (h, p) ← Process.call natives fuel h p argc true
      Process.run natives fuel h p
    else if op = FRAME then do
      let (loc, p) ← p.next2Bytes
      let p := { p with frame := { p.frame with pos := loc } }
      Process.run natives fuel h p.enter
    else if op = RETURN then do
      let p ← p.leave
      Process.run natives fuel h p
    else Process.run natives fuel h p

/-- A heap with nothing allocated. -/
def Heap.empty : Heap := ⟨Store.empty, [], []⟩

/-- A heap holding one object, whose `class` field is the class with reference 0. -/
def exampleHeap : Heap := ⟨Store.empty, [⟨V.cls 0, [V.int 7]⟩], []⟩

/-- A process of the tests: `new(Process)` with its code and its unit set. -/
def Process.load (host : Interpreter) (code : List byte) (vs : List V) : Process :=
  { Process.new host with frame := { frame.zero with code := code, unit := some ⟨vs⟩ } }

/-- The four bytes of `id`, least significant first. -/
def littleEndian4 (id : Nat) : List byte :=
  [Fin.ofNat id, Fin.ofNat (id / 256), Fin.ofNat (id / 65536), Fin.ofNat (id / 16777216)]

/-- The chain `s.extend([n1]).extend([n2])`. -/
def extendTwice (fuel : Nat) (σ : Store) (s n1 n2 : Nat) : Option (Store × Nat) :=
  (extend fuel σ s [n1]).bind (fun r => extend fuel r.1 r.2 [n2])

/-- A host whose builtin classes and names are seven distinct classes and four
distinct names. -/
def exampleHost : Interpreter :=
  ⟨⟨⟨V.cls 0, V.cls 1, V.cls 2, V.cls 3, V.cls 4, V.cls 5, V.cls 6⟩,
      ⟨V.name 0, V.name 1, V.name 2, V.name 3⟩⟩, V.nil, []⟩

/-- No native function does anything. -/
def idleNatives : Nat → Native := fun _ hp => .ok hp

/-- The native function number `k` leaves `Int k` in the result register. -/
def markNatives : Nat → Native := fun k hp => .ok (hp.1, { hp.2 with result := V.int k })

/-- A process about to run `code` with the given slot and result registers. -/
def Process.withRegisters (host : Interpreter) (code : List byte) (slot result : V) :
    Process :=
  { Process.new host with result := result,
                          frame := { frame.zero with code := code, slot := slot } }

/-! ## The image reader (`bytecode/image.go`) -/

/-- The values of Go's `error` that the reader meets: `io.EOF`,
`io.ErrUnexpectedEOF`, the five errors of the package, and whatever else a
handler returns. -/
inductive Error where
  | EOF
  | ErrUnexpectedEOF
  | ErrMagicNumber
  | ErrFormatVersion
  | ErrUnknownSection
  | ErrInvalidEntry
  | ErrIntTooLarge
  | other (msg : String)
deriving DecidableEq, Repr

/-- A call that the reader makes on `Handler` to deliver an item.  A `float64`
is its bit pattern, an `ItemId` a natural number below `2^32`. -/
inductive Call where
  | Int (x : Int)
  | Float (bits : Nat)
  | Bytes (bs : List byte)
  | Compound (id : byte) (items : List Nat)
deriving DecidableEq, Repr

/-- The Go interface `Handler`.  An implementation may keep state, so what a
method returns is a function of the calls received before and of its
arguments; `none` is the nil error. -/
structure Handler where
  Int : List Call → Int → Option Error
  Float : List Call → Nat → Option Error
  Bytes : List Call → List byte → Option Error
  CompoundSize : List Call → byte → ℤ × Option Error
  Compound : List Call → byte → List Nat → Option Error

/-- The Go struct `reader`.  `input` is what the `io.Reader` has still to
deliver, `calls` the item calls the handler has received; the handler itself
is passed to the methods. -/
structure reader where
  input : List byte
  buf : List byte
  err : Option Error
  lastItem : Nat
  calls : List Call
deriving DecidableEq, Repr

/-- The constant `magicString`. -/
def magicString : List byte := [0x00, 0x53, 0x43, 0x52]

/-- The constant `formatString`. -/
def formatString : List byte := [0x01, 0x00, 0x00, 0x00]

/-- Go's `l[n:]`, which panics when `n` is out of range. -/
def sliceFrom {α : Type} (l : List α) (n : Nat) : Res (List α) :=
  if n ≤ l.length then .ok (l.drop n) else .fault "slice bounds out of range"

/-- The library function `binary.LittleEndian.Uint32`, which panics on fewer
than four bytes. -/
def Uint32 (b : List byte) : Res Nat :=
  match b with
  | b0 :: b1 :: b2 :: b3 :: _ =>
    .ok (b0.val + b1.val * 2 ^ 8 + b2.val * 2 ^ 16 + b3.val * 2 ^ 24)
  | _ => .fault "index out of range"

/-- The library function `binary.LittleEndian.Uint64`, which panics on fewer
than eight bytes. -/
def Uint64 (b : List byte) : Res Nat :=
  match b with
  | b0 :: b1 :: b2 :: b3 :: b4 :: b5 :: b6 :: b7 :: _ =>
    .ok (b0.val + b1.val * 2 ^ 8 + b2.val * 2 ^ 16 + b3.val * 2 ^ 24 + b4.val * 2 ^ 32 +
      b5.val * 2 ^ 40 + b6.val * 2 ^ 48 + b7.val * 2 ^ 56)
  | _ => .fault "index out of range"

/-- The loop of the library function `binary.Uvarint`: the bytes from index
`i` on, with the accumulator `x` and the shift `s`; arithmetic is on `uint64`. -/
def UvarintLoop : List byte → Nat → Nat → Nat → Nat × Int
  | [], _, _, _ => (0, 0)
  | b :: rest, i, x, s =>
    if i = 10 then (0, -((i : Int) + 1))
    else if b.val < 0x80 then
      if i = 9 ∧ b.val > 1 then (0, -((i : Int) + 1))
      else ((x ||| (b.val <<< s) % 2 ^ 64), (i : Int) + 1)
    else UvarintLoop rest (i + 1) (x ||| ((b.val &&& 0x7f) <<< s) % 2 ^ 64) (s + 7)

/-- The library function `binary.Uvarint`. -/
def Uvarint (buf : List byte) : Nat × Int := UvarintLoop buf 0 0 0

/-- The library function `binary.Varint`: the zig-zag decoding of `Uvarint`. -/
def Varint (buf : List byte) : Int × Int :=
  let (ux, n) := Uvarint buf
  let x : Int := ((ux >>> 1 : Nat) : Int)
  (if ux &&& 1 ≠ 0 then -x - 1 else x, n)

/-- The method `reader.ignoreEOF`. -/
def reader.ignoreEOF (r : reader) : reader :=
  if r.err = some Error.EOF then { r with err := none } else r

/-- The method `reader.hasLen`; `size` is a `uint32`. -/
def reader.hasLen (r : reader) (size : Nat) : reader × Bool :=
  if r.buf.length < size then ({ r with err := some Error.ErrUnexpectedEOF }, false)
  else (r, true)

/-- The library function `io.ReadFull` on an input that delivers its bytes
until there are none: the bytes read, the input left and the error. -/
def ReadFull (input : List byte) (size : Nat) : List byte × List byte × Option Error :=
  let got := input.take size
  (got, input.drop size,
    if got.length = size then none
    else if got.length = 0 then some Error.EOF
    else some Error.ErrUnexpectedEOF)

/-- The method `reader.readBuffer`: the buffer has `size` bytes, zero where
nothing was read. -/
def reader.readBuffer (r : reader) (size : Nat) : reader :=
  let (got, left, err) := ReadFull r.input size
  let n := got.length
  let buf := got ++ List.replicate (size - n) (0 : byte)
  let r := { r with input := left, buf := buf, err := err }
  if n < size then { r with err := some Error.ErrUnexpectedEOF } else r

/-- The method `reader.readHead`. -/
def reader.readHead (r : reader) : Res (reader × Nat) := do
  let r := r.readBuffer 12
  let eof := decide (r.err = some Error.EOF)
  let r := r.ignoreEOF
  if r.err ≠ none then pure (r, 0)
  else
    let tail ← sliceFrom r.buf 8
    let size ← Uint32 tail
    let r := if eof ∧ size ≠ 0 then { r with err := some Error.ErrUnexpectedEOF } else r
    let r := if (r.buf.drop 4).take 4 ≠ formatString then
        { r with err := some Error.ErrFormatVersion } else r
    let r := if r.buf.take 4 ≠ magicString then
        { r with err := some Error.ErrMagicNumber } else r
    let size := if r.err ≠ none then 0 else size
    pure (r, size)

/-- The method `reader.init`. -/
def reader.init (r : reader) : Res reader := do
  let (r, size) ← r.readHead
  if r.err ≠ none then pure r
  else
    let r := r.readBuffer size
    pure r.ignoreEOF

/-- The method `reader.nextByte`. -/
def reader.nextByte (r : reader) : Res (byte × reader) :=
  match r.buf with
  | b :: rest => .ok (b, { r with buf := rest })
  | [] => .fault "index out of range"

/-- The method `reader.readInt`. -/
def reader.readInt (hd : Handler) (r : reader) : Res reader :=
  let (x, c) := Varint r.buf
  if c > 0 then do
    let buf ← sliceFrom r.buf c.toNat
    let r := { r with buf := buf }
    pure { r with err := hd.Int r.calls x, calls := r.calls ++ [Call.Int x] }
  else if c < 0 then pure { r with err := some Error.ErrIntTooLarge }
  else pure { r with err := some Error.ErrUnexpectedEOF }

/-- The method `reader.readFloat`; the error that `Float` returns is dropped. -/
def reader.readFloat (_hd : Handler) (r : reader) : Res reader := do
  let (r, ok) := r.hasLen 8
  if !ok then pure r
  else
    let bits ← Uint64 r.buf
    let buf ← sliceFrom r.buf 8
    let r := { r with buf := buf }
    pure { r with calls := r.calls ++ [Call.Float bits] }

/-- The method `reader.readSize`. -/
def reader.readSize (r : reader) : Res (reader × Nat × Bool) := do
  let (r, ok) := r.hasLen 4
  if !ok then pure (r, 0, false)
  else
    let size ← Uint32 r.buf
    let buf ← sliceFrom r.buf 4
    pure ({ r with buf := buf }, size, true)

/-- The method `reader.readBytes`. -/
def reader.readBytes (hd : Handler) (r : reader) : Res reader := do
  let (r, size, ok) ← r.readSize
  if !ok then pure r
  else
    let (r, ok) := r.hasLen size
    if !ok then pure r
    else
      let bs ← sliceTo r.buf size
      let r := { r with err := hd.Bytes r.calls bs, calls := r.calls ++ [Call.Bytes bs] }
      let buf ← sliceFrom r.buf size
      pure { r with buf := buf }

/-- The method `reader.readCompoundSize`. -/
def reader.readCompoundSize (hd : Handler) (r : reader) (id : byte) : Res (reader × Int) :=
  let (size, err) := hd.CompoundSize r.calls id
  if err ≠ none then pure ({ r with err := err }, 0)
  else if size < 0 then do
    let (r, c, ok) ← r.readSize
    if !ok then pure (r, 0)
    else pure (r, (c : Int))
  else pure (r, size)

/-- The loop `for i := range items` of `readCompound`, from index `i` on with
`n` passes left: the items read so far, or `none` after `ErrInvalidEntry`. -/
def readCompoundLoop (buf : List byte) (lastItem : Nat) :
    Nat → Nat → List Nat → Res (Option (List Nat))
  | 0, _, items => .ok (some items)
  | n + 1, i, items => do
    let tail ← sliceFrom buf (4 * i)
    let item ← Uint32 tail
    if item > lastItem then pure none
    else readCompoundLoop buf lastItem n (i + 1) (items ++ [item])

/-- The method `reader.readCompound`; `4*uint32(size)` is computed modulo
`2^32`, the error that `Compound` returns is dropped, and the line printed by
`fmt.Println` is not modelled. -/
def reader.readCompound (hd : Handler) (r : reader) (idb : byte) : Res reader := do
  let id := idb
  let (r, size) ← r.readCompoundSize hd id
  if r.err ≠ none then pure r
  else
    let (r, ok) := r.hasLen (4 * (size % 2 ^ 32).toNat % 2 ^ 32)
    if !ok then pure r
    else
      let items ← readCompoundLoop r.buf r.lastItem size.toNat 0 []
      match items with
      | none => pure { r with err := some Error.ErrInvalidEntry }
      | some items =>
        let buf ← sliceFrom r.buf (4 * size.toNat)
        let r := { r with buf := buf }
        pure { r with calls := r.calls ++ [Call.Compound id items] }

/-- The method `reader.readItem`; `lastItem` is a `uint32`. -/
def reader.readItem (hd : Handler) (r : reader) : Res reader :=
  if r.buf.length = 0 then pure { r with err := some Error.EOF }
  else do
    let (b, r) ← r.nextByte
    let r ← if b.val = 0 then r.readInt hd
      else if b.val = 1 then r.readFloat hd
      else if b.val = 2 then r.readBytes hd
      else r.readCompound hd b
    pure { r with lastItem := (r.lastItem + 1) % 2 ^ 32 }

/-- The loop `for r.err == nil` of `reader.read`.  Each unit of fuel pays for
one call of `readItem`. -/
def reader.readLoop (hd : Handler) : Nat → reader → Res reader
  | 0, r => if r.err = none then .diverge else pure r
  | fuel + 1, r =>
    if r.err = none then do
      let r ← r.readItem hd
      reader.readLoop hd fuel r
    else pure r

/-- The method `reader.read`.  Every call of `readItem` takes a byte off the
buffer or sets the error, so the loop is given one call more than the buffer
has bytes. -/
def reader.read (hd : Handler) (r : reader) : Res reader := do
  let r ← r.init
  let r ← reader.readLoop hd (r.buf.length + 1) r
  pure r.ignoreEOF

/-- The function `ReadImage`: the error returned and the calls the handler
received. -/
def ReadImage (input : List byte) (hd : Handler) : Res (Option Error × List Call) := do
  let r ← reader.read hd ⟨input, [], none, 0, []⟩
  pure (r.err, r.calls)

/-- The table `testTypes` of `image_test.go`, by its sizes. -/
def testTypes : List Int := [1, 0, -1]

/-- The handler `testHandler` of `image_test.go`: every item call succeeds and
is recorded, `CompoundSize` looks `id - 3` up in `testTypes`. -/
def testHandler : Handler where
  Int := fun _ _ => none
  Float := fun _ _ => none
  Bytes := fun _ _ => none
  CompoundSize := fun _ id =>
    match testTypes.get? (id.val - 3) with
    | some n => (n, none)
    | none => (0, some Error.ErrUnknownSection)
  Compound := fun _ _ _ => none

/-- The eight bytes of a valid header: `magicString` and `formatString`. -/
def imageHeader : List byte := magicString ++ formatString

/-- The body size that the bytes 8 to 11 of an input declare. -/
def declaredSize (input : List byte) : Nat :=
  match Uint32 (input.drop 8) with
  | .ok n => n
  | _ => 0

/-! ## Well-formed image bodies -/

/-- The wire format of a varint whose first byte has index `i`: bytes with
the high bit set, then one byte without it, ten bytes at most, the tenth at
most 1. -/
def isVarintFrom : Nat → List byte → Bool
  | _, [] => false
  | i, [b] => decide (b.val < 0x80) && (decide (i < 9) || (decide (i = 9) && decide (b.val ≤ 1)))
  | i, b :: c :: rest =>
    decide (0x80 ≤ b.val) && decide (i < 9) && isVarintFrom (i + 1) (c :: rest)

/-- The item ids of a compound, four little-endian bytes each. -/
def encodeIds : List Nat → List byte
  | [] => []
  | j :: rest => littleEndian4 j ++ encodeIds rest

/-- An item of an image body: the varint bytes of an integer, the eight bytes
of a float, the payload of a byte string, or the type and the item ids of a
compound, whose count the handler fixes (`compound`) or the image gives in a
four-byte prefix (`counted`). -/
inductive Item where
  | int (vb : List byte)
  | float (bs : List byte)
  | bytes (payload : List byte)
  | compound (id : byte) (items : List Nat)
  | counted (id : byte) (items : List Nat)
deriving DecidableEq, Repr

/-- The bytes of an item: its tag and what follows. -/
def Item.encode : Item → List byte
  | .int vb => 0 :: vb
  | .float bs => 1 :: bs
  | .bytes payload => 2 :: (littleEndian4 payload.length ++ payload)
  | .compound id items => id :: encodeIds items
  | .counted id items => id :: (littleEndian4 items.length ++ encodeIds items)

/-- The eight little-endian bytes of a float as a bit pattern. -/
def floatBits (bs : List byte) : Nat :=
  match Uint64 bs with
  | .ok n => n
  | _ => 0

/-- The call that delivers an item, with its decoded payload. -/
def Item.call : Item → Call
  | .int vb => Call.Int (Varint vb).1
  | .float bs => Call.Float (floatBits bs)
  | .bytes payload => Call.Bytes payload
  | .compound id items => Call.Compound id items
  | .counted id items => Call.Compound id items

/-- An item is well formed as the item number `k`, for a handler that has
received the calls `cs`: its bytes have the right form, the handler accepts
it, the count of a compound is the one `CompoundSize` fixes, or `CompoundSize`
is negative for a counted one, and every listed id is below `k`. -/
def Item.wellFormed (hd : Handler) (k : Nat) (cs : List Call) : Item → Prop
  | .int vb => isVarintFrom 0 vb = true ∧ hd.Int cs (Varint vb).1 = none
  | .float bs => bs.length = 8
  | .bytes payload => payload.length < 2 ^ 32 ∧ hd.Bytes cs payload = none
  | .compound id items =>
    3 ≤ id.val ∧ hd.CompoundSize cs id = ((items.length : Int), none) ∧ ∀ j ∈ items, j < k
  | .counted id items =>
    3 ≤ id.val ∧ (hd.CompoundSize cs id).1 < 0 ∧ (hd.CompoundSize cs id).2 = none ∧
      ∀ j ∈ items, j < k

/-- The bytes of a body: its items one after the other. -/
def encodeBody : List Item → List byte
  | [] => []
  | it :: rest => it.encode ++ encodeBody rest

/-- A body is well formed from the item number `k` on when each item is, as
the handler receives the calls of the items before it. -/
def wellFormedBody (hd : Handler) : Nat → List Call → List Item → Prop
  | _, _, [] => True
  | k, cs, it :: rest =>
    it.wellFormed hd k cs ∧ wellFormedBody hd (k + 1) (cs ++ [it.call]) rest

/-- A whole image: the header, the body size in four little-endian bytes, the body. -/
def encodeImage (items : List Item) : List byte :=
  imageHeader ++ littleEndian4 (encodeBody items).length ++ encodeBody items

/-- The store after `root.extend([hello, goodbye])` on `exampleStore`: the
child, reference 1, holds both names. -/
def twoFieldStore : Store :=
  match extend 2 exampleStore 0 [0, 1] with
  | some r => r.1
  | none => exampleStore

/-- A store for dispatch: the root shape (reference 0), the four builtin names
`lookup`, `getSlot`, `setSlot`, `callSlot` (references 0 to 3), and the child
`root.extend([getSlot])` (reference 1), which holds `getSlot` at offset 0. -/
def dispatchStore : Store :=
  let σ := (shape.init Store.empty [] [] 0).1
  let σ := (Name.init σ "lookup").1
  let σ := (Name.init σ "getSlot").1
  let σ := (Name.init σ "setSlot").1
  let σ := (Name.init σ "callSlot").1
  match extend 2 σ 0 [1] with
  | some r => r.1
  | none => σ

/-- A heap for `exampleHost`.  The classes 0 to 7 have no members, except the
class `Primitive` (reference 5), whose member `getSlot` is a primitive.  Object
0 is a `Field` object holding the offset 0; objects 1 and 2 are instances of
the class 7 with one field, holding `Int(42)` and a primitive. -/
def fieldHeap : Heap :=
  ⟨dispatchStore,
    [⟨V.cls 6, [V.int 0]⟩, ⟨V.cls 7, [V.int 42]⟩, ⟨V.cls 7, [V.primitive 9]⟩],
    [⟨none, 0, [], []⟩, ⟨none, 0, [], []⟩, ⟨none, 0, [], []⟩, ⟨none, 0, [], []⟩,
      ⟨none, 0, [], []⟩, ⟨none, 1, [1], [V.primitive 0]⟩, ⟨none, 0, [], []⟩,
      ⟨none, 0, [], []⟩]⟩

/-- A process about to call `get`: the receiver is in `this` and in the result
register, the slot register holds the `Field` object of `fieldHeap`. -/
def fieldProcess (this : V) : Process :=
  { Process.new exampleHost with result := this,
                                 frame := { frame.zero with this := this, slot := V.object 0 } }

/-! ## The merge walk of `lookup` -/

theorem lookupLoop_eq_mergeWalk (items : List nameItem) (ss : List Nat) :
    ∀ fuel, items.length + ss.length ≤ fuel → lookupLoop fuel items ss = mergeWalk items ss := by
  induction items, ss using mergeWalk.induct with
  | case1 ss => intro fuel _; cases fuel <;> simp [lookupLoop, mergeWalk]
  | case2 it its => intro fuel _; cases fuel <;> simp [lookupLoop, mergeWalk]
  | case3 it its sids =>
    intro fuel h
    cases fuel with
    | zero => simp at h
    | succ fuel => simp [lookupLoop, mergeWalk]
  | case4 it its sid sids hne hgt ih =>
    intro fuel h
    cases fuel with
    | zero => simp at h
    | succ fuel =>
      rw [lookupLoop, if_neg hne, if_pos hgt, mergeWalk, if_neg hne, if_pos hgt]
      exact ih fuel (by simp only [List.length_cons] at h ⊢; omega)
  | case5 it its sid sids hne hgt ih =>
    intro fuel h
    cases fuel with
    | zero => simp at h
    | succ fuel =>
      rw [lookupLoop, if_neg hne, if_neg hgt, mergeWalk, if_neg hne, if_neg hgt]
      exact ih fuel (by simp only [List.length_cons] at h ⊢; omega)

/-- The bounded loop of `lookup` is the merge walk. -/
theorem lookup_eq_mergeWalk (σ : Store) (s n : Nat) :
    lookup σ s n = mergeWalk (getItems σ n) (σ.getShape s).shapeset :=
  lookupLoop_eq_mergeWalk _ _ _ (le_refl _)

theorem find_congr_on {α : Type} {p q : α → Bool} (l : List α)
    (h : ∀ x ∈ l, p x = q x) : l.find? p = l.find? q := by
  induction l with
  | nil => rfl
  | cons a l ih =>
    have ha := h a (List.mem_cons_self a l)
    have hl : ∀ x ∈ l, p x = q x := fun x hx => h x (List.mem_cons_of_mem a hx)
    simp only [List.find?_cons, ha, ih hl]

theorem firstMatch_nil_right (items : List nameItem) : firstMatch items [] = none := by
  unfold firstMatch
  rw [List.find?_eq_none]
  intro x _
  simp

theorem mergeWalk_eq_firstMatch (items : List nameItem) (ss : List Nat)
    (hi : items.Sorted itemLe) (hs : ss.Sorted (· ≤ ·)) :
    mergeWalk items ss = match firstMatch items ss with
      | some it => it.offset
      | none => -1 := by
  induction items, ss using mergeWalk.induct with
  | case1 ss => simp [mergeWalk, firstMatch]
  | case2 it its => rw [firstMatch_nil_right]; simp [mergeWalk]
  | case3 it its sids =>
    simp [mergeWalk, firstMatch]
  | case4 it its sid sids hne hgt ih =>
    have hnot : it.introduced ∉ sid :: sids := by
      intro hmem
      rcases List.mem_cons.1 hmem with h | h
      · exact hne h.symm
      · have := List.rel_of_sorted_cons hs _ h
        omega
    rw [mergeWalk, if_neg hne, if_pos hgt, ih hi.of_cons hs]
    have : firstMatch (it :: its) (sid :: sids) = firstMatch its (sid :: sids) := by
      unfold firstMatch
      rw [List.find?_cons_of_neg]
      simpa using hnot
    rw [this]
  | case5 it its sid sids hne hgt ih =>
    have hlt : sid < it.introduced := by
      have : sid ≠ it.introduced := hne
      omega
    rw [mergeWalk, if_neg hne, if_neg hgt, ih hi hs.of_cons]
    have hcongr : ∀ x ∈ it :: its,
        decide (x.introduced ∈ sids) = decide (x.introduced ∈ sid :: sids) := by
      intro x hx
      have hxge : it.introduced ≤ x.introduced := by
        rcases List.mem_cons.1 hx with h | h
        · rw [h]
        · exact List.rel_of_sorted_cons hi _ h
      have : x.introduced ≠ sid := by omega
      simp [this]
    have : firstMatch (it :: its) sids = firstMatch (it :: its) (sid :: sids) :=
      find_congr_on _ hcongr
    rw [this]

/-! ## Heap updates -/

theorem getD_modify {α : Type} (l : List α) (f : α → α) (n m : Nat) (d : α) :
    (l.modify f n).getD m d = if m = n ∧ n < l.length then f (l.getD n d) else l.getD m d := by
  simp only [List.getD_eq_getElem?_getD, List.getElem?_modify]
  by_cases h : n = m
  · subst h
    by_cases hlt : n < l.length
    · simp [hlt, List.getElem?_eq_getElem hlt]
    · simp [hlt, List.getElem?_eq_none (Nat.le_of_not_lt hlt)]
  · have h2 : ¬ m = n := fun e => h e.symm
    simp [h, h2]

theorem getItems_appendItem (σ : Store) (n m : Nat) (x : nameItem) :
    getItems (appendItem σ n x) m =
      if m = n ∧ n < σ.nameHeap.length then sortItems (getItems σ n ++ [x])
      else getItems σ m := by
  simp only [getItems, Store.getName, appendItem, getD_modify]
  split <;> rfl

theorem sortItems_append_last (items : List nameItem) (x : nameItem)
    (hs : items.Sorted itemLe) (hb : ∀ it ∈ items, it.introduced ≤ x.introduced) :
    sortItems (items ++ [x]) = items ++ [x] := by
  apply List.Sorted.insertionSort_eq
  unfold List.Sorted
  rw [List.pairwise_append]
  refine ⟨hs, List.pairwise_singleton _ _, ?_⟩
  intro a ha b hb2
  rw [List.mem_singleton] at hb2
  subst hb2
  exact hb a ha

theorem sorted_append_last (items : List nameItem) (x : nameItem)
    (hs : items.Sorted itemLe) (hb : ∀ it ∈ items, it.introduced ≤ x.introduced) :
    (items ++ [x]).Sorted itemLe := by
  unfold List.Sorted
  rw [List.pairwise_append]
  refine ⟨hs, List.pairwise_singleton _ _, ?_⟩
  intro a ha b hb2
  rw [List.mem_singleton] at hb2
  subst hb2
  exact hb a ha

theorem informNames_frame (cid : Nat) (size : Int) (ms : List Nat) :
    ∀ (σ : Store) (i : Nat),
      (informNames σ cid size i ms).shapeHeap = σ.shapeHeap ∧
      (informNames σ cid size i ms).shapeIds = σ.shapeIds ∧
      (informNames σ cid size i ms).nameIds = σ.nameIds ∧
      (informNames σ cid size i ms).nameHeap.length = σ.nameHeap.length := by
  induction ms with
  | nil => intro σ i; simp [informNames]
  | cons n rest ih =>
    intro σ i
    obtain ⟨h1, h2, h3, h4⟩ := ih (appendItem σ n ⟨cid, size + i⟩) (i + 1)
    simp only [informNames]
    refine ⟨h1, h2, h3, ?_⟩
    rw [h4]
    simp [appendItem]

theorem getItems_informNames (cid : Nat) (size : Int) (m : Nat) (ms : List Nat) :
    ∀ (σ : Store) (i : Nat), (∀ n ∈ ms, n < σ.nameHeap.length) →
      (∀ n, (getItems σ n).Sorted itemLe) →
      (∀ n, ∀ it ∈ getItems σ n, it.introduced ≤ cid) →
      getItems (informNames σ cid size i ms) m = getItems σ m ++ newItems cid size m i ms := by
  induction ms with
  | nil => intro σ i _ _ _; simp [informNames, newItems]
  | cons n rest ih =>
    intro σ i hv hs hb
    have hn : n < σ.nameHeap.length := hv n (List.mem_cons_self _ _)
    have hstep : ∀ k, getItems (appendItem σ n ⟨cid, size + i⟩) k =
        if k = n then getItems σ n ++ [⟨cid, size + i⟩] else getItems σ k := by
      intro k
      rw [getItems_appendItem, sortItems_append_last _ _ (hs n) (hb n)]
      simp [hn]
    simp only [informNames, newItems]
    rw [ih]
    · rw [hstep m]
      by_cases hmn : m = n
      · subst hmn; simp
      · have : ¬ n = m := fun e => hmn e.symm
        simp [hmn, this]
    · intro k hk
      have := hv k (List.mem_cons_of_mem _ hk)
      simpa [appendItem] using this
    · intro k
      rw [hstep k]
      split
      · exact sorted_append_last _ _ (hs n) (hb n)
      · exact hs k
    · intro k it hit
      rw [hstep k] at hit
      split at hit
      · rcases List.mem_append.1 hit with h | h
        · exact hb n it h
        · rw [List.mem_singleton] at h; subst h; exact le_refl _
      · exact hb k it hit

theorem mem_newItems (cid : Nat) (size : Int) (m : Nat) (ms : List Nat) :
    ∀ (i : Nat) (e : nameItem), e ∈ newItems cid size m i ms →
      e.introduced = cid ∧ ∃ j : Nat, i ≤ j ∧ j < i + ms.length ∧ e.offset = size + j := by
  induction ms with
  | nil => intro i e h; simp [newItems] at h
  | cons n rest ih =>
    intro i e h
    simp only [newItems, List.mem_append] at h
    rcases h with h | h
    · split at h
      · rw [List.mem_singleton] at h
        subst h
        exact ⟨rfl, i, le_refl _, by simp, rfl⟩
      · simp at h
    · obtain ⟨h1, j, h2, h3, h4⟩ := ih (i + 1) e h
      refine ⟨h1, j, by omega, by simp only [List.length_cons]; omega, h4⟩

theorem newItems_of_not_mem (cid : Nat) (size : Int) (m : Nat) (ms : List Nat)
    (h : m ∉ ms) : ∀ i, newItems cid size m i ms = [] := by
  induction ms with
  | nil => intro i; rfl
  | cons n rest ih =>
    intro i
    have h1 : ¬ n = m := fun e => h (e ▸ List.mem_cons_self _ _)
    have h2 : m ∉ rest := fun e => h (List.mem_cons_of_mem _ e)
    simp [newItems, h1, ih h2]

theorem newItems_ne_nil (cid : Nat) (size : Int) (m : Nat) (ms : List Nat)
    (h : m ∈ ms) : ∀ i, newItems cid size m i ms ≠ [] := by
  induction ms with
  | nil => simp at h
  | cons n rest ih =>
    intro i
    by_cases hn : n = m
    · simp [newItems, hn]
    · have : m ∈ rest := by
        rcases List.mem_cons.1 h with h | h
        · exact absurd h.symm hn
        · exact h
      simp [newItems, hn, ih this]

/-! ## Consequences of the merge walk -/

theorem mergeWalk_nomatch (items : List nameItem) (ss : List Nat)
    (h : ∀ e ∈ items, e.introduced ∉ ss) : mergeWalk items ss = -1 := by
  induction items, ss using mergeWalk.induct with
  | case1 ss => simp [mergeWalk]
  | case2 it its => simp [mergeWalk]
  | case3 it its sids =>
    exact absurd (List.mem_cons_self _ _) (h it (List.mem_cons_self _ _))
  | case4 it its sid sids hne hgt ih =>
    rw [mergeWalk, if_neg hne, if_pos hgt]
    exact ih (fun e he => h e (List.mem_cons_of_mem _ he))
  | case5 it its sid sids hne hgt ih =>
    rw [mergeWalk, if_neg hne, if_neg hgt]
    exact ih (fun e he hm => h e he (List.mem_cons_of_mem _ hm))

theorem mergeWalk_append_left (items extra : List nameItem) (ss : List Nat)
    (h : ∀ e ∈ extra, e.introduced ∉ ss) :
    mergeWalk (items ++ extra) ss = mergeWalk items ss := by
  induction items, ss using mergeWalk.induct with
  | case1 ss => simp [mergeWalk, mergeWalk_nomatch extra ss h]
  | case2 it its => simp [mergeWalk]
  | case3 it its sids => simp [mergeWalk]
  | case4 it its sid sids hne hgt ih =>
    rw [List.cons_append, mergeWalk, if_neg hne, if_pos hgt, mergeWalk, if_neg hne,
      if_pos hgt]
    exact ih h
  | case5 it its sid sids hne hgt ih =>
    rw [List.cons_append, mergeWalk, if_neg hne, if_neg hgt, mergeWalk, if_neg hne,
      if_neg hgt]
    rw [← List.cons_append]
    exact ih (fun e he hm => h e he (List.mem_cons_of_mem _ hm))

theorem mergeWalk_append_right (items : List nameItem) (ss extra : List Nat)
    (h : ∀ e ∈ items, e.introduced ∉ extra) :
    mergeWalk items (ss ++ extra) = mergeWalk items ss := by
  induction items, ss using mergeWalk.induct with
  | case1 ss => simp [mergeWalk]
  | case2 it its =>
    rw [List.nil_append, mergeWalk_nomatch _ _ h]
    simp [mergeWalk]
  | case3 it its sids => simp [mergeWalk]
  | case4 it its sid sids hne hgt ih =>
    rw [List.cons_append, mergeWalk, if_neg hne, if_pos hgt, mergeWalk, if_neg hne,
      if_pos hgt]
    rw [← List.cons_append]
    exact ih (fun e he => h e (List.mem_cons_of_mem _ he))
  | case5 it its sid sids hne hgt ih =>
    rw [List.cons_append, mergeWalk, if_neg hne, if_neg hgt, mergeWalk, if_neg hne,
      if_neg hgt]
    exact ih h

theorem firstMatch_some {items : List nameItem} {ss : List Nat} {it : nameItem}
    (h : firstMatch items ss = some it) : it ∈ items ∧ it.introduced ∈ ss := by
  unfold firstMatch at h
  refine ⟨List.mem_of_find?_eq_some h, ?_⟩
  simpa using List.find?_some h

theorem firstMatch_none {items : List nameItem} {ss : List Nat}
    (h : firstMatch items ss = none) : ∀ it ∈ items, it.introduced ∉ ss := by
  unfold firstMatch at h
  rw [List.find?_eq_none] at h
  intro it hit
  simpa using h it hit

theorem firstMatch_isSome_of_mem {items : List nameItem} {ss : List Nat} {it : nameItem}
    (h1 : it ∈ items) (h2 : it.introduced ∈ ss) : ∃ jt, firstMatch items ss = some jt := by
  cases hf : firstMatch items ss with
  | some jt => exact ⟨jt, rfl⟩
  | none => exact absurd h2 (firstMatch_none hf it h1)

theorem sorted_le_of_lt {l : List Nat} (h : l.Sorted (· < ·)) : l.Sorted (· ≤ ·) :=
  List.Pairwise.imp (fun hab => Nat.le_of_lt hab) h

/-- In a well-formed store `lookup` returns the offset of the first matching item. -/
theorem lookup_eq_firstMatch {σ : Store} (hwf : WF σ) (s n : Nat) :
    lookup σ s n = match firstMatch (getItems σ n) (σ.getShape s).shapeset with
      | some it => it.offset
      | none => -1 := by
  rw [lookup_eq_mergeWalk]
  exact mergeWalk_eq_firstMatch _ _ (hwf.itemsSorted n)
    (sorted_le_of_lt (hwf.shapesetSorted s))

/-- In a well-formed store a name is found exactly when one of its items was
introduced in the ancestry, and then the offset lies inside the shape. -/
theorem lookup_found_iff {σ : Store} (hwf : WF σ) (s n : Nat) :
    lookup σ s n ≠ -1 ↔ ∃ it ∈ getItems σ n, it.introduced ∈ (σ.getShape s).shapeset := by
  rw [lookup_eq_firstMatch hwf]
  cases hf : firstMatch (getItems σ n) (σ.getShape s).shapeset with
  | some it =>
    obtain ⟨h1, h2⟩ := firstMatch_some hf
    have := (hwf.offsets s n it h1 h2).1
    constructor
    · intro _; exact ⟨it, h1, h2⟩
    · intro _; show it.offset ≠ -1; omega
  | none =>
    constructor
    · intro h; exact absurd rfl h
    · rintro ⟨it, h1, h2⟩; exact absurd h2 (firstMatch_none hf it h1)

theorem lookup_range {σ : Store} (hwf : WF σ) (s n : Nat) (h : lookup σ s n ≠ -1) :
    0 ≤ lookup σ s n ∧ lookup σ s n < (σ.getShape s).size := by
  rw [lookup_eq_firstMatch hwf] at h ⊢
  cases hf : firstMatch (getItems σ n) (σ.getShape s).shapeset with
  | some it =>
    obtain ⟨h1, h2⟩ := firstMatch_some hf
    exact hwf.offsets s n it h1 h2
  | none => rw [hf] at h; exact absurd rfl h

theorem lookup_missing {σ : Store} (hwf : WF σ) (s n : Nat) (h : lookup σ s n = -1) :
    ∀ it ∈ getItems σ n, it.introduced ∉ (σ.getShape s).shapeset := by
  intro it h1 h2
  exact (lookup_found_iff hwf s n).2 ⟨it, h1, h2⟩ h

/-- A shape whose shapeset includes that of `s` resolves every name `s` resolves. -/
theorem lookup_mono {σ : Store} (hwf : WF σ) (s c n : Nat)
    (hsub : ∀ id ∈ (σ.getShape s).shapeset, id ∈ (σ.getShape c).shapeset)
    (h : lookup σ s n ≠ -1) : lookup σ c n ≠ -1 := by
  obtain ⟨it, h1, h2⟩ := (lookup_found_iff hwf s n).1 h
  exact (lookup_found_iff hwf c n).2 ⟨it, h1, hsub _ h2⟩

/-! ## The store after a child has been created -/

theorem next_eq_succ {c : Nat} (h : c + 1 < uint32Size) : atomicCounter.next c = c + 1 :=
  Nat.mod_eq_of_lt h

theorem createChild_snd (σ : Store) (s : Nat) (ms : List Nat) :
    (createChild σ s ms).2 = σ.shapeHeap.length := rfl

theorem getD_append_singleton {α : Type} (l : List α) (c d : α) (t : Nat) :
    (l ++ [c]).getD t d = if t = l.length then c else l.getD t d := by
  by_cases h : t = l.length
  · subst h
    simp [List.getD_eq_getElem?_getD]
  · rw [if_neg h]
    rcases Nat.lt_or_gt_of_ne h with hlt | hgt
    · rw [List.getD_append _ _ _ _ hlt]
    · rw [List.getD_eq_default _ _ (by simp; omega), List.getD_eq_default _ _ (by omega)]

theorem init_getShape (σ : Store) (ss ns : List Nat) (size : Int) (t : Nat) :
    (shape.init σ ss ns size).1.getShape t =
      if t = σ.shapeHeap.length then
        ⟨atomicCounter.next σ.shapeIds, ss ++ [atomicCounter.next σ.shapeIds], ns, size, []⟩
      else σ.getShape t := by
  simp only [shape.init, Store.getShape]
  exact getD_append_singleton _ _ _ _

theorem createChild_shapeHeap (σ : Store) (s : Nat) (ms : List Nat) :
    (createChild σ s ms).1.shapeHeap =
      (σ.shapeHeap ++ [childShape σ s ms]).modify
        (fun sh => { sh with children :=
          ((σ.shapeHeap ++ [childShape σ s ms]).getD s ⟨0, [], [], 0, []⟩).children ++
            [σ.shapeHeap.length] }) s := by
  simp only [createChild, shape.init, tryAppendChild, getChildren, Store.getShape,
    (informNames_frame _ _ _ _ _).1, childShape]

theorem createChild_counters (σ : Store) (s : Nat) (ms : List Nat) :
    (createChild σ s ms).1.shapeIds = atomicCounter.next σ.shapeIds ∧
    (createChild σ s ms).1.nameIds = σ.nameIds ∧
    (createChild σ s ms).1.nameHeap.length = σ.nameHeap.length ∧
    (createChild σ s ms).1.shapeHeap.length = σ.shapeHeap.length + 1 := by
  refine ⟨?_, ?_, ?_, ?_⟩
  · simp only [createChild, shape.init, tryAppendChild, (informNames_frame _ _ _ _ _).2.1]
  · simp only [createChild, shape.init, tryAppendChild, (informNames_frame _ _ _ _ _).2.2.1]
  · simp only [createChild, shape.init, tryAppendChild, (informNames_frame _ _ _ _ _).2.2.2]
  · rw [createChild_shapeHeap]; simp

theorem createChild_getShape (σ : Store) (s : Nat) (ms : List Nat)
    (hs : s < σ.shapeHeap.length) (t : Nat) :
    (createChild σ s ms).1.getShape t =
      if t = σ.shapeHeap.length then childShape σ s ms
      else if t = s then { σ.getShape s with children := getChildren σ s ++ [σ.shapeHeap.length] }
      else σ.getShape t := by
  unfold Store.getShape
  rw [createChild_shapeHeap, getD_modify]
  have hlen : s < (σ.shapeHeap ++ [childShape σ s ms]).length := by simp; omega
  have hne : s ≠ σ.shapeHeap.length := by omega
  simp only [getD_append_singleton, if_neg hne]
  by_cases h1 : t = σ.shapeHeap.length
  · have h2 : ¬ t = s := by omega
    rw [if_pos h1, if_neg (fun h => h2 h.1), if_pos h1]
  · simp only [if_neg h1]
    by_cases h2 : t = s
    · rw [if_pos ⟨h2, hlen⟩, if_pos h2]
      rfl
    · rw [if_neg (fun h => h2 h.1), if_neg h2]

theorem createChild_getItems (σ : Store) (s : Nat) (ms : List Nat) (hwf : WF σ)
    (hv : ∀ n ∈ ms, n < σ.nameHeap.length) (hroom : σ.shapeIds + 1 < uint32Size) (m : Nat) :
    getItems (createChild σ s ms).1 m =
      getItems σ m ++ newItems (σ.shapeIds + 1) (σ.getShape s).size m 0 ms := by
  have hnext := next_eq_succ hroom
  have hid : ((shape.init σ (σ.getShape s).shapeset ms
      ((σ.getShape s).size + ms.length)).1.getShape σ.shapeHeap.length).id = σ.shapeIds + 1 := by
    rw [init_getShape, if_pos rfl, hnext]
  have key := getItems_informNames (σ.shapeIds + 1) (σ.getShape s).size m ms
    (shape.init σ (σ.getShape s).shapeset ms ((σ.getShape s).size + ms.length)).1 0
    hv (fun n => hwf.itemsSorted n)
    (fun n it hit => Nat.le_succ_of_le (hwf.itemsBound n it hit))
  simp only [createChild, tryAppendChild]
  have : ∀ σ2 : Store, ∀ f : List shape, getItems { σ2 with shapeHeap := f } m = getItems σ2 m :=
    fun _ _ => rfl
  rw [this]
  simp only [shape.init] at hid key ⊢
  rw [hid]
  exact key

/-! ## Lookups after a child has been created -/

theorem createChild_shapeset_old (σ : Store) (s : Nat) (ms : List Nat)
    (hs : s < σ.shapeHeap.length) (t : Nat) (ht : t ≠ σ.shapeHeap.length) :
    ((createChild σ s ms).1.getShape t).shapeset = (σ.getShape t).shapeset ∧
    ((createChild σ s ms).1.getShape t).id = (σ.getShape t).id ∧
    ((createChild σ s ms).1.getShape t).size = (σ.getShape t).size ∧
    ((createChild σ s ms).1.getShape t).names = (σ.getShape t).names := by
  rw [createChild_getShape σ s ms hs, if_neg ht]
  by_cases h : t = s
  · subst h; simp
  · simp [h]

/-- Creating a child leaves every lookup in an existing shape as it was. -/
theorem lookup_createChild_old (σ : Store) (s : Nat) (ms : List Nat) (hwf : WF σ)
    (hs : s < σ.shapeHeap.length) (hv : ∀ n ∈ ms, n < σ.nameHeap.length)
    (hroom : σ.shapeIds + 1 < uint32Size) (t m : Nat) (ht : t ≠ σ.shapeHeap.length) :
    lookup (createChild σ s ms).1 t m = lookup σ t m := by
  simp only [lookup_eq_mergeWalk]
  rw [(createChild_shapeset_old σ s ms hs t ht).1, createChild_getItems σ s ms hwf hv hroom]
  apply mergeWalk_append_left
  intro e he hmem
  have h1 := (mem_newItems _ _ _ _ _ e he).1
  have h2 := hwf.shapesetBound t _ hmem
  omega

/-- A name that is not among the missing ones resolves in the new child as in
its parent. -/
theorem lookup_createChild_new_other (σ : Store) (s : Nat) (ms : List Nat) (hwf : WF σ)
    (hs : s < σ.shapeHeap.length) (hv : ∀ n ∈ ms, n < σ.nameHeap.length)
    (hroom : σ.shapeIds + 1 < uint32Size) (m : Nat) (hm : m ∉ ms) :
    lookup (createChild σ s ms).1 σ.shapeHeap.length m = lookup σ s m := by
  simp only [lookup_eq_mergeWalk]
  rw [createChild_getItems σ s ms hwf hv hroom, newItems_of_not_mem _ _ _ _ hm,
    List.append_nil, createChild_getShape σ s ms hs, if_pos rfl]
  simp only [childShape]
  apply mergeWalk_append_right
  intro e he hmem
  rw [List.mem_singleton, next_eq_succ hroom] at hmem
  have := hwf.itemsBound m e he
  omega

/-- A missing name resolves in the new child to one of the offsets recorded
for it, all of which lie past the fields of the parent. -/
theorem lookup_createChild_new_mem (σ : Store) (s : Nat) (ms : List Nat) (hwf : WF σ)
    (hs : s < σ.shapeHeap.length) (hv : ∀ n ∈ ms, n < σ.nameHeap.length)
    (hroom : σ.shapeIds + 1 < uint32Size) (m : Nat) (hm : m ∈ ms)
    (hmiss : lookup σ s m = -1) :
    ∃ j : Nat, j < ms.length ∧
      lookup (createChild σ s ms).1 σ.shapeHeap.length m = (σ.getShape s).size + j := by
  have hnone := lookup_missing hwf s m hmiss
  have hsorted : (getItems σ m ++ newItems (σ.shapeIds + 1) (σ.getShape s).size m 0 ms).Sorted
      itemLe := by
    unfold List.Sorted
    rw [List.pairwise_append]
    refine ⟨hwf.itemsSorted m, ?_, ?_⟩
    · apply List.pairwise_of_forall_mem_list
      intro a ha b hb
      show a.introduced ≤ b.introduced
      rw [(mem_newItems _ _ _ _ _ a ha).1, (mem_newItems _ _ _ _ _ b hb).1]
    · intro a ha b hb
      show a.introduced ≤ b.introduced
      rw [(mem_newItems _ _ _ _ _ b hb).1]
      exact Nat.le_succ_of_le (hwf.itemsBound m a ha)
  have hss : ((σ.getShape s).shapeset ++ [σ.shapeIds + 1]).Sorted (· ≤ ·) := by
    unfold List.Sorted
    rw [List.pairwise_append]
    refine ⟨sorted_le_of_lt (hwf.shapesetSorted s), List.pairwise_singleton _ _, ?_⟩
    intro a ha b hb
    rw [List.mem_singleton] at hb
    subst hb
    exact Nat.le_succ_of_le (hwf.shapesetBound s a ha)
  simp only [lookup_eq_mergeWalk]
  rw [createChild_getItems σ s ms hwf hv hroom, createChild_getShape σ s ms hs, if_pos rfl]
  simp only [childShape]
  rw [next_eq_succ hroom, mergeWalk_eq_firstMatch _ _ hsorted hss]
  have hne := newItems_ne_nil (σ.shapeIds + 1) (σ.getShape s).size m ms hm 0
  obtain ⟨e, he⟩ := List.exists_mem_of_ne_nil _ hne
  have hex : ∃ jt, firstMatch
      (getItems σ m ++ newItems (σ.shapeIds + 1) (σ.getShape s).size m 0 ms)
      ((σ.getShape s).shapeset ++ [σ.shapeIds + 1]) = some jt := by
    apply firstMatch_isSome_of_mem (List.mem_append_right _ he)
    rw [(mem_newItems _ _ _ _ _ e he).1]
    simp
  obtain ⟨jt, hjt⟩ := hex
  rw [hjt]
  obtain ⟨h1, h2⟩ := firstMatch_some hjt
  rcases List.mem_append.1 h1 with h | h
  · exfalso
    rcases List.mem_append.1 h2 with h3 | h3
    · exact hnone jt h h3
    · rw [List.mem_singleton] at h3
      have := hwf.itemsBound m jt h
      omega
  · obtain ⟨_, j, _, hj2, hj3⟩ := mem_newItems _ _ _ _ _ jt h
    exact ⟨j, by omega, hj3⟩

/-! ## The invariant is preserved -/

theorem createChild_getChildren (σ : Store) (s : Nat) (ms : List Nat)
    (hs : s < σ.shapeHeap.length) (t : Nat) :
    getChildren (createChild σ s ms).1 t =
      if t = σ.shapeHeap.length then []
      else if t = s then getChildren σ s ++ [σ.shapeHeap.length]
      else getChildren σ t := by
  unfold getChildren
  rw [createChild_getShape σ s ms hs]
  by_cases h1 : t = σ.shapeHeap.length
  · simp [h1, childShape]
  · rw [if_neg h1, if_neg h1]
    by_cases h2 : t = s
    · rw [if_pos h2, if_pos h2]; rfl
    · rw [if_neg h2, if_neg h2]

theorem WF_createChild (σ : Store) (s : Nat) (ms : List Nat) (hwf : WF σ)
    (hs : s < σ.shapeHeap.length) (hv : ∀ n ∈ ms, n < σ.nameHeap.length)
    (hroom : σ.shapeIds + 1 < uint32Size) : WF (createChild σ s ms).1 := by
  have hnext := next_eq_succ hroom
  have hcnt := (createChild_counters σ s ms).1
  rw [hnext] at hcnt
  have hlen := (createChild_counters σ s ms).2.2.2
  have hnew : (createChild σ s ms).1.getShape σ.shapeHeap.length = childShape σ s ms := by
    rw [createChild_getShape σ s ms hs, if_pos rfl]
  have hold := createChild_shapeset_old σ s ms hs
  have hitems := createChild_getItems σ s ms hwf hv hroom
  have hch := createChild_getChildren σ s ms hs
  constructor
  · intro t
    by_cases ht : t = σ.shapeHeap.length
    · rw [ht, hnew]
      simp only [childShape, hnext]
      unfold List.Sorted
      rw [List.pairwise_append]
      refine ⟨hwf.shapesetSorted s, List.pairwise_singleton _ _, ?_⟩
      intro a ha b hb
      rw [List.mem_singleton] at hb
      subst hb
      exact Nat.lt_succ_of_le (hwf.shapesetBound s a ha)
    · rw [(hold t ht).1]; exact hwf.shapesetSorted t
  · intro t id hid
    rw [hcnt]
    by_cases ht : t = σ.shapeHeap.length
    · rw [ht, hnew] at hid
      simp only [childShape, hnext, List.mem_append, List.mem_singleton] at hid
      rcases hid with h | h
      · exact Nat.le_succ_of_le (hwf.shapesetBound s id h)
      · omega
    · rw [(hold t ht).1] at hid
      exact Nat.le_succ_of_le (hwf.shapesetBound t id hid)
  · intro t htl
    by_cases ht : t = σ.shapeHeap.length
    · rw [ht, hnew]
      simp [childShape]
    · rw [(hold t ht).1, (hold t ht).2.1]
      exact hwf.idMem t (by omega)
  · intro n
    rw [hitems]
    unfold List.Sorted
    rw [List.pairwise_append]
    refine ⟨hwf.itemsSorted n, ?_, ?_⟩
    · apply List.pairwise_of_forall_mem_list
      intro a ha b hb
      show a.introduced ≤ b.introduced
      rw [(mem_newItems _ _ _ _ _ a ha).1, (mem_newItems _ _ _ _ _ b hb).1]
    · intro a ha b hb
      show a.introduced ≤ b.introduced
      rw [(mem_newItems _ _ _ _ _ b hb).1]
      exact Nat.le_succ_of_le (hwf.itemsBound n a ha)
  · intro n it hit
    rw [hcnt]
    rw [hitems] at hit
    rcases List.mem_append.1 hit with h | h
    · exact Nat.le_succ_of_le (hwf.itemsBound n it h)
    · rw [(mem_newItems _ _ _ _ _ it h).1]
  · intro t
    by_cases ht : t = σ.shapeHeap.length
    · rw [ht, hnew]
      simp only [childShape]
      have := hwf.sizeNonneg s
      omega
    · rw [(hold t ht).2.2.1]; exact hwf.sizeNonneg t
  · intro t n it hit hmem
    rw [hitems] at hit
    by_cases ht : t = σ.shapeHeap.length
    · rw [ht, hnew] at hmem ⊢
      simp only [childShape, hnext, List.mem_append, List.mem_singleton] at hmem ⊢
      rcases List.mem_append.1 hit with h | h
      · have hb := hwf.itemsBound n it h
        rcases hmem with h2 | h2
        · have := hwf.offsets s n it h h2
          omega
        · omega
      · obtain ⟨_, j, _, hj2, hj3⟩ := mem_newItems _ _ _ _ _ it h
        have := hwf.sizeNonneg s
        omega
    · rw [(hold t ht).1] at hmem
      rw [(hold t ht).2.2.1]
      rcases List.mem_append.1 hit with h | h
      · exact hwf.offsets t n it h hmem
      · have h1 := (mem_newItems _ _ _ _ _ it h).1
        have h2 := hwf.shapesetBound t _ hmem
        omega
  · intro t c hc
    rw [hlen]
    rw [hch] at hc
    by_cases ht : t = σ.shapeHeap.length
    · simp [ht] at hc
    · rw [if_neg ht] at hc
      by_cases h2 : t = s
      · rw [if_pos h2] at hc
        rcases List.mem_append.1 hc with h | h
        · exact Nat.lt_succ_of_lt (hwf.childrenValid s c h)
        · rw [List.mem_singleton] at h; omega
      · rw [if_neg h2] at hc
        exact Nat.lt_succ_of_lt (hwf.childrenValid t c hc)
  · intro t c hc id hid
    rw [hch] at hc
    by_cases ht : t = σ.shapeHeap.length
    · simp [ht] at hc
    · rw [if_neg ht] at hc
      rw [(hold t ht).1] at hid
      by_cases h2 : t = s
      · rw [if_pos h2] at hc
        rcases List.mem_append.1 hc with h | h
        · have hcl := hwf.childrenValid s c h
          rw [(hold c (by omega)).1]
          exact hwf.childrenExtend s c h id (h2 ▸ hid)
        · rw [List.mem_singleton] at h
          rw [h, hnew]
          simp only [childShape, List.mem_append]
          exact Or.inl (h2 ▸ hid)
      · rw [if_neg h2] at hc
        have hcl := hwf.childrenValid t c hc
        rw [(hold c (by omega)).1]
        exact hwf.childrenExtend t c hc id hid

/-! ## What `extend` returns -/

theorem extendRetry_succ (fuel : Nat) (σ : Store) (s : Nat) (ms : List Nat) :
    extendRetry (fuel + 1) σ s ms =
      match findChild σ s ms with
      | some child => some (σ, child)
      | none => extendRetry fuel (createChild σ s ms).1 s ms := by
  simp only [extendRetry, findChild, createChild, tryAppendChild]
  cases List.find? (fun child => contains σ child ms) (getChildren σ s) <;> simp

theorem contains_iff (σ : Store) (c : Nat) (ms : List Nat) :
    contains σ c ms = true ↔ ∀ m ∈ ms, lookup σ c m ≠ -1 := by
  simp [contains]

/-- After a child has been created for the missing names, the scan of the
children of `s` stops at that child. -/
theorem findChild_createChild (σ : Store) (s : Nat) (ms : List Nat) (hwf : WF σ)
    (hs : s < σ.shapeHeap.length) (hv : ∀ n ∈ ms, n < σ.nameHeap.length)
    (hroom : σ.shapeIds + 1 < uint32Size) (hmiss : ∀ m ∈ ms, lookup σ s m = -1)
    (hnone : findChild σ s ms = none) :
    findChild (createChild σ s ms).1 s ms = some σ.shapeHeap.length := by
  unfold findChild at hnone ⊢
  rw [createChild_getChildren σ s ms hs, if_neg (by omega), if_pos rfl, List.find?_append]
  have hold : List.find? (fun child => contains (createChild σ s ms).1 child ms)
      (getChildren σ s) = none := by
    rw [← hnone]
    apply find_congr_on
    intro c hc
    have hcl := hwf.childrenValid s c hc
    have : ∀ m, lookup (createChild σ s ms).1 c m = lookup σ c m :=
      fun m => lookup_createChild_old σ s ms hwf hs hv hroom c m (by omega)
    simp [contains, this]
  rw [hold]
  have hnew : contains (createChild σ s ms).1 σ.shapeHeap.length ms = true := by
    rw [contains_iff]
    intro m hm
    obtain ⟨j, _, hj⟩ := lookup_createChild_new_mem σ s ms hwf hs hv hroom m hm (hmiss m hm)
    rw [hj]
    have := hwf.sizeNonneg s
    omega
  simp [hnew]

theorem extendRetry_eq (fuel : Nat) (σ : Store) (s : Nat) (ms : List Nat) (hwf : WF σ)
    (hs : s < σ.shapeHeap.length) (hv : ∀ n ∈ ms, n < σ.nameHeap.length)
    (hroom : σ.shapeIds + 1 < uint32Size) (hmiss : ∀ m ∈ ms, lookup σ s m = -1) :
    extendRetry (fuel + 2) σ s ms =
      match findChild σ s ms with
      | some child => some (σ, child)
      | none => some (createChild σ s ms) := by
  rw [extendRetry_succ]
  cases hf : findChild σ s ms with
  | some c => rfl
  | none =>
    simp only []
    rw [extendRetry_succ, findChild_createChild σ s ms hwf hs hv hroom hmiss hf]
    rfl

theorem mem_missingNames {σ : Store} {s : Nat} {ns : List Nat} {m : Nat} :
    m ∈ missingNames σ s ns ↔ m ∈ ns ∧ lookup σ s m = -1 := by
  simp [missingNames]

/-- With two units of fuel or more `extend` returns, and returns `extendResult`. -/
theorem extend_eq (fuel : Nat) (σ : Store) (s : Nat) (ns : List Nat) (hwf : WF σ)
    (hs : s < σ.shapeHeap.length) (hv : ∀ n ∈ ns, n < σ.nameHeap.length)
    (hroom : σ.shapeIds + 1 < uint32Size) :
    extend (fuel + 2) σ s ns = some (extendResult σ s ns) := by
  unfold extend extendResult
  show (if (missingNames σ s ns).length = 0 then some (σ, s)
    else extendRetry (fuel + 2) σ s (missingNames σ s ns)) = _
  by_cases h0 : (missingNames σ s ns).length = 0
  · rw [if_pos h0, if_pos h0]
  · rw [if_neg h0, if_neg h0, extendRetry_eq fuel σ s _ hwf hs
      (fun n hn => hv n (mem_missingNames.1 hn).1) hroom
      (fun m hm => (mem_missingNames.1 hm).2)]
    cases findChild σ s (missingNames σ s ns) <;> rfl

/-- Whatever the fuel, a result of `extend` is `extendResult`. -/
theorem extend_some (fuel : Nat) (σ : Store) (s : Nat) (ns : List Nat) (hwf : WF σ)
    (hs : s < σ.shapeHeap.length) (hv : ∀ n ∈ ns, n < σ.nameHeap.length)
    (hroom : σ.shapeIds + 1 < uint32Size) (r : Store × Nat)
    (h : extend fuel σ s ns = some r) : r = extendResult σ s ns := by
  match fuel with
  | fuel + 2 =>
    rw [extend_eq fuel σ s ns hwf hs hv hroom] at h
    exact (Option.some.inj h).symm
  | 1 =>
    unfold extend at h
    unfold extendResult
    change (if (missingNames σ s ns).length = 0 then some (σ, s)
      else extendRetry 1 σ s (missingNames σ s ns)) = some r at h
    by_cases h0 : (missingNames σ s ns).length = 0
    · rw [if_pos h0] at h ⊢; exact (Option.some.inj h).symm
    · rw [if_neg h0, extendRetry_succ] at h
      rw [if_neg h0]
      cases hf : findChild σ s (missingNames σ s ns) with
      | some c => rw [hf] at h; exact (Option.some.inj h).symm
      | none => rw [hf] at h; simp [extendRetry] at h
  | 0 =>
    unfold extend at h
    unfold extendResult
    change (if (missingNames σ s ns).length = 0 then some (σ, s)
      else extendRetry 0 σ s (missingNames σ s ns)) = some r at h
    by_cases h0 : (missingNames σ s ns).length = 0
    · rw [if_pos h0] at h ⊢; exact (Option.some.inj h).symm
    · rw [if_neg h0] at h; simp [extendRetry] at h

/-! ## Properties of the result of `extend` -/

theorem extendResult_cases (σ : Store) (s : Nat) (ns : List Nat) :
    ((missingNames σ s ns) = [] ∧ extendResult σ s ns = (σ, s)) ∨
    ((missingNames σ s ns) ≠ [] ∧ ∃ c, findChild σ s (missingNames σ s ns) = some c ∧
        extendResult σ s ns = (σ, c)) ∨
    ((missingNames σ s ns) ≠ [] ∧ findChild σ s (missingNames σ s ns) = none ∧
        extendResult σ s ns = createChild σ s (missingNames σ s ns)) := by
  unfold extendResult
  by_cases h0 : (missingNames σ s ns).length = 0
  · left
    rw [if_pos h0]
    exact ⟨List.length_eq_zero.1 h0, rfl⟩
  · right
    have hne : missingNames σ s ns ≠ [] := fun e => h0 (by rw [e]; rfl)
    rw [if_neg h0]
    cases hf : findChild σ s (missingNames σ s ns) with
    | some c => left; exact ⟨hne, c, rfl, rfl⟩
    | none => right; exact ⟨hne, rfl, rfl⟩

theorem findChild_some {σ : Store} {s c : Nat} {ms : List Nat}
    (h : findChild σ s ms = some c) : c ∈ getChildren σ s ∧ contains σ c ms = true := by
  unfold findChild at h
  exact ⟨List.mem_of_find?_eq_some h,
    List.find?_some (p := fun child => contains σ child ms) h⟩

theorem WF_extendResult (σ : Store) (s : Nat) (ns : List Nat) (hwf : WF σ)
    (hs : s < σ.shapeHeap.length) (hv : ∀ n ∈ ns, n < σ.nameHeap.length)
    (hroom : σ.shapeIds + 1 < uint32Size) : WF (extendResult σ s ns).1 := by
  rcases extendResult_cases σ s ns with ⟨_, h⟩ | ⟨_, c, _, h⟩ | ⟨_, _, h⟩
  · rw [h]; exact hwf
  · rw [h]; exact hwf
  · rw [h]
    exact WF_createChild σ s _ hwf hs (fun n hn => hv n (mem_missingNames.1 hn).1) hroom

/-- Existing shapes keep their id, shapeset, size and every lookup result. -/
theorem extendResult_frame (σ : Store) (s : Nat) (ns : List Nat) (hwf : WF σ)
    (hs : s < σ.shapeHeap.length) (hv : ∀ n ∈ ns, n < σ.nameHeap.length)
    (hroom : σ.shapeIds + 1 < uint32Size) (t : Nat) (ht : t < σ.shapeHeap.length) :
    (∀ m, lookup (extendResult σ s ns).1 t m = lookup σ t m) ∧
    ((extendResult σ s ns).1.getShape t).id = (σ.getShape t).id ∧
    ((extendResult σ s ns).1.getShape t).shapeset = (σ.getShape t).shapeset ∧
    ((extendResult σ s ns).1.getShape t).size = (σ.getShape t).size := by
  rcases extendResult_cases σ s ns with ⟨_, h⟩ | ⟨_, c, _, h⟩ | ⟨_, _, h⟩
  · rw [h]; exact ⟨fun _ => rfl, rfl, rfl, rfl⟩
  · rw [h]; exact ⟨fun _ => rfl, rfl, rfl, rfl⟩
  · rw [h]
    have hv2 : ∀ n ∈ missingNames σ s ns, n < σ.nameHeap.length :=
      fun n hn => hv n (mem_missingNames.1 hn).1
    have hold := createChild_shapeset_old σ s (missingNames σ s ns) hs t (by omega)
    exact ⟨fun m => lookup_createChild_old σ s _ hwf hs hv2 hroom t m (by omega),
      hold.2.1, hold.1, hold.2.2.1⟩

/-- The shape returned by `extend` is allocated, and no object is freed. -/
theorem extendResult_valid (σ : Store) (s : Nat) (ns : List Nat) (hwf : WF σ)
    (hs : s < σ.shapeHeap.length) :
    (extendResult σ s ns).2 < (extendResult σ s ns).1.shapeHeap.length ∧
    σ.shapeHeap.length ≤ (extendResult σ s ns).1.shapeHeap.length ∧
    (extendResult σ s ns).1.nameHeap.length = σ.nameHeap.length := by
  rcases extendResult_cases σ s ns with ⟨_, h⟩ | ⟨_, c, hc, h⟩ | ⟨_, _, h⟩
  · rw [h]; exact ⟨hs, le_refl _, rfl⟩
  · rw [h]; exact ⟨hwf.childrenValid s c (findChild_some hc).1, le_refl _, rfl⟩
  · rw [h]
    obtain ⟨_, _, h3, h4⟩ := createChild_counters σ s (missingNames σ s ns)
    rw [createChild_snd]
    exact ⟨by omega, by omega, h3⟩

/-- Every requested name resolves in the shape returned by `extend`. -/
theorem extendResult_found (σ : Store) (s : Nat) (ns : List Nat) (hwf : WF σ)
    (hs : s < σ.shapeHeap.length) (hv : ∀ n ∈ ns, n < σ.nameHeap.length)
    (hroom : σ.shapeIds + 1 < uint32Size) (n : Nat) (hn : n ∈ ns) :
    lookup (extendResult σ s ns).1 (extendResult σ s ns).2 n ≠ -1 := by
  have hv2 : ∀ n ∈ missingNames σ s ns, n < σ.nameHeap.length :=
    fun n hn => hv n (mem_missingNames.1 hn).1
  rcases extendResult_cases σ s ns with ⟨h0, h⟩ | ⟨_, c, hc, h⟩ | ⟨_, _, h⟩
  · rw [h]
    intro hl
    have : n ∈ missingNames σ s ns := mem_missingNames.2 ⟨hn, hl⟩
    rw [h0] at this
    simp at this
  · rw [h]
    obtain ⟨hc1, hc2⟩ := findChild_some hc
    by_cases hl : lookup σ s n = -1
    · exact (contains_iff σ c _).1 hc2 n (mem_missingNames.2 ⟨hn, hl⟩)
    · exact lookup_mono hwf s c n (hwf.childrenExtend s c hc1) hl
  · rw [h, createChild_snd]
    by_cases hl : lookup σ s n = -1
    · obtain ⟨j, _, hj⟩ := lookup_createChild_new_mem σ s _ hwf hs hv2 hroom n
        (mem_missingNames.2 ⟨hn, hl⟩) hl
      rw [hj]
      have := hwf.sizeNonneg s
      omega
    · rw [lookup_createChild_new_other σ s _ hwf hs hv2 hroom n
        (fun hm => hl (mem_missingNames.1 hm).2)]
      exact hl

/-- Extending with names that all resolve returns the shape and the store. -/
theorem extendResult_of_found (σ : Store) (s : Nat) (ns : List Nat)
    (h : ∀ n ∈ ns, lookup σ s n ≠ -1) : extendResult σ s ns = (σ, s) := by
  have h0 : missingNames σ s ns = [] := by
    rw [List.eq_nil_iff_forall_not_mem]
    intro n hn
    exact h n (mem_missingNames.1 hn).1 (mem_missingNames.1 hn).2
  unfold extendResult
  rw [h0]
  rfl

/-- Repeating the call on the same receiver finds the shape of the first call. -/
theorem extendResult_repeat (σ : Store) (s : Nat) (ns : List Nat) (hwf : WF σ)
    (hs : s < σ.shapeHeap.length) (hv : ∀ n ∈ ns, n < σ.nameHeap.length)
    (hroom : σ.shapeIds + 1 < uint32Size) :
    extendResult (extendResult σ s ns).1 s ns = extendResult σ s ns := by
  have hv2 : ∀ n ∈ missingNames σ s ns, n < σ.nameHeap.length :=
    fun n hn => hv n (mem_missingNames.1 hn).1
  rcases extendResult_cases σ s ns with ⟨_, h⟩ | ⟨_, c, _, h⟩ | ⟨hne, hnone, h⟩
  · rw [h]; exact h
  · rw [h]; exact h
  · rw [h]
    have hl : ∀ n, lookup (createChild σ s (missingNames σ s ns)).1 s n = lookup σ s n :=
      fun n => lookup_createChild_old σ s _ hwf hs hv2 hroom s n (by omega)
    have hmiss : missingNames (createChild σ s (missingNames σ s ns)).1 s ns =
        missingNames σ s ns := by
      rw [show missingNames (createChild σ s (missingNames σ s ns)).1 s ns =
        ns.filter (fun n => lookup (createChild σ s (missingNames σ s ns)).1 s n == -1)
        from rfl]
      simp only [hl]
      rfl
    have hfind := findChild_createChild σ s _ hwf hs hv2 hroom
      (fun m hm => (mem_missingNames.1 hm).2) hnone
    have hlen : ¬ (missingNames σ s ns).length = 0 :=
      fun e => hne (List.length_eq_zero.1 e)
    conv_lhs => unfold extendResult
    rw [hmiss, if_neg hlen, hfind]
    rfl

/-! ## Every built store is well formed -/

theorem extend_of_found (fuel : Nat) (σ : Store) (s : Nat) (ns : List Nat)
    (h : ∀ n ∈ ns, lookup σ s n ≠ -1) : extend fuel σ s ns = some (σ, s) := by
  have h0 : ns.filter (fun n => lookup σ s n == -1) = [] := by
    rw [List.eq_nil_iff_forall_not_mem]
    intro n hn
    rw [List.mem_filter] at hn
    exact h n hn.1 (by simpa using hn.2)
  unfold extend
  simp only [h0]
  rfl

theorem WF_empty : WF Store.empty := by
  constructor <;> intros <;> simp_all [Store.empty, Store.getShape, getItems, Store.getName,
    getChildren]

theorem nameInit_getItems (σ : Store) (str : String) (n : Nat) :
    getItems (Name.init σ str).1 n = getItems σ n := by
  simp only [getItems, Store.getName, Name.init, getD_append_singleton]
  split
  · next h => rw [List.getD_eq_default _ _ (by omega)]
  · rfl

theorem WF_nameInit (σ : Store) (str : String) (hwf : WF σ) : WF (Name.init σ str).1 := by
  have hi := nameInit_getItems σ str
  have hsh : ∀ t, (Name.init σ str).1.getShape t = σ.getShape t := fun _ => rfl
  have hch : ∀ t, getChildren (Name.init σ str).1 t = getChildren σ t := fun _ => rfl
  constructor
  · intro t; rw [hsh]; exact hwf.shapesetSorted t
  · intro t; rw [hsh]; exact hwf.shapesetBound t
  · intro t ht; rw [hsh]; exact hwf.idMem t ht
  · intro n; rw [hi]; exact hwf.itemsSorted n
  · intro n; rw [hi]; exact hwf.itemsBound n
  · intro t; rw [hsh]; exact hwf.sizeNonneg t
  · intro t n; rw [hi, hsh]; exact hwf.offsets t n
  · intro t; rw [hch]; exact hwf.childrenValid t
  · intro t c hc; rw [hsh, hsh]; rw [hch] at hc; exact hwf.childrenExtend t c hc

theorem WF_root (σ : Store) (hwf : WF σ) (hroom : σ.shapeIds + 1 < uint32Size) :
    WF (shape.init σ [] [] 0).1 := by
  have hnext := next_eq_succ hroom
  have hsh := init_getShape σ [] [] 0
  have hi : ∀ n, getItems (shape.init σ [] [] 0).1 n = getItems σ n := fun _ => rfl
  have hcnt : (shape.init σ [] [] 0).1.shapeIds = σ.shapeIds + 1 := hnext
  have hlen : (shape.init σ [] [] 0).1.shapeHeap.length = σ.shapeHeap.length + 1 := by
    simp [shape.init]
  constructor
  · intro t
    rw [hsh]
    split
    · simp
    · exact hwf.shapesetSorted t
  · intro t id hid
    rw [hcnt]
    rw [hsh] at hid
    split at hid
    · simp [hnext] at hid; omega
    · exact Nat.le_succ_of_le (hwf.shapesetBound t id hid)
  · intro t ht
    rw [hsh]
    split
    · simp
    · next h => exact hwf.idMem t (by omega)
  · intro n; rw [hi]; exact hwf.itemsSorted n
  · intro n it hit; rw [hcnt]; exact Nat.le_succ_of_le (hwf.itemsBound n it hit)
  · intro t
    rw [hsh]
    split
    · simp
    · exact hwf.sizeNonneg t
  · intro t n it hit hmem
    rw [hi] at hit
    rw [hsh] at hmem ⊢
    split at hmem
    · simp [hnext] at hmem
      have := hwf.itemsBound n it hit
      omega
    · next h => rw [if_neg h]; exact hwf.offsets t n it hit hmem
  · intro t c hc
    rw [hlen]
    unfold getChildren at hc
    rw [hsh] at hc
    split at hc
    · simp at hc
    · exact Nat.lt_succ_of_lt (hwf.childrenValid t c hc)
  · intro t c hc id hid
    unfold getChildren at hc
    rw [hsh] at hc hid
    split at hc
    · simp at hc
    · next h =>
      rw [if_neg h] at hid
      have hcl := hwf.childrenValid t c hc
      rw [hsh, if_neg (by omega)]
      exact hwf.childrenExtend t c hc id hid

theorem Built.wf {σ : Store} (h : Built σ) : WF σ := by
  induction h with
  | empty => exact WF_empty
  | name σ str _ ih => exact WF_nameInit σ str ih
  | root σ _ hroom ih => exact WF_root σ ih hroom
  | extend σ σ1 fuel s r ns _ hs hv hroom hext ih =>
    have := extend_some fuel σ s ns ih hs hv hroom _ hext
    have h2 := WF_extendResult σ s ns ih hs hv hroom
    rw [← this] at h2
    exact h2

/-! ## Repeated calls -/

theorem extend_eq_of_findChild (fuel : Nat) (σ : Store) (s c : Nat) (ns : List Nat)
    (hne : missingNames σ s ns ≠ [])
    (hf : findChild σ s (missingNames σ s ns) = some c) :
    extend (fuel + 1) σ s ns = some (σ, c) := by
  have h0 : ¬ (missingNames σ s ns).length = 0 := fun e => hne (List.length_eq_zero.1 e)
  show (if (missingNames σ s ns).length = 0 then some (σ, s)
    else extendRetry (fuel + 1) σ s (missingNames σ s ns)) = _
  rw [if_neg h0, extendRetry_succ, hf]

/-- A second call on the same receiver returns at once, with one unit of fuel. -/
theorem extend_repeat (fuel : Nat) (σ : Store) (s : Nat) (ns : List Nat) (hwf : WF σ)
    (hs : s < σ.shapeHeap.length) (hv : ∀ n ∈ ns, n < σ.nameHeap.length)
    (hroom : σ.shapeIds + 1 < uint32Size) :
    extend (fuel + 1) (extendResult σ s ns).1 s ns = some (extendResult σ s ns) := by
  have hv2 : ∀ n ∈ missingNames σ s ns, n < σ.nameHeap.length :=
    fun n hn => hv n (mem_missingNames.1 hn).1
  rcases extendResult_cases σ s ns with ⟨h0, h⟩ | ⟨hne, c, hc, h⟩ | ⟨hne, hnone, h⟩
  · rw [h]
    apply extend_of_found
    intro n hn hl
    have : n ∈ missingNames σ s ns := mem_missingNames.2 ⟨hn, hl⟩
    rw [h0] at this
    simp at this
  · rw [h]
    exact extend_eq_of_findChild fuel σ s c ns hne hc
  · rw [h]
    have hl : ∀ n, lookup (createChild σ s (missingNames σ s ns)).1 s n = lookup σ s n :=
      fun n => lookup_createChild_old σ s _ hwf hs hv2 hroom s n (by omega)
    have hmiss : missingNames (createChild σ s (missingNames σ s ns)).1 s ns =
        missingNames σ s ns := by
      rw [show missingNames (createChild σ s (missingNames σ s ns)).1 s ns =
        ns.filter (fun n => lookup (createChild σ s (missingNames σ s ns)).1 s n == -1)
        from rfl]
      simp only [hl]
      rfl
    have hfind := findChild_createChild σ s _ hwf hs hv2 hroom
      (fun m hm => (mem_missingNames.1 hm).2) hnone
    have hpair : createChild σ s (missingNames σ s ns) =
        ((createChild σ s (missingNames σ s ns)).1, σ.shapeHeap.length) := rfl
    conv_rhs => rw [hpair]
    generalize (createChild σ s (missingNames σ s ns)).1 = σ3 at hmiss hfind ⊢
    rw [← hmiss] at hfind hne
    exact extend_eq_of_findChild fuel σ3 s σ.shapeHeap.length ns hne hfind

theorem exampleStore_built : Built exampleStore :=
  Built.name _ _ (Built.name _ _ (Built.root _ Built.empty (by decide)))

theorem exampleStore_wf : WF exampleStore := exampleStore_built.wf

/-! ## The claims about shapes -/

/-- C1: `shape.lookup` is a correct merge walk.  In a well-formed store, where
the shapeset of every shape `s` is strictly ascending and the items of every
name `n` are sorted by introduced id, `s.lookup(n)` returns the offset of an
item of `n` whose introduced id is a member of `s.shapeset`, the one with the
smallest such id, when such an item exists, and returns -1 exactly when no
item of `n` has its introduced id in `s.shapeset`. -/
theorem lookup_merge_walk (σ : Store) (hwf : WF σ) (s n : Nat) :
    (σ.getShape s).shapeset.Sorted (· < ·) ∧ (getItems σ n).Sorted itemLe ∧
    ((∃ it ∈ getItems σ n, it.introduced ∈ (σ.getShape s).shapeset) →
      ∃ it ∈ getItems σ n, it.introduced ∈ (σ.getShape s).shapeset ∧
        lookup σ s n = it.offset ∧
        ∀ jt ∈ getItems σ n, jt.introduced ∈ (σ.getShape s).shapeset →
          it.introduced ≤ jt.introduced) ∧
    (lookup σ s n = -1 ↔
      ¬ ∃ it ∈ getItems σ n, it.introduced ∈ (σ.getShape s).shapeset) := by
  have hs := hwf.shapesetSorted s
  have hi := hwf.itemsSorted n
  have key := mergeWalk_eq_firstMatch _ _ hi (sorted_le_of_lt hs)
  rw [← lookup_eq_mergeWalk] at key
  refine ⟨hs, hi, ?_, ?_⟩
  · rintro ⟨it, h1, h2⟩
    obtain ⟨kt, hk⟩ := firstMatch_isSome_of_mem h1 h2
    rw [hk] at key
    obtain ⟨hk1, hk2⟩ := firstMatch_some hk
    refine ⟨kt, hk1, hk2, key, ?_⟩
    intro jt hj1 hj2
    unfold firstMatch at hk
    obtain ⟨as, bs, hsplit, hbefore⟩ := (List.find?_eq_some.1 hk).2
    rw [hsplit] at hj1 hi
    rcases List.mem_append.1 hj1 with h | h
    · have := hbefore jt h
      simp only [Bool.not_eq_eq_eq_not, Bool.not_true, decide_eq_false_iff_not] at this
      exact absurd hj2 this
    · rcases List.mem_cons.1 h with h | h
      · rw [h]
      · have hs2 := (List.pairwise_append.1 hi).2.1
        exact List.rel_of_sorted_cons hs2 jt h
  · have hiff := lookup_found_iff hwf s n
    constructor
    · intro hl hex
      exact hiff.2 hex hl
    · intro hno
      by_contra hl
      exact hno (hiff.1 hl)

theorem mergeStore_built : Built mergeStore :=
  Built.extend _ mergeStore 2 2 3 [1, 0]
    (Built.root _
      (Built.extend _ mergeStoreChild 2 0 1 [0]
        (Built.name _ "b" (Built.name _ "a" (Built.root _ Built.empty (by decide))))
        (by decide) (by decide) (by decide) (by decide))
      (by decide))
    (by decide) (by decide) (by decide) (by decide)

/-- Instance of `lookup_merge_walk`: in `mergeStore` the name `a` has the items
`{2, 0}` and `{4, 1}` and the second child has the shapeset `[3, 4]`, so the
walk passes the first item, then the first id, and returns the offset 1. -/
theorem lookup_merge_walk_witness :
    WF mergeStore ∧ getItems mergeStore 0 = [⟨2, 0⟩, ⟨4, 1⟩] ∧
    (mergeStore.getShape 3).shapeset = [3, 4] ∧ lookup mergeStore 3 0 = 1 ∧
    lookup mergeStore 2 0 = -1 ∧
    ((mergeStore.getShape 3).shapeset.Sorted (· < ·) ∧
      (getItems mergeStore 0).Sorted itemLe ∧
      ((∃ it ∈ getItems mergeStore 0, it.introduced ∈ (mergeStore.getShape 3).shapeset) →
        ∃ it ∈ getItems mergeStore 0, it.introduced ∈ (mergeStore.getShape 3).shapeset ∧
          lookup mergeStore 3 0 = it.offset ∧
          ∀ jt ∈ getItems mergeStore 0, jt.introduced ∈ (mergeStore.getShape 3).shapeset →
            it.introduced ≤ jt.introduced) ∧
      (lookup mergeStore 3 0 = -1 ↔
        ¬ ∃ it ∈ getItems mergeStore 0,
          it.introduced ∈ (mergeStore.getShape 3).shapeset)) :=
  ⟨mergeStore_built.wf, by decide, by decide, by decide, by decide,
    lookup_merge_walk mergeStore mergeStore_built.wf 3 0⟩

/-- C2: in single-threaded execution two successive calls `s.extend(A)` return
the same shape object, with the same id, and the second call leaves the store
as it was: no new child of `s`, no new item on any name.  The store is well
formed, `s` and the names are allocated, and the 32-bit shape id counter has
one more id to give. -/
theorem extend_twice_same_shape (fuel : Nat) (σ : Store) (s : Nat) (ns : List Nat)
    (hwf : WF σ) (hs : s < σ.shapeHeap.length) (hv : ∀ n ∈ ns, n < σ.nameHeap.length)
    (hroom : σ.shapeIds + 1 < uint32Size) :
    ∃ σ1 r1 σ2 r2, extend (fuel + 2) σ s ns = some (σ1, r1) ∧
      extend (fuel + 2) σ1 s ns = some (σ2, r2) ∧
      r2 = r1 ∧ (σ2.getShape r2).id = (σ1.getShape r1).id ∧
      getChildren σ2 s = getChildren σ1 s ∧ (∀ n, getItems σ2 n = getItems σ1 n) ∧
      σ2 = σ1 :=
  ⟨(extendResult σ s ns).1, (extendResult σ s ns).2, (extendResult σ s ns).1,
    (extendResult σ s ns).2, extend_eq fuel σ s ns hwf hs hv hroom,
    extend_repeat (fuel + 1) σ s ns hwf hs hv hroom, rfl, rfl, rfl, fun _ => rfl, rfl⟩

/-- Instance of `extend_twice_same_shape`: the root of `exampleStore` extended
twice with the name `hello`. -/
theorem extend_twice_same_shape_witness :
    ∃ σ1 r1 σ2 r2, extend 2 exampleStore 0 [0] = some (σ1, r1) ∧
      extend 2 σ1 0 [0] = some (σ2, r2) ∧
      r2 = r1 ∧ (σ2.getShape r2).id = (σ1.getShape r1).id ∧
      getChildren σ2 0 = getChildren σ1 0 ∧ (∀ n, getItems σ2 n = getItems σ1 n) ∧
      σ2 = σ1 :=
  extend_twice_same_shape 0 exampleStore 0 [0] exampleStore_wf (by decide) (by decide)
    (by decide)

/-- C3: with `t = s.extend(A)`, the call `t.extend(A)` returns `t` and changes
nothing; and in any store, extending a shape with names that all look up
successfully in it returns that shape and the unchanged store.  For the first
part the store is well formed, `s` and the names are allocated and the shape id
counter has one more id to give. -/
theorem extend_idempotent (fuel fuel2 : Nat) (σ : Store) (s : Nat) (ns : List Nat)
    (hwf : WF σ) (hs : s < σ.shapeHeap.length) (hv : ∀ n ∈ ns, n < σ.nameHeap.length)
    (hroom : σ.shapeIds + 1 < uint32Size) :
    (∃ σ1 t, extend (fuel + 2) σ s ns = some (σ1, t) ∧
      extend fuel2 σ1 t ns = some (σ1, t)) ∧
    (∀ (σ0 : Store) (s0 : Nat) (ms : List Nat) (f : Nat),
      (∀ n ∈ ms, lookup σ0 s0 n ≠ -1) → extend f σ0 s0 ms = some (σ0, s0)) :=
  ⟨⟨(extendResult σ s ns).1, (extendResult σ s ns).2, extend_eq fuel σ s ns hwf hs hv hroom,
      extend_of_found fuel2 _ _ ns (extendResult_found σ s ns hwf hs hv hroom)⟩,
    fun σ0 s0 ms f h => extend_of_found f σ0 s0 ms h⟩

/-- Instance of `extend_idempotent`: the root of `exampleStore` extended with
`hello` and `goodbye`, and the result extended again. -/
theorem extend_idempotent_witness :
    (∃ σ1 t, extend 2 exampleStore 0 [0, 1] = some (σ1, t) ∧
      extend 0 σ1 t [0, 1] = some (σ1, t)) ∧
    (∀ (σ0 : Store) (s0 : Nat) (ms : List Nat) (f : Nat),
      (∀ n ∈ ms, lookup σ0 s0 n ≠ -1) → extend f σ0 s0 ms = some (σ0, s0)) :=
  extend_idempotent 0 0 exampleStore 0 [0, 1] exampleStore_wf (by decide) (by decide)
    (by decide)

/-- C4: in a store built from root shapes and names by `init` and `extend`,
for a shape `s` and a name `n` with `s.lookup(n)` not found, `extend` returns a
shape `s2` with `0 <= s2.lookup(n) < s2.size`.  The shape id counter has one
more id to give. -/
theorem extend_makes_resolvable (fuel : Nat) (σ : Store) (s n : Nat) (hb : Built σ)
    (hs : s < σ.shapeHeap.length) (hn : n < σ.nameHeap.length)
    (hroom : σ.shapeIds + 1 < uint32Size) (_hmiss : lookup σ s n = -1) :
    ∃ σ1 s2, extend (fuel + 2) σ s [n] = some (σ1, s2) ∧
      0 ≤ lookup σ1 s2 n ∧ lookup σ1 s2 n < (σ1.getShape s2).size := by
  have hv : ∀ m ∈ [n], m < σ.nameHeap.length := by
    intro m hm
    rw [List.mem_singleton] at hm
    rw [hm]
    exact hn
  have hwf1 := WF_extendResult σ s [n] hb.wf hs hv hroom
  have hfound := extendResult_found σ s [n] hb.wf hs hv hroom n (List.mem_singleton_self n)
  have hrange := lookup_range hwf1 _ n hfound
  exact ⟨(extendResult σ s [n]).1, (extendResult σ s [n]).2,
    extend_eq fuel σ s [n] hb.wf hs hv hroom, hrange.1, hrange.2⟩

/-- Instance of `extend_makes_resolvable`: `hello` on the root of `exampleStore`. -/
theorem extend_makes_resolvable_witness :
    lookup exampleStore 0 0 = -1 ∧
    ∃ σ1 s2, extend 2 exampleStore 0 [0] = some (σ1, s2) ∧
      0 ≤ lookup σ1 s2 0 ∧ lookup σ1 s2 0 < (σ1.getShape s2).size :=
  ⟨by decide, extend_makes_resolvable 0 exampleStore 0 0 exampleStore_built (by decide)
    (by decide) (by decide) (by decide)⟩

/-- C5: a call `s.extend(A)` returns, and every shape `t` that existed before
the call keeps its id, its shapeset, its size and the result of `t.lookup(m)`
for every name `m`; so a name not found in `s` is still not found in `s` after
`s.extend([n])`.  The store is well formed, `s` and the names are allocated and
the shape id counter has one more id to give. -/
theorem extend_frame (fuel : Nat) (σ : Store) (s : Nat) (ns : List Nat)
    (hwf : WF σ) (hs : s < σ.shapeHeap.length) (hv : ∀ n ∈ ns, n < σ.nameHeap.length)
    (hroom : σ.shapeIds + 1 < uint32Size) :
    ∃ σ1 r, extend (fuel + 2) σ s ns = some (σ1, r) ∧
      (∀ t, t < σ.shapeHeap.length →
        (∀ m, lookup σ1 t m = lookup σ t m) ∧
        (σ1.getShape t).id = (σ.getShape t).id ∧
        (σ1.getShape t).shapeset = (σ.getShape t).shapeset ∧
        (σ1.getShape t).size = (σ.getShape t).size) ∧
      (∀ n, ns = [n] → lookup σ s n = -1 → lookup σ1 s n = -1) := by
  have hfr := extendResult_frame σ s ns hwf hs hv hroom
  refine ⟨(extendResult σ s ns).1, (extendResult σ s ns).2,
    extend_eq fuel σ s ns hwf hs hv hroom, hfr, ?_⟩
  intro n _ hl
  rw [(hfr s hs).1 n]
  exact hl

/-- Instance of `extend_frame`: the root of `exampleStore` extended with `hello`. -/
theorem extend_frame_witness :
    ∃ σ1 r, extend 2 exampleStore 0 [0] = some (σ1, r) ∧
      (∀ t, t < exampleStore.shapeHeap.length →
        (∀ m, lookup σ1 t m = lookup exampleStore t m) ∧
        (σ1.getShape t).id = (exampleStore.getShape t).id ∧
        (σ1.getShape t).shapeset = (exampleStore.getShape t).shapeset ∧
        (σ1.getShape t).size = (exampleStore.getShape t).size) ∧
      (∀ n, [0] = [n] → lookup exampleStore 0 n = -1 → lookup σ1 0 n = -1) :=
  extend_frame 0 exampleStore 0 [0] exampleStore_wf (by decide) (by decide) (by decide)

/-! ## The claims about values and the stack machine -/

/-- C7, as amended: `ClassOf` returns the builtin class of every integer,
float, text, class, array and primitive value and the stored class of every
allocated user object; on every other value, a boolean, a Name or nil, it
reaches the fault `unkown object type`. -/
theorem ClassOf_mapped_or_fault (e : Interpreter) (h : Heap) :
    (∀ x, e.ClassOf h (V.int x) = Res.ok e.builtins.classes.Integer) ∧
    (∀ x, e.ClassOf h (V.float x) = Res.ok e.builtins.classes.Float) ∧
    (∀ x, e.ClassOf h (V.str x) = Res.ok e.builtins.classes.String) ∧
    (∀ r, e.ClassOf h (V.cls r) = Res.ok e.builtins.classes.Class) ∧
    (∀ r, e.ClassOf h (V.array r) = Res.ok e.builtins.classes.Array) ∧
    (∀ f, e.ClassOf h (V.primitive f) = Res.ok e.builtins.classes.Primitive) ∧
    (∀ r o, h.objects.get? r = some o → e.ClassOf h (V.object r) = Res.ok o.cls) ∧
    (∀ b, e.ClassOf h (V.bool b) = Res.fault "unkown object type") ∧
    (∀ n, e.ClassOf h (V.name n) = Res.fault "unkown object type") ∧
    e.ClassOf h V.nil = Res.fault "unkown object type" := by
  refine ⟨fun _ => rfl, fun _ => rfl, fun _ => rfl, fun _ => rfl, fun _ => rfl,
    fun _ => rfl, ?_, fun _ => rfl, fun _ => rfl, rfl⟩
  intro r o hro
  simp only [Interpreter.ClassOf, hro]

/-- Instance of `ClassOf_mapped_or_fault`: the object of `exampleHeap`. -/
theorem ClassOf_mapped_or_fault_witness :
    New.ClassOf exampleHeap (V.object 0) = Res.ok (V.cls 0) :=
  (ClassOf_mapped_or_fault New exampleHeap).2.2.2.2.2.2.1 0 ⟨V.cls 0, [V.int 7]⟩ rfl

/-- C7, as stated, fails: on the boolean `false`, on a Name and on the nil
value that `SET` stores in the result register `ClassOf` panics. -/
theorem ClassOf_not_total_counterexample :
    New.ClassOf Heap.empty (V.bool false) = Res.fault "unkown object type" ∧
    New.ClassOf Heap.empty (V.name 0) = Res.fault "unkown object type" ∧
    New.ClassOf Heap.empty V.nil = Res.fault "unkown object type" ∧
    ¬ ∃ c, New.ClassOf Heap.empty V.nil = Res.ok c := by
  refine ⟨rfl, rfl, rfl, ?_⟩
  rintro ⟨c, hc⟩
  have hf : New.ClassOf Heap.empty V.nil = Res.fault "unkown object type" := rfl
  rw [hf] at hc
  exact Res.noConfusion hc

theorem index_natCast {α : Type} (l : List α) (n : Nat) (a : α) (h : l.get? n = some a) :
    index l (n : Int) = Res.ok a := by
  unfold index
  rw [if_neg (by omega), Int.toNat_ofNat, h]

theorem res_bind_ok {α β : Type} (a : α) (f : α → Res β) : (Res.ok a >>= f) = f a := rfl

theorem nextByte_eq (p : Process) (b : byte) (h : index p.frame.code p.frame.pos = Res.ok b) :
    p.nextByte = Res.ok ((b.val : Int),
      { p with frame := { p.frame with pos := p.frame.pos + 1 } }) := by
  unfold Process.nextByte
  rw [h]
  rfl

theorem next2Bytes_eq (p : Process) (b0 b1 : byte)
    (h0 : index p.frame.code p.frame.pos = Res.ok b0)
    (h1 : index p.frame.code (p.frame.pos + 1) = Res.ok b1) :
    p.next2Bytes = Res.ok ((b0.val : Int) + 256 * b1.val,
      { p with frame := { p.frame with pos := p.frame.pos + 2 } }) := by
  unfold Process.next2Bytes
  rw [nextByte_eq p b0 h0]
  simp only [bind, Res.bind]
  rw [nextByte_eq _ b1 h1]
  simp only [pure, Res.ok.injEq, Prod.mk.injEq]
  refine ⟨by ring, ?_⟩
  congr 2
  ring

theorem next4Bytes_eq (p : Process) (b0 b1 b2 b3 : byte)
    (h0 : index p.frame.code p.frame.pos = Res.ok b0)
    (h1 : index p.frame.code (p.frame.pos + 1) = Res.ok b1)
    (h2 : index p.frame.code (p.frame.pos + 2) = Res.ok b2)
    (h3 : index p.frame.code (p.frame.pos + 3) = Res.ok b3) :
    p.next4Bytes = Res.ok (((b0.val : Int) + 256 * b1.val) + 65536 * (b2.val + 256 * b3.val),
      { p with frame := { p.frame with pos := p.frame.pos + 4 } }) := by
  unfold Process.next4Bytes
  rw [next2Bytes_eq p b0 b1 h0 h1]
  simp only [bind, Res.bind]
  rw [next2Bytes_eq _ b2 b3 h2 (by simpa [add_assoc] using h3)]
  simp only [pure, Res.ok.injEq, Prod.mk.injEq]
  refine ⟨by ring, ?_⟩
  congr 2
  ring

/-- C8: with four bytes `b0, b1, b2, b3` at `pos`, `next2Bytes` returns
`b0 + 256*b1` and advances `pos` by 2, and `next4Bytes` returns
`(b0 + 256*b1) + 65536*(b2 + 256*b3)` and advances `pos` by 4; the bytes `[0,1]`
decode to 256 and `[50,13,1,10]` to 167841074. -/
theorem next_bytes_little_endian (p : Process) (b0 b1 b2 b3 : byte)
    (h0 : index p.frame.code p.frame.pos = Res.ok b0)
    (h1 : index p.frame.code (p.frame.pos + 1) = Res.ok b1)
    (h2 : index p.frame.code (p.frame.pos + 2) = Res.ok b2)
    (h3 : index p.frame.code (p.frame.pos + 3) = Res.ok b3) :
    p.next2Bytes = Res.ok ((b0.val : Int) + 256 * b1.val,
      { p with frame := { p.frame with pos := p.frame.pos + 2 } }) ∧
    p.next4Bytes = Res.ok (((b0.val : Int) + 256 * b1.val) + 65536 * (b2.val + 256 * b3.val),
      { p with frame := { p.frame with pos := p.frame.pos + 4 } }) ∧
    ((Process.load New [0, 1] []).next2Bytes).bind (fun r => Res.ok r.1) = Res.ok 256 ∧
    ((Process.load New [50, 13, 1, 10] []).next4Bytes).bind (fun r => Res.ok r.1) =
      Res.ok 167841074 :=
  ⟨next2Bytes_eq p b0 b1 h0 h1, next4Bytes_eq p b0 b1 b2 b3 h0 h1 h2 h3, by decide,
    by decide⟩

/-- Instance of `next_bytes_little_endian`: the code of `TestCodeStep` from position 3. -/
theorem next_bytes_little_endian_witness :
    ({ Process.load New [12, 0, 1, 50, 13, 1, 10] [] with
        frame := { (Process.load New [12, 0, 1, 50, 13, 1, 10] []).frame with pos := 3 } }
      : Process).next4Bytes =
    Res.ok (167841074,
      { Process.load New [12, 0, 1, 50, 13, 1, 10] [] with
        frame := { (Process.load New [12, 0, 1, 50, 13, 1, 10] []).frame with pos := 7 } }) :=
  (next_bytes_little_endian
    { Process.load New [12, 0, 1, 50, 13, 1, 10] [] with
        frame := { (Process.load New [12, 0, 1, 50, 13, 1, 10] []).frame with pos := 3 } }
    50 13 1 10 rfl rfl rfl rfl).2.1

/-! ## The tail-call shuffle -/

theorem assign_natCast {α : Type} (l : List α) (n : Nat) (a : α) (h : n < l.length) :
    assign l (n : Int) a = Res.ok (l.set n a) := by
  unfold assign
  rw [if_neg (by omega), Int.toNat_ofNat, if_pos h]

theorem sliceTo_natCast {α : Type} (l : List α) (n : Nat) (h : n ≤ l.length) :
    sliceTo l (n : Int) = Res.ok (l.take n) := by
  unfold sliceTo
  rw [if_neg (by omega), Int.toNat_ofNat, if_pos h]

/-- The loop of `shuffle` after `i` passes has copied `i` values down to
`base`, in the current stack and in every saved frame that shares its backing
array; `n` further passes copy `n` more and touch nothing else. -/
theorem shuffleLoop_saved (st : List V) (base src : Nat) (hbs : base ≤ src)
    (arr : Nat) (c0 : List frame) :
    ∀ (n i : Nat) (p : Process), src + i + n ≤ st.length →
      p.frame.stack.length = st.length → p.frame.stackArray = arr →
      (∀ j, p.frame.stack[j]? =
        if base ≤ j ∧ j < base + i then st[src + (j - base)]? else st[j]?) →
      p.control.length = c0.length →
      (∀ (j : Nat) (f : frame), c0[j]? = some f →
        ∃ g : frame, p.control[j]? = some g ∧ savedAfter arr st base src i f g) →
      ∃ q out, Process.shuffleLoop (base : Int) (src : Int) n (i : Int) p = Res.ok q ∧
        q.frame = { p.frame with stack := out } ∧ q.host = p.host ∧ q.result = p.result ∧
        out.length = st.length ∧
        (∀ j, out[j]? = if base ≤ j ∧ j < base + (i + n) then st[src + (j - base)]?
          else st[j]?) ∧
        q.control.length = c0.length ∧
        (∀ (j : Nat) (f : frame), c0[j]? = some f →
          ∃ g : frame, q.control[j]? = some g ∧ savedAfter arr st base src (i + n) f g) := by
  intro n
  induction n with
  | zero =>
    intro i p _ hlen _ hinv hcl hctl
    exact ⟨p, p.frame.stack, rfl, rfl, rfl, rfl, hlen, by simpa using hinv, hcl,
      by simpa using hctl⟩
  | succ n ih =>
    intro i p hle hlen harr hinv hcl hctl
    have hsi : src + i < st.length := by omega
    have hread : p.frame.stack.get? (src + i) = some (st.get ⟨src + i, hsi⟩) := by
      rw [List.get?_eq_getElem?, hinv (src + i), if_neg (by omega)]
      exact List.getElem?_eq_getElem hsi
    have hidx : index p.frame.stack ((src : Int) + (i : Int)) =
        Res.ok (st.get ⟨src + i, hsi⟩) := by
      have := index_natCast p.frame.stack (src + i) _ hread
      simpa using this
    have hasg : assign p.frame.stack ((base : Int) + (i : Int)) (st.get ⟨src + i, hsi⟩) =
        Res.ok (p.frame.stack.set (base + i) (st.get ⟨src + i, hsi⟩)) := by
      have := assign_natCast p.frame.stack (base + i) (st.get ⟨src + i, hsi⟩) (by omega)
      simpa using this
    have htn : ((base : Int) + (i : Int)).toNat = base + i := by omega
    have hstep : Process.shuffleLoop (base : Int) (src : Int) (n + 1) (i : Int) p =
        Process.shuffleLoop (base : Int) (src : Int) n ((i + 1 : Nat) : Int)
          { p with frame := { p.frame with
                      stack := p.frame.stack.set (base + i) (st.get ⟨src + i, hsi⟩) },
                   control := p.control.map
                     (frame.seeWrite arr (base + i) (st.get ⟨src + i, hsi⟩)) } := by
      rw [Process.shuffleLoop, hidx]
      simp only [bind, Res.bind]
      rw [hasg]
      simp only [Nat.cast_add, Nat.cast_one, htn, harr]
    rw [hstep]
    obtain ⟨q, out, h1, h2, h3, h4, h5, h6, h7, h8⟩ := ih (i + 1)
      { p with frame := { p.frame with
                  stack := p.frame.stack.set (base + i) (st.get ⟨src + i, hsi⟩) },
               control := p.control.map
                 (frame.seeWrite arr (base + i) (st.get ⟨src + i, hsi⟩)) }
      (by omega) (by simpa using hlen) harr
      (by
        intro j
        show (p.frame.stack.set (base + i) (st.get ⟨src + i, hsi⟩))[j]? = _
        rw [List.getElem?_set]
        by_cases hj : base + i = j
        · subst hj
          rw [if_pos rfl, if_pos (by omega), if_pos ⟨by omega, by omega⟩]
          have : src + (base + i - base) = src + i := by omega
          rw [this]
          exact (List.getElem?_eq_getElem hsi).symm
        · rw [if_neg hj, hinv j]
          by_cases hr : base ≤ j ∧ j < base + i
          · rw [if_pos hr, if_pos ⟨hr.1, by omega⟩]
          · rw [if_neg hr, if_neg (by omega)])
      (by simpa using hcl)
      (by
        intro j f hf
        obtain ⟨g, hg, k1, k2, k3, k4⟩ := hctl j f hf
        refine ⟨frame.seeWrite arr (base + i) (st.get ⟨src + i, hsi⟩) g,
          by simp [List.getElem?_map, hg], ?_⟩
        have harrg : g.stackArray = f.stackArray := by rw [← k1]
        unfold frame.seeWrite
        by_cases hsh : f.stackArray = arr
        · rw [if_pos (harrg.trans hsh)]
          refine ⟨?_, by simpa using k2, fun hne => absurd hsh hne, ?_⟩
          · simpa using k1
          · intro _ m
            show (g.stack.set (base + i) (st.get ⟨src + i, hsi⟩))[m]? = _
            rw [List.getElem?_set, k4 hsh m]
            by_cases hm : base + i = m
            · subst hm
              rw [if_pos rfl]
              by_cases hlt : base + i < f.stack.length
              · rw [if_pos (by omega), if_pos ⟨by omega, by omega, hlt⟩]
                have : src + (base + i - base) = src + i := by omega
                rw [this]
                exact (List.getElem?_eq_getElem hsi).symm
              · rw [if_neg (by omega), if_neg (by omega)]
                rw [List.getElem?_eq_none (by omega)]
            · rw [if_neg hm]
              by_cases hr : base ≤ m ∧ m < base + i ∧ m < f.stack.length
              · rw [if_pos hr, if_pos ⟨hr.1, by omega, hr.2.2⟩]
              · rw [if_neg hr, if_neg (by omega)]
        · rw [if_neg (fun e => hsh (harrg ▸ e))]
          exact ⟨k1, k2, k3, fun e => absurd e hsh⟩)
    refine ⟨q, out, h1, ?_, h3, h4, h5, ?_, h7, ?_⟩
    · rw [h2]
    · intro j
      rw [h6 j]
      have : i + 1 + n = i + (n + 1) := by omega
      rw [this]
    · intro j f hf
      obtain ⟨g, hg, hsa⟩ := h8 j f hf
      have : i + 1 + n = i + (n + 1) := by omega
      rw [this] at hsa
      exact ⟨g, hg, hsa⟩

/-- C9: for a stack `st`, a base and an `argc` with `0 <= argc` and
`base + argc <= len(st)`, `shuffle(argc)` returns and leaves a stack of length
`base + argc` whose first `base` elements are unchanged and whose element at
`base + i`, for `i < argc`, is the former element at `len(st) - argc + i`.  The
rest of the current frame, the host and the result register are unchanged.
The copy is made in the backing array of the stack, so a frame saved by
`enter` that shares the array shows the copied values where its stack reaches
them; a saved frame with another array is unchanged.  The stack `[1,2,3]` with
base 1 and argc 1 becomes `[1,3]`; with base 0, a saved frame that shares the
array and showed `[1,2,3]` shows `[3,2,3]` afterwards. -/
theorem shuffle_moves_top (p : Process) (base : Nat) (argc : Int)
    (hbase : p.frame.base = (base : Int)) (h0 : 0 ≤ argc)
    (hle : (base : Int) + argc ≤ (p.frame.stack.length : Int)) :
    (∃ out q, p.shuffle argc = Res.ok q ∧
      q.frame = { p.frame with stack := out } ∧ q.host = p.host ∧ q.result = p.result ∧
      (out.length : Int) = (base : Int) + argc ∧
      (∀ i, i < base → out[i]? = p.frame.stack[i]?) ∧
      (∀ i : Nat, (i : Int) < argc →
        out[base + i]? = p.frame.stack[p.frame.stack.length - argc.toNat + i]?) ∧
      q.control.length = p.control.length ∧
      (∀ (j : Nat) (f : frame), p.control[j]? = some f →
        ∃ g : frame, q.control[j]? = some g ∧
          savedAfter p.frame.stackArray p.frame.stack base
            (p.frame.stack.length - argc.toNat) argc.toNat f g)) ∧
    ({ Process.new New with frame := { frame.zero with
          stack := [V.int 1, V.int 2, V.int 3], base := 1 } } : Process).shuffle 1 =
      Res.ok { Process.new New with frame := { frame.zero with
          stack := [V.int 1, V.int 3], base := 1 } } ∧
    ({ Process.new New with
        frame := { frame.zero with stack := [V.int 1, V.int 2, V.int 3],
                                   stackArray := 1, stackCap := 3 },
        control := [{ frame.zero with stack := [V.int 1, V.int 2, V.int 3],
                                      stackArray := 1, stackCap := 3 }] } : Process).shuffle 1 =
      Res.ok { Process.new New with
        frame := { frame.zero with stack := [V.int 3], stackArray := 1, stackCap := 3 },
        control := [{ frame.zero with stack := [V.int 3, V.int 2, V.int 3],
                                      stackArray := 1, stackCap := 3 }] } := by
  refine ⟨?_, by decide, by decide⟩
  obtain ⟨k, hk⟩ := Int.eq_ofNat_of_zero_le h0
  subst hk
  have hle2 : base + k ≤ p.frame.stack.length := by omega
  obtain ⟨q, out, hq, hfr, hho, hre, h2, h3, hcl, hctl⟩ := shuffleLoop_saved p.frame.stack base
    (p.frame.stack.length - k) (by omega) p.frame.stackArray p.control k 0 p (by omega) rfl
    rfl (by intro j; rw [if_neg (by omega)]) rfl
    (fun j f hf => ⟨f, hf, rfl, rfl, fun _ => rfl,
      fun _ m => by rw [if_neg (by omega)]⟩)
  have hsrc : ((p.frame.stack.length : Int) - (k : Int)) =
      ((p.frame.stack.length - k : Nat) : Int) := by omega
  have hq2 : Process.shuffleLoop (base : Int) ((p.frame.stack.length - k : Nat) : Int) k 0
      p = Res.ok q := by simpa using hq
  refine ⟨out.take (base + k), { q with frame := { q.frame with stack := out.take (base + k) } },
    ?_, ?_, hho, hre, ?_, ?_, ?_, hcl, ?_⟩
  · unfold Process.shuffle
    simp only [hbase, hsrc, Int.toNat_ofNat]
    rw [hq2]
    simp only [bind, Res.bind]
    have := sliceTo_natCast out (base + k) (by omega)
    simp only [Nat.cast_add] at this
    rw [hfr]
    simp only
    rw [this]
    rfl
  · simp only [hfr]
  · rw [List.length_take]
    omega
  · intro i hi
    rw [List.getElem?_take_of_lt (by omega), h3 i, if_neg (by omega)]
  · intro i hi
    rw [List.getElem?_take_of_lt (by omega), h3 (base + i),
      if_pos ⟨by omega, by omega⟩, Int.toNat_ofNat]
    congr 1
    omega
  · intro j f hf
    obtain ⟨g, hg, hsa⟩ := hctl j f hf
    refine ⟨g, hg, ?_⟩
    simpa using hsa

/-- Instance of `shuffle_moves_top`: the stack `[1,2,3]` with base 1 and argc
1, with two saved frames, of which the first shares the backing array. -/
theorem shuffle_moves_top_witness :
    ∃ out q, ({ Process.new New with
        frame := { frame.zero with stack := [V.int 1, V.int 2, V.int 3], base := 1,
                                   stackArray := 1, stackCap := 3 },
        control := [{ frame.zero with stack := [V.int 1, V.int 2], stackArray := 1,
                                      stackCap := 3 },
                    { frame.zero with stack := [V.int 7] }] } : Process).shuffle 1 =
        Res.ok q ∧
      q.frame = { frame.zero with stack := out, base := 1, stackArray := 1, stackCap := 3 } ∧
      q.host = New ∧ q.result = V.nil ∧
      (out.length : Int) = ((1 : Nat) : Int) + 1 ∧
      (∀ i, i < 1 → out[i]? = [V.int 1, V.int 2, V.int 3][i]?) ∧
      (∀ i : Nat, (i : Int) < 1 →
        out[1 + i]? = [V.int 1, V.int 2, V.int 3][3 - (1 : Int).toNat + i]?) ∧
      q.control.length = 2 ∧
      (∀ (j : Nat) (f : frame),
        [{ frame.zero with stack := [V.int 1, V.int 2], stackArray := 1, stackCap := 3 },
          { frame.zero with stack := [V.int 7] }][j]? = some f →
        ∃ g : frame, q.control[j]? = some g ∧
          savedAfter 1 [V.int 1, V.int 2, V.int 3] 1 (3 - (1 : Int).toNat) (1 : Int).toNat
            f g) :=
  (shuffle_moves_top
    { Process.new New with
        frame := { frame.zero with stack := [V.int 1, V.int 2, V.int 3], base := 1,
                                   stackArray := 1, stackCap := 3 },
        control := [{ frame.zero with stack := [V.int 1, V.int 2], stackArray := 1,
                                      stackCap := 3 },
                    { frame.zero with stack := [V.int 7] }] }
    1 1 rfl (by decide) (by decide)).1

/-! ## Running `GLOBAL id; HALT` -/

theorem littleEndian4_value (id : Nat) (h32 : id < 4294967296) :
    (((Fin.ofNat id : byte).val : Int) + 256 * ((Fin.ofNat (id / 256) : byte).val : Int)) +
      65536 * (((Fin.ofNat (id / 65536) : byte).val : Int) +
        256 * ((Fin.ofNat (id / 16777216) : byte).val : Int)) = (id : Int) := by
  simp only [Fin.ofNat, Fin.val_mk]
  omega

/-- C10: for a constant table `vs` and an index `id < len(vs)`, `id < 2^32`,
a fresh process run on `GLOBAL`, the four little-endian bytes of `id`, `HALT`
from position 0 returns with the result register equal to `vs[id]`, the value
stack and the control stack empty and the heap untouched.  With `vs = [Int 1]`
the code 4,0,0,0,0,0 gives `Int 1`. -/
theorem run_global_halt (natives : Nat → Native) (host : Interpreter) (h : Heap)
    (vs : List V) (id : Nat) (fuel : Nat) (hid : id < vs.length) (h32 : id < 4294967296) :
    (∃ p, (Process.load host ([4] ++ littleEndian4 id ++ [0]) vs).run natives (fuel + 2) h =
        Res.ok (h, p) ∧
      p.result = vs[id] ∧ p.frame.stack = [] ∧ p.control = []) ∧
    ((Process.load New [4, 0, 0, 0, 0, 0] [V.int 1]).run natives 2 Heap.empty).bind
      (fun r => Res.ok r.2.result) = Res.ok (V.int 1) := by
  refine ⟨?_, rfl⟩
  have hnb : (Process.load host ([4] ++ littleEndian4 id ++ [0]) vs).nextByte =
      Res.ok (4, { Process.load host ([4] ++ littleEndian4 id ++ [0]) vs with
        frame := { (Process.load host ([4] ++ littleEndian4 id ++ [0]) vs).frame with
          pos := 1 } }) := rfl
  have h4 := next4Bytes_eq
    { Process.load host ([4] ++ littleEndian4 id ++ [0]) vs with
        frame := { (Process.load host ([4] ++ littleEndian4 id ++ [0]) vs).frame with
          pos := 1 } }
    (Fin.ofNat id) (Fin.ofNat (id / 256)) (Fin.ofNat (id / 65536))
    (Fin.ofNat (id / 16777216)) rfl rfl rfl rfl
  rw [littleEndian4_value id h32] at h4
  refine ⟨{ Process.load host ([4] ++ littleEndian4 id ++ [0]) vs with
      result := vs[id],
      frame := { (Process.load host ([4] ++ littleEndian4 id ++ [0]) vs).frame with
        pos := 6 } }, ?_, rfl, rfl, rfl⟩
  have hconst : index vs (id : Int) = Res.ok vs[id] :=
    index_natCast vs id _ (by rw [List.get?_eq_getElem?]; exact List.getElem?_eq_getElem hid)
  rw [Process.run, hnb]
  simp only [bind, Res.bind]
  rw [if_neg (by decide), if_neg (by decide), if_neg (by decide), if_neg (by decide),
    if_pos (by decide), h4]
  simp only [Process.constant, Process.load, Process.new, frame.zero, hconst]
  rfl

/-- Instance of `run_global_halt`: the case of `TestCode1`. -/
theorem run_global_halt_witness :
    ∃ p, (Process.load New ([4] ++ littleEndian4 0 ++ [0]) [V.int 1]).run
        (fun _ hp => Res.ok hp) 2 Heap.empty = Res.ok (Heap.empty, p) ∧
      p.result = V.int 1 ∧ p.frame.stack = [] ∧ p.control = [] :=
  (run_global_halt (fun _ hp => Res.ok hp) New Heap.empty [V.int 1] 0 0 (by decide)
    (by decide)).1

/-! ## Extending with a name that no shape around `s` resolves -/

theorem lookup_of_nomatch (σ : Store) (s n : Nat)
    (h : ∀ it ∈ getItems σ n, it.introduced ∉ (σ.getShape s).shapeset) :
    lookup σ s n = -1 := by
  rw [lookup_eq_mergeWalk]
  exact mergeWalk_nomatch _ _ h

theorem missingNames_single (σ : Store) (s n : Nat) (h : lookup σ s n = -1) :
    missingNames σ s [n] = [n] := by
  simp [missingNames, h]

theorem findChild_none_single (σ : Store) (s n : Nat)
    (h : ∀ c ∈ getChildren σ s, lookup σ c n = -1) : findChild σ s [n] = none := by
  unfold findChild
  rw [List.find?_eq_none]
  intro c hc
  simp [contains, h c hc]

theorem newItems_single (cid : Nat) (size : Int) (n m : Nat) :
    newItems cid size m 0 [n] = if n = m then [⟨cid, size⟩] else [] := by
  by_cases h : n = m <;> simp [newItems, h]

/-- When neither `s` nor a child of `s` resolves `n`, `s.extend([n])` creates a
child; this is the store it leaves. -/
theorem extend_single_create (fuel : Nat) (σ : Store) (s n : Nat) (hwf : WF σ)
    (hs : s < σ.shapeHeap.length) (hn : n < σ.nameHeap.length)
    (hroom : σ.shapeIds + 1 < uint32Size) (h1 : lookup σ s n = -1)
    (h2 : ∀ c ∈ getChildren σ s, lookup σ c n = -1) :
    ∃ σ1, extend (fuel + 2) σ s [n] = some (σ1, σ.shapeHeap.length) ∧ WF σ1 ∧
      σ1.shapeHeap.length = σ.shapeHeap.length + 1 ∧
      σ1.shapeIds = σ.shapeIds + 1 ∧
      σ1.nameHeap.length = σ.nameHeap.length ∧
      (∀ m, m ≠ n → getItems σ1 m = getItems σ m) ∧
      getItems σ1 n = getItems σ n ++ [⟨σ.shapeIds + 1, (σ.getShape s).size⟩] ∧
      (σ1.getShape σ.shapeHeap.length).shapeset =
        (σ.getShape s).shapeset ++ [σ.shapeIds + 1] ∧
      (σ1.getShape σ.shapeHeap.length).id = σ.shapeIds + 1 ∧
      getChildren σ1 σ.shapeHeap.length = [] ∧
      (∀ t, t ≠ σ.shapeHeap.length →
        (σ1.getShape t).shapeset = (σ.getShape t).shapeset ∧
        (σ1.getShape t).id = (σ.getShape t).id) ∧
      (∀ t, t ≠ σ.shapeHeap.length → t ≠ s → getChildren σ1 t = getChildren σ t) ∧
      getChildren σ1 s = getChildren σ s ++ [σ.shapeHeap.length] ∧
      (∀ t m, t ≠ σ.shapeHeap.length → lookup σ1 t m = lookup σ t m) ∧
      (∀ m, m ≠ n → lookup σ1 σ.shapeHeap.length m = lookup σ s m) ∧
      lookup σ1 σ.shapeHeap.length n ≠ -1 := by
  have hv : ∀ m ∈ [n], m < σ.nameHeap.length := by
    intro m hm
    rw [List.mem_singleton] at hm
    rw [hm]
    exact hn
  have hmiss := missingNames_single σ s n h1
  have hres : extendResult σ s [n] = createChild σ s [n] := by
    unfold extendResult
    rw [hmiss, if_neg (by simp), findChild_none_single σ s n h2]
  have hcnt := createChild_counters σ s [n]
  have hitems := createChild_getItems σ s [n] hwf hv hroom
  have hch := createChild_getChildren σ s [n] hs
  have hnew : (createChild σ s [n]).1.getShape σ.shapeHeap.length = childShape σ s [n] := by
    rw [createChild_getShape σ s [n] hs, if_pos rfl]
  refine ⟨(createChild σ s [n]).1, ?_, WF_createChild σ s [n] hwf hs hv hroom, hcnt.2.2.2,
    ?_, hcnt.2.2.1, ?_, ?_, ?_, ?_, ?_, ?_, ?_, ?_, ?_, ?_, ?_⟩
  · rw [extend_eq fuel σ s [n] hwf hs hv hroom, hres]
    rfl
  · rw [hcnt.1, next_eq_succ hroom]
  · intro m hm
    rw [hitems, newItems_single, if_neg (fun e => hm e.symm), List.append_nil]
  · rw [hitems, newItems_single, if_pos rfl]
  · rw [hnew]
    simp only [childShape, next_eq_succ hroom]
  · rw [hnew]
    simp only [childShape, next_eq_succ hroom]
  · rw [hch, if_pos rfl]
  · intro t ht
    exact ⟨(createChild_shapeset_old σ s [n] hs t ht).1,
      (createChild_shapeset_old σ s [n] hs t ht).2.1⟩
  · intro t ht hts
    rw [hch, if_neg ht, if_neg hts]
  · rw [hch, if_neg (by omega), if_pos rfl]
  · intro t m ht
    exact lookup_createChild_old σ s [n] hwf hs hv hroom t m ht
  · intro m hm
    exact lookup_createChild_new_other σ s [n] hwf hs hv hroom m
      (by rw [List.mem_singleton]; exact hm)
  · obtain ⟨j, _, hj⟩ := lookup_createChild_new_mem σ s [n] hwf hs hv hroom n
      (List.mem_singleton_self n) h1
    rw [hj]
    have := hwf.sizeNonneg s
    omega

/-- C6, as amended: for a shape `s` and distinct fresh names `a` and `b`, the
shapes `s.extend([a]).extend([b])` and `s.extend([b]).extend([a])` both resolve
`a` and `b`, but they are two different shape objects with different ids:
`extend` reuses a shape only among the children of its receiver.  The store is
well formed and the shape id counter has four more ids to give. -/
theorem extend_orders_distinct (fuel : Nat) (σ : Store) (s a b : Nat) (hwf : WF σ)
    (hs : s < σ.shapeHeap.length) (ha : a < σ.nameHeap.length)
    (hb : b < σ.nameHeap.length) (hab : a ≠ b) (hfa : getItems σ a = [])
    (hfb : getItems σ b = []) (hroom : σ.shapeIds + 4 < uint32Size) :
    ∃ σ2 x σ4 y, extendTwice (fuel + 2) σ s a b = some (σ2, x) ∧
      extendTwice (fuel + 2) σ2 s b a = some (σ4, y) ∧
      x ≠ y ∧ (σ4.getShape x).id ≠ (σ4.getShape y).id ∧
      lookup σ4 x a ≠ -1 ∧ lookup σ4 x b ≠ -1 ∧
      lookup σ4 y a ≠ -1 ∧ lookup σ4 y b ≠ -1 := by
  have hba : b ≠ a := fun e => hab e.symm
  -- first step: `s.extend([a])`
  obtain ⟨σ1, e1, wf1, len1, cnt1, nl1, it1o, it1a, ss1, _, ch1, old1, _, chs1, lk1, lk1o,
      lk1a⟩ := extend_single_create fuel σ s a hwf hs ha (by omega)
    (lookup_of_nomatch σ s a (by rw [hfa]; simp))
    (fun c _ => lookup_of_nomatch σ c a (by rw [hfa]; simp))
  have hb1 : getItems σ1 b = [] := by rw [it1o b hba, hfb]
  -- second step: the new child extended with `b`
  obtain ⟨σ2, e2, wf2, len2, cnt2, nl2, it2o, it2b, _, id2, _, old2, chx2, _, lk2, lk2o,
      lk2b⟩ := extend_single_create fuel σ1 σ.shapeHeap.length b wf1 (by omega) (by omega)
    (by omega)
    (lookup_of_nomatch σ1 _ b (by rw [hb1]; simp))
    (fun c hc => by rw [ch1] at hc; simp at hc)
  rw [hb1, List.nil_append] at it2b
  have ha2 : getItems σ2 a = [⟨σ.shapeIds + 1, (σ.getShape s).size⟩] := by
    rw [it2o a hab, it1a, hfa, List.nil_append]
  have hsl : s ≠ σ.shapeHeap.length := by omega
  have hss2 : ∀ t, t < σ.shapeHeap.length →
      (σ2.getShape t).shapeset = (σ.getShape t).shapeset := by
    intro t ht
    rw [(old2 t (by omega)).1, (old1 t (by omega)).1]
  have hbnd2 : ∀ t, t < σ.shapeHeap.length → σ1.shapeIds + 1 ∉ (σ2.getShape t).shapeset := by
    intro t ht hmem
    rw [hss2 t ht] at hmem
    have := hwf.shapesetBound t _ hmem
    omega
  -- third step: `s.extend([b])`
  have hchs2 : getChildren σ2 s = getChildren σ s ++ [σ.shapeHeap.length] := by
    rw [chx2 s (by omega) hsl, chs1]
  obtain ⟨σ3, e3, wf3, len3, cnt3, nl3, it3o, _, ss3, _, ch3, old3, _, _, lk3, lk3o,
      lk3b⟩ := extend_single_create fuel σ2 s b wf2 (by omega) (by omega) (by omega)
    (lookup_of_nomatch σ2 s b (by
      intro it hit
      rw [it2b, List.mem_singleton] at hit
      rw [hit]
      exact hbnd2 s hs))
    (fun c hc => lookup_of_nomatch σ2 c b (by
      intro it hit
      rw [it2b, List.mem_singleton] at hit
      rw [hit]
      rw [hchs2] at hc
      rcases List.mem_append.1 hc with h | h
      · exact hbnd2 c (hwf.childrenValid s c h)
      · rw [List.mem_singleton] at h
        rw [h, (old2 _ (by omega)).1, ss1]
        intro hmem
        dsimp only at hmem
        rcases List.mem_append.1 hmem with h3 | h3
        · have := hwf.shapesetBound s _ h3
          omega
        · rw [List.mem_singleton] at h3
          omega))
  have ha3 : getItems σ3 a = [⟨σ.shapeIds + 1, (σ.getShape s).size⟩] := by
    rw [it3o a hab, ha2]
  -- fourth step: that child extended with `a`
  obtain ⟨σ4, e4, _, _, _, _, _, _, _, id4, _, old4, _, _, lk4, lk4o, lk4a⟩ :=
    extend_single_create fuel σ3 σ2.shapeHeap.length a wf3 (by omega) (by omega) (by omega)
    (lookup_of_nomatch σ3 _ a (by
      intro it hit
      rw [ha3, List.mem_singleton] at hit
      rw [hit, ss3, hss2 s hs]
      intro hmem
      dsimp only at hmem
      rcases List.mem_append.1 hmem with h3 | h3
      · have := hwf.shapesetBound s _ h3
        omega
      · rw [List.mem_singleton] at h3
        omega))
    (fun c hc => by rw [ch3] at hc; simp at hc)
  refine ⟨σ2, σ1.shapeHeap.length, σ4, σ3.shapeHeap.length, ?_, ?_, by omega, ?_, ?_, ?_,
    lk4a, ?_⟩
  · unfold extendTwice
    rw [e1]
    exact e2
  · unfold extendTwice
    rw [e3]
    exact e4
  · rw [id4, (old4 _ (by omega)).2, (old3 _ (by omega)).2, id2]
    omega
  · rw [lk4 _ a (by omega), lk3 _ a (by omega), lk2o a hab]
    exact lk1a
  · rw [lk4 _ b (by omega), lk3 _ b (by omega)]
    exact lk2b
  · rw [lk4o b hba]
    exact lk3b

/-- Instance of `extend_orders_distinct`: `hello` and `goodbye` on the root of
`exampleStore`. -/
theorem extend_orders_distinct_witness :
    ∃ σ2 x σ4 y, extendTwice 2 exampleStore 0 0 1 = some (σ2, x) ∧
      extendTwice 2 σ2 0 1 0 = some (σ4, y) ∧
      x ≠ y ∧ (σ4.getShape x).id ≠ (σ4.getShape y).id ∧
      lookup σ4 x 0 ≠ -1 ∧ lookup σ4 x 1 ≠ -1 ∧
      lookup σ4 y 0 ≠ -1 ∧ lookup σ4 y 1 ≠ -1 :=
  extend_orders_distinct 0 exampleStore 0 0 1 exampleStore_wf (by decide) (by decide)
    (by decide) (by decide) (by decide) (by decide) (by decide)

/-- C6, as stated, fails: from the root of `exampleStore`, extending with
`hello` then `goodbye` gives the shape with reference 2 and id 3, and extending
with `goodbye` then `hello` gives the shape with reference 4 and id 5. -/
theorem extend_orders_counterexample :
    (extendTwice 2 exampleStore 0 0 1).map Prod.snd = some 2 ∧
    ((extendTwice 2 exampleStore 0 0 1).bind (fun r => extendTwice 2 r.1 0 1 0)).map
      (fun r => (r.2, (r.1.getShape 2).id, (r.1.getShape r.2).id)) = some (4, 3, 5) := by
  decide

/-! ## Single instructions -/

/-- C11, as amended: a fresh process with constants `[Integer 1]` run on
`GLOBAL 0, HALT` (bytes 4,0,0,0,0,0) returns with the result `Integer 1`; run on
`GLOBAL 0, RETURN` (bytes 4,0,0,0,0,15) it panics at `RETURN` with an index out
of range, because `leave` finds the control stack empty. -/
theorem run_global_return_faults (natives : Nat → Native) (host : Interpreter) (h : Heap)
    (fuel : Nat) :
    ((Process.load host [4, 0, 0, 0, 0, 0] [V.int 1]).run natives (fuel + 2) h).bind
      (fun r => Res.ok r.2.result) = Res.ok (V.int 1) ∧
    (Process.load host [4, 0, 0, 0, 0, 15] [V.int 1]).run natives (fuel + 2) h =
      Res.fault "index out of range" :=
  ⟨rfl, rfl⟩

/-- C11, as stated, fails: `GLOBAL 0, RETURN` on a fresh process with constants
`[Integer 1]` ends in a panic, not in the result `Integer 1`. -/
theorem run_global_return_counterexample :
    (Process.load New [4, 0, 0, 0, 0, 15] [V.int 1]).run idleNatives 2 Heap.empty =
      Res.fault "index out of range" ∧
    ¬ ∃ r, (Process.load New [4, 0, 0, 0, 0, 15] [V.int 1]).run idleNatives 2 Heap.empty =
      Res.ok r := by
  refine ⟨rfl, ?_⟩
  rintro ⟨r, hr⟩
  have hf : (Process.load New [4, 0, 0, 0, 0, 15] [V.int 1]).run idleNatives 2 Heap.empty =
      Res.fault "index out of range" := rfl
  rw [hf] at hr
  exact Res.noConfusion hr

/-- C12 on the code: with a primitive in the slot register and the receiver
`Int 1` in the result register, `CALL 0` panics and calls no native function;
with another primitive in the result register, `CALL 0` and `TCALL 0` invoke
that one, not the one in the slot register. -/
theorem call_primitive_uses_result :
    (Process.withRegisters exampleHost [11, 0, 0] (V.primitive 0) (V.int 1)).run
      markNatives 2 Heap.empty = Res.fault "unexpected primitive method type" ∧
    ((Process.withRegisters exampleHost [11, 0, 0] (V.primitive 0) (V.primitive 1)).run
      markNatives 2 Heap.empty).bind (fun r => Res.ok r.2.result) = Res.ok (V.int 1) ∧
    ((Process.withRegisters exampleHost [13, 0, 0] (V.primitive 0) (V.primitive 1)).run
      markNatives 2 Heap.empty).bind (fun r => Res.ok r.2.result) = Res.ok (V.int 1) := by
  decide

theorem AsBool_false_iff (v : V) : v.AsBool = false ↔ v = V.bool false := by
  cases v <;> simp [V.AsBool]

/-- C13: `AsBool` is false exactly on the boolean `false`; and `BRANCH p`, with
the operand bytes `lo, hi` of `p`, continues from the same process and heap
with `pos = p` when the result register is the boolean `false`, and with `pos`
just past the two operand bytes otherwise. -/
theorem branch_on_false (natives : Nat → Native) (fuel : Nat) (h : Heap) (p : Process)
    (lo hi : byte)
    (hop : index p.frame.code p.frame.pos = Res.ok 6)
    (hlo : index p.frame.code (p.frame.pos + 1) = Res.ok lo)
    (hhi : index p.frame.code (p.frame.pos + 2) = Res.ok hi) :
    (∀ v : V, v.AsBool = false ↔ v = V.bool false) ∧
    p.run natives (fuel + 1) h = Process.run natives fuel h
      (if p.result = V.bool false then
        { p with frame := { p.frame with pos := (lo.val : Int) + 256 * hi.val } }
      else { p with frame := { p.frame with pos := p.frame.pos + 3 } }) := by
  refine ⟨AsBool_false_iff, ?_⟩
  have h2 := next2Bytes_eq { p with frame := { p.frame with pos := p.frame.pos + 1 } }
    lo hi hlo (by simpa [add_assoc] using hhi)
  rw [Process.run, nextByte_eq p 6 hop]
  simp only [bind, Res.bind]
  rw [if_neg (by decide), if_neg (by decide), if_neg (by decide), if_neg (by decide),
    if_neg (by decide), if_neg (by decide), if_pos (by decide), h2]
  simp only []
  by_cases hr : p.result = V.bool false
  · rw [if_pos hr]
    have : p.result.AsBool = false := (AsBool_false_iff _).2 hr
    simp only [this, Bool.not_false, if_true]
  · rw [if_neg hr]
    have : p.result.AsBool = true := by
      cases hb : p.result.AsBool
      · exact absurd ((AsBool_false_iff _).1 hb) hr
      · rfl
    simp only [this, Bool.not_true, Bool.false_eq_true, if_false]
    congr 3
    ring

/-- Instance of `branch_on_false`: `BRANCH 4` with `false` in the result register. -/
theorem branch_on_false_witness :
    (Process.withRegisters New [6, 4, 0, 0, 0] V.nil (V.bool false)).run idleNatives 2
      Heap.empty = Process.run idleNatives 1 Heap.empty
      (if (Process.withRegisters New [6, 4, 0, 0, 0] V.nil (V.bool false)).result =
          V.bool false then
        { Process.withRegisters New [6, 4, 0, 0, 0] V.nil (V.bool false) with
          frame := { (Process.withRegisters New [6, 4, 0, 0, 0] V.nil (V.bool false)).frame
            with pos := ((4 : byte).val : Int) + 256 * (0 : byte).val } }
      else { Process.withRegisters New [6, 4, 0, 0, 0] V.nil (V.bool false) with
          frame := { (Process.withRegisters New [6, 4, 0, 0, 0] V.nil (V.bool false)).frame
            with pos := (Process.withRegisters New [6, 4, 0, 0, 0] V.nil
              (V.bool false)).frame.pos + 3 } }) :=
  (branch_on_false idleNatives 1 Heap.empty
    (Process.withRegisters New [6, 4, 0, 0, 0] V.nil (V.bool false)) 4 0 rfl rfl rfl).2

/-- The instruction `FRAME p` as `run` executes it, with the operand bytes
`lo, hi` of `p`: the current `pos` is set to `p` first and the frame is copied
to the control stack afterwards, so the saved frame has `pos = p` as well. -/
theorem frame_jumps_then_saves (natives : Nat → Native) (fuel : Nat) (h : Heap)
    (p : Process) (lo hi : byte)
    (hop : index p.frame.code p.frame.pos = Res.ok 14)
    (hlo : index p.frame.code (p.frame.pos + 1) = Res.ok lo)
    (hhi : index p.frame.code (p.frame.pos + 2) = Res.ok hi) :
    p.run natives (fuel + 1) h = Process.run natives fuel h
      { p with frame := { p.frame with pos := (lo.val : Int) + 256 * hi.val },
               control := p.control ++
                 [{ p.frame with pos := (lo.val : Int) + 256 * hi.val }] } := by
  have h2 := next2Bytes_eq { p with frame := { p.frame with pos := p.frame.pos + 1 } }
    lo hi hlo (by simpa [add_assoc] using hhi)
  rw [Process.run, nextByte_eq p 14 hop]
  simp only [bind, Res.bind]
  rw [if_neg (by decide), if_neg (by decide), if_neg (by decide), if_neg (by decide),
    if_neg (by decide), if_neg (by decide), if_neg (by decide), if_neg (by decide),
    if_neg (by decide), if_neg (by decide), if_neg (by decide), if_neg (by decide),
    if_neg (by decide), if_neg (by decide), if_pos (by decide), h2]
  rfl

/-- C14: `FRAME p` copies the frame to the control stack after the jump, not
before it.  After `FRAME 4` at position 0, whose following instruction is at
position 3, the saved frame has `pos = 4`, not 3.  So in the program
`FRAME 4; HALT; RETURN` the `RETURN` at position 4 does not resume at the
`HALT` at position 3: it resumes at position 4, runs `RETURN` once more and
panics in `leave` on the empty control stack. -/
theorem frame_saves_after_jump (natives : Nat → Native) (fuel : Nat) :
    ((Process.load New [14, 4, 0, 0, 0] []).run natives (fuel + 2) Heap.empty).bind
      (fun r => Res.ok (r.2.control.map (fun fr => fr.pos), r.2.frame.pos)) =
      Res.ok ([4], 5) ∧
    ((Process.load New [14, 4, 0, 0, 0] []).run natives (fuel + 2) Heap.empty).bind
      (fun r => Res.ok (r.2.control.map (fun fr => fr.pos))) ≠ Res.ok [3] ∧
    (Process.load New [14, 4, 0, 0, 15] []).run natives (fuel + 3) Heap.empty =
      Res.fault "index out of range" := by
  have h1 : ((Process.load New [14, 4, 0, 0, 0] []).run natives (fuel + 2) Heap.empty).bind
      (fun r => Res.ok (r.2.control.map (fun fr => fr.pos), r.2.frame.pos)) =
      Res.ok ([4], 5) := rfl
  have h2 : ((Process.load New [14, 4, 0, 0, 0] []).run natives (fuel + 2) Heap.empty).bind
      (fun r => Res.ok (r.2.control.map (fun fr => fr.pos))) = Res.ok [4] := rfl
  refine ⟨h1, ?_, rfl⟩
  rw [h2]
  decide

/-! ## The names a returned shape resolves -/

theorem newItems_nodup (cid : Nat) (size : Int) (m : Nat) (ms : List Nat) :
    ∀ (j i : Nat), ms.Nodup → ms[i]? = some m →
      newItems cid size m j ms = [⟨cid, size + ((j + i : Nat) : Int)⟩] := by
  induction ms with
  | nil => intro j i _ h; simp at h
  | cons n rest ih =>
    intro j i hnd h
    rw [List.nodup_cons] at hnd
    cases i with
    | zero =>
      simp only [List.getElem?_cons_zero, Option.some.injEq] at h
      subst h
      simp [newItems, newItems_of_not_mem _ _ _ _ hnd.1]
    | succ i =>
      simp only [List.getElem?_cons_succ] at h
      have hm : m ∈ rest := List.getElem?_mem h
      have hne : ¬ n = m := fun e => hnd.1 (e ▸ hm)
      simp only [newItems, if_neg hne, List.nil_append]
      rw [ih (j + 1) i hnd.2 h]
      congr 3
      omega

/-- A missing name resolves in the new child to the offset of the first item
recorded for it. -/
theorem lookup_createChild_new_item (σ : Store) (s : Nat) (ms : List Nat) (hwf : WF σ)
    (hs : s < σ.shapeHeap.length) (hv : ∀ n ∈ ms, n < σ.nameHeap.length)
    (hroom : σ.shapeIds + 1 < uint32Size) (m : Nat) (hm : m ∈ ms)
    (hmiss : lookup σ s m = -1) :
    ∃ e ∈ newItems (σ.shapeIds + 1) (σ.getShape s).size m 0 ms,
      lookup (createChild σ s ms).1 σ.shapeHeap.length m = e.offset := by
  have hnone := lookup_missing hwf s m hmiss
  have hwf3 := WF_createChild σ s ms hwf hs hv hroom
  have hit := createChild_getItems σ s ms hwf hv hroom m
  have hsh : ((createChild σ s ms).1.getShape σ.shapeHeap.length).shapeset =
      (σ.getShape s).shapeset ++ [σ.shapeIds + 1] := by
    rw [createChild_getShape σ s ms hs, if_pos rfl]
    simp only [childShape, next_eq_succ hroom]
  have hne := newItems_ne_nil (σ.shapeIds + 1) (σ.getShape s).size m ms hm 0
  obtain ⟨e, he⟩ := List.exists_mem_of_ne_nil _ hne
  rw [lookup_eq_firstMatch hwf3, hit, hsh]
  obtain ⟨jt, hjt⟩ : ∃ jt, firstMatch
      (getItems σ m ++ newItems (σ.shapeIds + 1) (σ.getShape s).size m 0 ms)
      ((σ.getShape s).shapeset ++ [σ.shapeIds + 1]) = some jt := by
    apply firstMatch_isSome_of_mem (List.mem_append_right _ he)
    rw [(mem_newItems _ _ _ _ _ e he).1]
    simp
  rw [hjt]
  obtain ⟨h1, h2⟩ := firstMatch_some hjt
  rcases List.mem_append.1 h1 with h | h
  · exfalso
    rcases List.mem_append.1 h2 with h3 | h3
    · exact hnone jt h h3
    · rw [List.mem_singleton] at h3
      have := hwf.itemsBound m jt h
      omega
  · exact ⟨jt, h, rfl⟩

/-- C18, as amended: `s.extend(A)` returns a shape in which every name that
looks up successfully in `s` and every name of `A` looks up successfully; when
no name is missing or a new child is created these are the only such names,
while a reused child may resolve further names.  The store is well formed, `s`
and the names are allocated and the shape id counter has one more id to give. -/
theorem extend_resolves_superset (fuel : Nat) (σ : Store) (s : Nat) (ns : List Nat)
    (hwf : WF σ) (hs : s < σ.shapeHeap.length) (hv : ∀ n ∈ ns, n < σ.nameHeap.length)
    (hroom : σ.shapeIds + 1 < uint32Size) :
    ∃ σ1 r, extend (fuel + 2) σ s ns = some (σ1, r) ∧
      (∀ m, (lookup σ s m ≠ -1 ∨ m ∈ ns) → lookup σ1 r m ≠ -1) ∧
      ((missingNames σ s ns = [] ∨ findChild σ s (missingNames σ s ns) = none) →
        ∀ m, lookup σ1 r m ≠ -1 ↔ (lookup σ s m ≠ -1 ∨ m ∈ ns)) := by
  have hv2 : ∀ n ∈ missingNames σ s ns, n < σ.nameHeap.length :=
    fun n hn => hv n (mem_missingNames.1 hn).1
  have hsup : ∀ m, (lookup σ s m ≠ -1 ∨ m ∈ ns) →
      lookup (extendResult σ s ns).1 (extendResult σ s ns).2 m ≠ -1 := by
    intro m hm
    rcases hm with hm | hm
    · rcases extendResult_cases σ s ns with ⟨_, h⟩ | ⟨_, c, hc, h⟩ | ⟨_, _, h⟩
      · rw [h]; exact hm
      · rw [h]
        exact lookup_mono hwf s c m (hwf.childrenExtend s c (findChild_some hc).1) hm
      · rw [h, createChild_snd, lookup_createChild_new_other σ s _ hwf hs hv2 hroom m
          (fun hmem => hm (mem_missingNames.1 hmem).2)]
        exact hm
    · exact extendResult_found σ s ns hwf hs hv hroom m hm
  refine ⟨(extendResult σ s ns).1, (extendResult σ s ns).2,
    extend_eq fuel σ s ns hwf hs hv hroom, hsup, ?_⟩
  intro hcase m
  refine ⟨?_, hsup m⟩
  intro hfound
  rcases extendResult_cases σ s ns with ⟨_, h⟩ | ⟨hne, c, hc, h⟩ | ⟨_, _, h⟩
  · rw [h] at hfound; exact Or.inl hfound
  · rcases hcase with h0 | h0
    · exact absurd h0 hne
    · rw [h0] at hc; exact Option.noConfusion hc
  · rw [h, createChild_snd] at hfound
    by_cases hmem : m ∈ missingNames σ s ns
    · exact Or.inr (mem_missingNames.1 hmem).1
    · rw [lookup_createChild_new_other σ s _ hwf hs hv2 hroom m hmem] at hfound
      exact Or.inl hfound

/-- Instance of `extend_resolves_superset`: the root of `exampleStore` extended with
`hello`. -/
theorem extend_resolves_superset_witness :
    ∃ σ1 r, extend 2 exampleStore 0 [0] = some (σ1, r) ∧
      (∀ m, (lookup exampleStore 0 m ≠ -1 ∨ m ∈ [0]) → lookup σ1 r m ≠ -1) ∧
      ((missingNames exampleStore 0 [0] = [] ∨
          findChild exampleStore 0 (missingNames exampleStore 0 [0]) = none) →
        ∀ m, lookup σ1 r m ≠ -1 ↔ (lookup exampleStore 0 m ≠ -1 ∨ m ∈ [0])) :=
  extend_resolves_superset 0 exampleStore 0 [0] exampleStore_wf (by decide) (by decide)
    (by decide)

/-- C18, as stated, fails: after the root of `exampleStore` has been extended
with `hello` and `goodbye`, extending the root with `hello` alone returns that
child, in which `goodbye` looks up successfully although it is neither found in
the root nor an element of the list. -/
theorem extend_reuses_superset_counterexample :
    ((extend 2 exampleStore 0 [0, 1]).bind (fun r1 => (extend 2 r1.1 0 [0]).map
      (fun r2 => (r1.2, r2.2, decide (lookup r2.1 r2.2 1 ≠ -1),
        decide (lookup r1.1 0 1 ≠ -1), decide (1 ∈ [0])))) =
      some (1, 1, true, false, false)) := by
  decide

/-- C19: for a duplicate-free list `A` with at least one name missing from `s`,
when no existing child of `s` contains all the missing names `m_0 .. m_(k-1)`,
`s.extend(A)` returns a newly allocated shape `c` with a new id,
`c.shapeset = s.shapeset ++ [c.id]`, `c.size = s.size + k` and
`c.lookup(m_i) = s.size + i`.  The store is well formed, `s` and the names are
allocated and the shape id counter has one more id to give. -/
theorem extend_new_child_layout (fuel : Nat) (σ : Store) (s : Nat) (ns : List Nat)
    (hwf : WF σ) (hs : s < σ.shapeHeap.length) (hv : ∀ n ∈ ns, n < σ.nameHeap.length)
    (hroom : σ.shapeIds + 1 < uint32Size) (hnd : ns.Nodup)
    (hk : 0 < (missingNames σ s ns).length)
    (hno : ∀ child ∈ getChildren σ s, contains σ child (missingNames σ s ns) = false) :
    ∃ σ1 c, extend (fuel + 2) σ s ns = some (σ1, c) ∧
      c = σ.shapeHeap.length ∧ (σ1.getShape c).id = σ.shapeIds + 1 ∧
      (σ1.getShape c).shapeset = (σ.getShape s).shapeset ++ [(σ1.getShape c).id] ∧
      (σ1.getShape c).size = (σ.getShape s).size + (missingNames σ s ns).length ∧
      ∀ (i : Nat) (m : Nat), (missingNames σ s ns)[i]? = some m →
        lookup σ1 c m = (σ.getShape s).size + i := by
  have hv2 : ∀ n ∈ missingNames σ s ns, n < σ.nameHeap.length :=
    fun n hn => hv n (mem_missingNames.1 hn).1
  have hfind : findChild σ s (missingNames σ s ns) = none := by
    unfold findChild
    rw [List.find?_eq_none]
    intro c hc
    simp [hno c hc]
  have hres : extendResult σ s ns = createChild σ s (missingNames σ s ns) := by
    unfold extendResult
    rw [if_neg (by omega), hfind]
  have hnew : (createChild σ s (missingNames σ s ns)).1.getShape σ.shapeHeap.length =
      childShape σ s (missingNames σ s ns) := by
    rw [createChild_getShape σ s _ hs, if_pos rfl]
  refine ⟨(createChild σ s (missingNames σ s ns)).1, σ.shapeHeap.length, ?_, rfl, ?_, ?_, ?_,
    ?_⟩
  · rw [extend_eq fuel σ s ns hwf hs hv hroom, hres]
    rfl
  · rw [hnew]; simp only [childShape, next_eq_succ hroom]
  · rw [hnew]; rfl
  · rw [hnew]; rfl
  · intro i m him
    have hmem : m ∈ missingNames σ s ns := List.getElem?_mem him
    obtain ⟨e, he, hl⟩ := lookup_createChild_new_item σ s _ hwf hs hv2 hroom m hmem
      (mem_missingNames.1 hmem).2
    have hnd2 : (missingNames σ s ns).Nodup := List.Nodup.filter _ hnd
    rw [newItems_nodup _ _ m _ 0 i hnd2 him, List.mem_singleton] at he
    rw [hl, he]
    simp

/-- Instance of `extend_new_child_layout`: the root of `exampleStore` extended with
`hello` and `goodbye`. -/
theorem extend_new_child_layout_witness :
    ∃ σ1 c, extend 2 exampleStore 0 [0, 1] = some (σ1, c) ∧
      c = exampleStore.shapeHeap.length ∧ (σ1.getShape c).id = exampleStore.shapeIds + 1 ∧
      (σ1.getShape c).shapeset =
        (exampleStore.getShape 0).shapeset ++ [(σ1.getShape c).id] ∧
      (σ1.getShape c).size =
        (exampleStore.getShape 0).size + (missingNames exampleStore 0 [0, 1]).length ∧
      ∀ (i : Nat) (m : Nat), (missingNames exampleStore 0 [0, 1])[i]? = some m →
        lookup σ1 c m = (exampleStore.getShape 0).size + i :=
  extend_new_child_layout 0 exampleStore 0 [0, 1] exampleStore_wf (by decide) (by decide)
    (by decide) (by decide) (by decide) (by decide)

/-- C20: after `appendItem(x)` on an allocated name whose items are sorted by
introduced id, the items are sorted by introduced id and are a permutation of
the old items with `x` added, one longer than before, and the items of every
other name are as before; a fresh name has no items, and after
`appendItem({1,1})` its items are `[{1,1}]`. -/
theorem appendItem_sorted_perm (σ : Store) (n : Nat) (x : nameItem)
    (hn : n < σ.nameHeap.length) (_hsorted : (getItems σ n).Sorted itemLe) :
    (getItems (appendItem σ n x) n).Sorted itemLe ∧
    (getItems (appendItem σ n x) n).Perm (getItems σ n ++ [x]) ∧
    (getItems (appendItem σ n x) n).length = (getItems σ n).length + 1 ∧
    (∀ m, m ≠ n → getItems (appendItem σ n x) m = getItems σ m) ∧
    (∀ str, getItems (Name.init σ str).1 (Name.init σ str).2 = [] ∧
      getItems (appendItem (Name.init σ str).1 (Name.init σ str).2 ⟨1, 1⟩)
        (Name.init σ str).2 = [⟨1, 1⟩]) := by
  have hit : getItems (appendItem σ n x) n = sortItems (getItems σ n ++ [x]) := by
    rw [getItems_appendItem, if_pos ⟨rfl, hn⟩]
  have hle_total : IsTotal nameItem itemLe := ⟨fun a b => Nat.le_total _ _⟩
  have hle_trans : IsTrans nameItem itemLe := ⟨fun a b c hab hbc => Nat.le_trans hab hbc⟩
  refine ⟨?_, ?_, ?_, ?_, ?_⟩
  · rw [hit]; exact List.sorted_insertionSort itemLe _
  · rw [hit]; exact List.perm_insertionSort itemLe _
  · rw [hit]
    simp [sortItems, List.length_insertionSort]
  · intro m hm
    rw [getItems_appendItem, if_neg (fun h => hm h.1)]
  · intro str
    have hfresh : getItems (Name.init σ str).1 (Name.init σ str).2 = [] := by
      simp [getItems, Store.getName, Name.init, getD_append_singleton]
    refine ⟨hfresh, ?_⟩
    rw [getItems_appendItem, if_pos ⟨rfl, by simp [Name.init]⟩, hfresh]
    rfl

/-- Instance of `appendItem_sorted_perm`: the test `TestName`. -/
theorem appendItem_sorted_perm_witness :
    (getItems (appendItem exampleStore 0 ⟨1, 1⟩) 0).Sorted itemLe ∧
    (getItems (appendItem exampleStore 0 ⟨1, 1⟩) 0).Perm (getItems exampleStore 0 ++ [⟨1, 1⟩]) :=
  ⟨(appendItem_sorted_perm exampleStore 0 ⟨1, 1⟩ (by decide) (by decide)).1,
    (appendItem_sorted_perm exampleStore 0 ⟨1, 1⟩ (by decide) (by decide)).2.1⟩

/-! ## The header of an image -/

/-- C15 on the code: the first item of this image is a compound of type 3
that lists the item id 0, its own id; `ReadImage` returns nil and the handler
receives `Compound(3, [0])`.  A listed id above the own id is refused. -/
theorem ReadImage_accepts_self_reference :
    ReadImage (imageHeader ++ [5, 0, 0, 0] ++ [3, 0, 0, 0, 0]) testHandler =
      Res.ok (none, [Call.Compound 3 [0]]) ∧
    ReadImage (imageHeader ++ [5, 0, 0, 0] ++ [3, 1, 0, 0, 0]) testHandler =
      Res.ok (some Error.ErrInvalidEntry, []) := by
  decide

theorem ReadImage_short (input : List byte) (hd : Handler) (h : input.length < 12) :
    ReadImage input hd = Res.ok (some Error.ErrUnexpectedEOF, []) := by
  have hlen : (List.take 12 input).length = input.length := by
    rw [List.length_take]; omega
  have hne : ¬ input.length = 12 := by omega
  simp only [ReadImage, reader.read, reader.init, reader.readHead, reader.readBuffer,
    ReadFull, hlen, h, if_true, bind, Res.bind, pure, reader.ignoreEOF]
  simp [reader.readLoop, reader.ignoreEOF, Res.bind]

theorem exists_twelve (input : List byte) (h : 12 ≤ input.length) :
    ∃ b0 b1 b2 b3 b4 b5 b6 b7 b8 b9 b10 b11 rest,
      input = b0 :: b1 :: b2 :: b3 :: b4 :: b5 :: b6 :: b7 :: b8 :: b9 :: b10 :: b11 :: rest := by
  match input, h with
  | b0 :: b1 :: b2 :: b3 :: b4 :: b5 :: b6 :: b7 :: b8 :: b9 :: b10 :: b11 :: rest, _ =>
    exact ⟨b0, b1, b2, b3, b4, b5, b6, b7, b8, b9, b10, b11, rest, rfl⟩

/-- What `readHead` leaves when the input has twelve bytes or more. -/
theorem readHead_twelve (b0 b1 b2 b3 b4 b5 b6 b7 b8 b9 b10 b11 : byte) (rest : List byte) :
    reader.readHead ⟨b0 :: b1 :: b2 :: b3 :: b4 :: b5 :: b6 :: b7 :: b8 :: b9 :: b10 :: b11 ::
        rest, [], none, 0, []⟩ =
      Res.ok
        (⟨rest, [b0, b1, b2, b3, b4, b5, b6, b7, b8, b9, b10, b11],
          if [b0, b1, b2, b3] ≠ magicString then some Error.ErrMagicNumber
          else if [b4, b5, b6, b7] ≠ formatString then some Error.ErrFormatVersion
          else none, 0, []⟩,
        if [b0, b1, b2, b3] ≠ magicString ∨ [b4, b5, b6, b7] ≠ formatString then 0
        else b8.val + b9.val * 2 ^ 8 + b10.val * 2 ^ 16 + b11.val * 2 ^ 24) := by
  by_cases hm : [b0, b1, b2, b3] = magicString <;>
  by_cases hf : [b4, b5, b6, b7] = formatString <;>
  simp [reader.readHead, reader.readBuffer, ReadFull, reader.ignoreEOF, sliceFrom, Uint32,
    bind, Res.bind, pure, hm, hf]


theorem readLoop_of_err (hd : Handler) (fuel : Nat) (r : reader) (h : r.err ≠ none) :
    reader.readLoop hd fuel r = Res.ok r := by
  cases fuel <;> simp [reader.readLoop, h, pure]

/-- When `readHead` leaves an error, `ReadImage` returns it and no call is made. -/
theorem ReadImage_of_head_error (input : List byte) (hd : Handler) (r : reader) (size : Nat)
    (e : Error) (hh : reader.readHead ⟨input, [], none, 0, []⟩ = Res.ok (r, size))
    (he : r.err = some e) (hne : e ≠ Error.EOF) (hc : r.calls = []) :
    ReadImage input hd = Res.ok (some e, []) := by
  have hn : r.err ≠ none := by rw [he]; simp
  simp only [ReadImage, reader.read, reader.init, hh, bind, Res.bind, pure, hn, ne_eq,
    not_false_eq_true, if_true]
  rw [readLoop_of_err hd _ r hn]
  simp [reader.ignoreEOF, he, hne, hc]

/-- C17: an input shorter than 12 bytes returns `io.ErrUnexpectedEOF`; an
input of at least 12 bytes whose first four bytes are not the magic string
returns `ErrMagicNumber`, whatever follows; one with the magic string whose
bytes 4 to 7 are not the format string returns `ErrFormatVersion`; one with a
valid header that declares more body bytes than follow returns
`io.ErrUnexpectedEOF`; in all four cases the handler receives no call. -/
theorem ReadImage_header_errors (input : List byte) (hd : Handler) :
    (input.length < 12 → ReadImage input hd = Res.ok (some Error.ErrUnexpectedEOF, [])) ∧
    (12 ≤ input.length → input.take 4 ≠ magicString →
      ReadImage input hd = Res.ok (some Error.ErrMagicNumber, [])) ∧
    (12 ≤ input.length → input.take 4 = magicString →
      (input.drop 4).take 4 ≠ formatString →
      ReadImage input hd = Res.ok (some Error.ErrFormatVersion, [])) ∧
    (12 ≤ input.length → input.take 8 = imageHeader →
      input.length - 12 < declaredSize input →
      ReadImage input hd = Res.ok (some Error.ErrUnexpectedEOF, [])) := by
  refine ⟨ReadImage_short input hd, ?_, ?_, ?_⟩
  · intro hlen hmagic
    obtain ⟨b0, b1, b2, b3, b4, b5, b6, b7, b8, b9, b10, b11, rest, rfl⟩ :=
      exists_twelve input hlen
    have hm : [b0, b1, b2, b3] ≠ magicString := by simpa using hmagic
    exact ReadImage_of_head_error _ hd _ _ Error.ErrMagicNumber
      (readHead_twelve b0 b1 b2 b3 b4 b5 b6 b7 b8 b9 b10 b11 rest)
      (by simp only [if_pos hm]) (by decide) rfl
  · intro hlen hmagic hformat
    obtain ⟨b0, b1, b2, b3, b4, b5, b6, b7, b8, b9, b10, b11, rest, rfl⟩ :=
      exists_twelve input hlen
    have hm : ¬ [b0, b1, b2, b3] ≠ magicString := by simpa using hmagic
    have hf : [b4, b5, b6, b7] ≠ formatString := by simpa using hformat
    exact ReadImage_of_head_error _ hd _ _ Error.ErrFormatVersion
      (readHead_twelve b0 b1 b2 b3 b4 b5 b6 b7 b8 b9 b10 b11 rest)
      (by simp only [if_neg hm, if_pos hf]) (by decide) rfl
  · intro hlen hheader hsize
    obtain ⟨b0, b1, b2, b3, b4, b5, b6, b7, b8, b9, b10, b11, rest, rfl⟩ :=
      exists_twelve input hlen
    have hmf : [b0, b1, b2, b3] = magicString ∧ [b4, b5, b6, b7] = formatString := by
      simp only [imageHeader, magicString, formatString] at hheader ⊢
      simp only [List.take, List.cons_append, List.nil_append, List.cons.injEq] at hheader
      simp only [List.cons.injEq, and_true]
      tauto
    have hm : ¬ [b0, b1, b2, b3] ≠ magicString := fun hne => hne hmf.1
    have hf : ¬ [b4, b5, b6, b7] ≠ formatString := fun hne => hne hmf.2
    have hsz : rest.length < b8.val + b9.val * 2 ^ 8 + b10.val * 2 ^ 16 + b11.val * 2 ^ 24 := by
      simpa [declaredSize, Uint32] using hsize
    have hh := readHead_twelve b0 b1 b2 b3 b4 b5 b6 b7 b8 b9 b10 b11 rest
    simp only [if_neg hm, if_neg hf, not_or, not_not, hmf, ne_eq, not_true_eq_false,
      or_self, if_false] at hh
    have htake : (List.take (b8.val + b9.val * 2 ^ 8 + b10.val * 2 ^ 16 + b11.val * 2 ^ 24)
        rest).length = rest.length := by
      rw [List.length_take]; omega
    simp only [ReadImage, reader.read, reader.init, hh, bind, Res.bind, pure, ne_eq,
      not_true_eq_false, if_false, reader.readBuffer, ReadFull, htake, hsz, if_true]
    rw [readLoop_of_err hd _ _ (by simp [reader.ignoreEOF])]
    simp [reader.ignoreEOF]

/-- Instance of `ReadImage_header_errors`: the first case of `TestRead`, the header
alone. -/
theorem ReadImage_header_errors_witness :
    ReadImage imageHeader testHandler = Res.ok (some Error.ErrUnexpectedEOF, []) :=
  (ReadImage_header_errors imageHeader testHandler).1 (by decide)

/-! ## Decoding the parts of an item -/

theorem Uint32_littleEndian4 (n : Nat) (rest : List byte) (h : n < 2 ^ 32) :
    Uint32 (littleEndian4 n ++ rest) = Res.ok n := by
  simp only [littleEndian4, List.cons_append, List.nil_append, Uint32, Fin.ofNat, Fin.val_mk,
    Res.ok.injEq]
  norm_num at h ⊢
  omega

theorem length_littleEndian4 (n : Nat) : (littleEndian4 n).length = 4 := rfl

theorem length_encodeIds (ids : List Nat) : (encodeIds ids).length = 4 * ids.length := by
  induction ids with
  | nil => rfl
  | cons j rest ih =>
    simp only [encodeIds, List.length_append, length_littleEndian4, ih, List.length_cons]
    omega

theorem UvarintLoop_append (vb : List byte) :
    ∀ (i x s : Nat) (rest : List byte), isVarintFrom i vb = true →
      UvarintLoop (vb ++ rest) i x s = UvarintLoop vb i x s ∧
      (UvarintLoop vb i x s).2 = (i : Int) + vb.length := by
  induction vb with
  | nil => intro i x s rest h; simp [isVarintFrom] at h
  | cons b tl ih =>
    intro i x s rest h
    cases tl with
    | nil =>
      simp only [isVarintFrom, Bool.and_eq_true, Bool.or_eq_true, decide_eq_true_eq] at h
      obtain ⟨hb, hi⟩ := h
      have h10 : ¬ i = 10 := by omega
      have h9 : ¬ (i = 9 ∧ b.val > 1) := by omega
      simp [UvarintLoop, h10, hb, h9]
    | cons c tl2 =>
      simp only [isVarintFrom, Bool.and_eq_true, decide_eq_true_eq] at h
      obtain ⟨⟨hb, hi⟩, hrest⟩ := h
      have h10 : ¬ i = 10 := by omega
      have hnb : ¬ b.val < 128 := by omega
      obtain ⟨h1, h2⟩ := ih (i + 1) (x ||| ((b.val &&& 0x7f) <<< s) % 2 ^ 64) (s + 7) rest hrest
      constructor
      · rw [List.cons_append, UvarintLoop, if_neg h10, if_neg hnb, h1]
        conv_rhs => rw [UvarintLoop, if_neg h10, if_neg hnb]
      · rw [UvarintLoop, if_neg h10, if_neg hnb, h2]
        simp only [List.length_cons, Nat.cast_add, Nat.cast_one]
        ring

theorem Varint_append (vb rest : List byte) (h : isVarintFrom 0 vb = true) :
    Varint (vb ++ rest) = ((Varint vb).1, (vb.length : Int)) := by
  obtain ⟨h1, h2⟩ := UvarintLoop_append vb 0 0 0 rest h
  simp only [Varint, Uvarint, h1]
  simp only [Nat.cast_zero, zero_add] at h2
  rw [← h2]

theorem isVarintFrom_ne_nil (i : Nat) (vb : List byte) (h : isVarintFrom i vb = true) :
    0 < vb.length := by
  cases vb with
  | nil => simp [isVarintFrom] at h
  | cons b tl => simp

theorem exists_eight (bs : List byte) (h : bs.length = 8) :
    ∃ b0 b1 b2 b3 b4 b5 b6 b7, bs = [b0, b1, b2, b3, b4, b5, b6, b7] := by
  match bs, h with
  | [b0, b1, b2, b3, b4, b5, b6, b7], _ => exact ⟨b0, b1, b2, b3, b4, b5, b6, b7, rfl⟩

theorem Uint64_append (bs rest : List byte) (h : bs.length = 8) :
    Uint64 (bs ++ rest) = Res.ok (floatBits bs) := by
  obtain ⟨b0, b1, b2, b3, b4, b5, b6, b7, rfl⟩ := exists_eight bs h
  simp [Uint64, floatBits]

theorem sliceFrom_append {α : Type} (l rest : List α) :
    sliceFrom (l ++ rest) l.length = Res.ok rest := by
  simp [sliceFrom]

/-! ## Reading one well-formed item -/

theorem encodeIds_append (a b : List Nat) : encodeIds (a ++ b) = encodeIds a ++ encodeIds b := by
  induction a with
  | nil => rfl
  | cons j rest ih => simp [encodeIds, ih]

theorem readCompoundLoop_ids (k : Nat) (rest : List byte) (todo : List Nat) :
    ∀ (done acc : List Nat), (∀ j ∈ todo, j ≤ k ∧ j < 2 ^ 32) →
      readCompoundLoop (encodeIds done ++ encodeIds todo ++ rest) k todo.length done.length acc
        = Res.ok (some (acc ++ todo)) := by
  induction todo with
  | nil => intro done acc _; simp [readCompoundLoop]
  | cons j tl ih =>
    intro done acc h
    have hj := h j (List.mem_cons_self _ _)
    have hslice : sliceFrom (encodeIds done ++ encodeIds (j :: tl) ++ rest) (4 * done.length) =
        Res.ok (encodeIds (j :: tl) ++ rest) := by
      rw [List.append_assoc, ← length_encodeIds done]
      exact sliceFrom_append _ _
    have hu : Uint32 (encodeIds (j :: tl) ++ rest) = Res.ok j := by
      simp only [encodeIds, List.append_assoc]
      exact Uint32_littleEndian4 j _ hj.2
    rw [List.length_cons, readCompoundLoop, hslice]
    simp only [bind, Res.bind]
    rw [hu]
    simp only [if_neg (Nat.not_lt.2 hj.1)]
    have hnext := ih (done ++ [j]) (acc ++ [j]) (fun x hx => h x (List.mem_cons_of_mem _ hx))
    rw [encodeIds_append, List.length_append, List.length_singleton] at hnext
    simp only [encodeIds, List.append_nil, List.append_assoc, List.singleton_append] at hnext ⊢
    exact hnext

theorem readCompoundLoop_encode (k : Nat) (rest : List byte) (ids : List Nat)
    (h : ∀ j ∈ ids, j ≤ k ∧ j < 2 ^ 32) :
    readCompoundLoop (encodeIds ids ++ rest) k ids.length 0 [] = Res.ok (some ids) := by
  have := readCompoundLoop_ids k rest ids [] [] h
  simpa [encodeIds] using this

theorem readItem_cons (hd : Handler) (b : byte) (body input : List byte) (k : Nat)
    (cs : List Call) :
    reader.readItem hd ⟨input, b :: body, none, k, cs⟩ =
      (if b.val = 0 then reader.readInt hd ⟨input, body, none, k, cs⟩
        else if b.val = 1 then reader.readFloat hd ⟨input, body, none, k, cs⟩
        else if b.val = 2 then reader.readBytes hd ⟨input, body, none, k, cs⟩
        else reader.readCompound hd ⟨input, body, none, k, cs⟩ b).bind
      (fun r => Res.ok { r with lastItem := (r.lastItem + 1) % 2 ^ 32 }) := by
  simp only [reader.readItem, List.length_cons, Nat.add_one_ne_zero, if_false,
    reader.nextByte, bind, Res.bind, pure]
  split_ifs <;> rfl

theorem hasLen_true (r : reader) (size : Nat) (h : size ≤ r.buf.length) :
    r.hasLen size = (r, true) := by
  simp [reader.hasLen, Nat.not_lt.2 h]

theorem readInt_wellFormed (hd : Handler) (vb rest input : List byte) (k : Nat)
    (cs : List Call) (hwf : (Item.int vb).wellFormed hd k cs) :
    reader.readInt hd ⟨input, vb ++ rest, none, k, cs⟩ =
      Res.ok ⟨input, rest, none, k, cs ++ [(Item.int vb).call]⟩ := by
  obtain ⟨hv, hacc⟩ := hwf
  have hpos := isVarintFrom_ne_nil 0 vb hv
  have hc : ((vb.length : Int) > 0) := by omega
  simp only [reader.readInt, Varint_append vb rest hv, hc, if_true, Int.toNat_ofNat,
    sliceFrom_append, bind, Res.bind, pure, hacc, Item.call]

theorem readFloat_wellFormed (hd : Handler) (bs rest input : List byte) (k : Nat)
    (cs : List Call) (hwf : (Item.float bs).wellFormed hd k cs) :
    reader.readFloat hd ⟨input, bs ++ rest, none, k, cs⟩ =
      Res.ok ⟨input, rest, none, k, cs ++ [(Item.float bs).call]⟩ := by
  have h8 : bs.length = 8 := hwf
  have hs : sliceFrom (bs ++ rest) 8 = Res.ok rest := by
    rw [← h8]; exact sliceFrom_append _ _
  rw [reader.readFloat, hasLen_true _ 8 (by simp only [List.length_append]; omega)]
  simp only [Uint64_append bs rest h8, hs, bind, Res.bind, pure, Item.call, Bool.not_true,
    Bool.false_eq_true, if_false]

theorem readSize_littleEndian4 (n : Nat) (rest input : List byte) (k : Nat) (cs : List Call)
    (h : n < 2 ^ 32) :
    reader.readSize ⟨input, littleEndian4 n ++ rest, none, k, cs⟩ =
      Res.ok (⟨input, rest, none, k, cs⟩, n, true) := by
  have hs : sliceFrom (littleEndian4 n ++ rest) 4 = Res.ok rest := by
    rw [← length_littleEndian4 n]; exact sliceFrom_append _ _
  rw [reader.readSize, hasLen_true _ 4 (by
    simp only [List.length_append, length_littleEndian4]; omega)]
  simp only [Uint32_littleEndian4 n rest h, hs, bind, Res.bind, pure, Bool.not_true,
    Bool.false_eq_true, if_false]

theorem readBytes_wellFormed (hd : Handler) (payload rest input : List byte) (k : Nat)
    (cs : List Call) (hwf : (Item.bytes payload).wellFormed hd k cs) :
    reader.readBytes hd ⟨input, littleEndian4 payload.length ++ payload ++ rest, none, k, cs⟩ =
      Res.ok ⟨input, rest, none, k, cs ++ [(Item.bytes payload).call]⟩ := by
  obtain ⟨hlt, hacc⟩ := hwf
  have hto : sliceTo (payload ++ rest) (payload.length : Int) = Res.ok payload := by
    rw [sliceTo_natCast _ _ (by rw [List.length_append]; omega)]
    simp
  rw [reader.readBytes, List.append_assoc, readSize_littleEndian4 _ _ _ _ _ hlt]
  simp only [bind, Res.bind, Bool.not_true, Bool.false_eq_true, if_false]
  rw [hasLen_true _ _ (by simp only [List.length_append]; omega)]
  simp only [hto, sliceFrom_append, pure, hacc, Item.call, Bool.not_true,
    Bool.false_eq_true, if_false]

/-- The part of `readCompound` after the count is known. -/
theorem readCompound_tail (id : byte) (ids : List Nat) (rest input : List byte)
    (k : Nat) (cs : List Call) (hids : ∀ j ∈ ids, j < k) (hk : k < 2 ^ 32)
    (h4 : 4 * ids.length < 2 ^ 32) :
    (let r : reader := ⟨input, encodeIds ids ++ rest, none, k, cs⟩
     let size : Int := (ids.length : Int)
     if r.err ≠ none then (pure r : Res reader)
     else
       let (r, ok) := r.hasLen (4 * (size % 2 ^ 32).toNat % 2 ^ 32)
       if !ok then pure r
       else do
         let items ← readCompoundLoop r.buf r.lastItem size.toNat 0 []
         match items with
         | none => pure { r with err := some Error.ErrInvalidEntry }
         | some items =>
           let buf ← sliceFrom r.buf (4 * size.toNat)
           let r := { r with buf := buf }
           pure { r with calls := r.calls ++ [Call.Compound id items] }) =
      Res.ok ⟨input, rest, none, k, cs ++ [Call.Compound id ids]⟩ := by
  have hmod : 4 * ((ids.length : Int) % 2 ^ 32).toNat % 2 ^ 32 = 4 * ids.length := by
    have h1 : ((ids.length : Int) % 2 ^ 32).toNat = ids.length := by
      norm_num at h4 ⊢
      omega
    rw [h1]
    exact Nat.mod_eq_of_lt h4
  have hloop := readCompoundLoop_encode k rest ids (fun j hj => by
    have := hids j hj
    exact ⟨by omega, by omega⟩)
  have hs : sliceFrom (encodeIds ids ++ rest) (4 * ids.length) = Res.ok rest := by
    rw [← length_encodeIds ids]; exact sliceFrom_append _ _
  simp only [ne_eq, not_true_eq_false, if_false, hmod]
  rw [hasLen_true _ _ (by simp only [List.length_append, length_encodeIds]; omega)]
  simp only [Int.toNat_ofNat, hloop, hs, bind, Res.bind, pure, Bool.not_true,
    Bool.false_eq_true, if_false]

theorem readCompound_fixed (hd : Handler) (id : byte) (ids : List Nat) (rest input : List byte)
    (k : Nat) (cs : List Call) (hwf : (Item.compound id ids).wellFormed hd k cs)
    (hk : k < 2 ^ 32) (h4 : 4 * ids.length < 2 ^ 32) :
    reader.readCompound hd ⟨input, encodeIds ids ++ rest, none, k, cs⟩ id =
      Res.ok ⟨input, rest, none, k, cs ++ [(Item.compound id ids).call]⟩ := by
  obtain ⟨_, hsize, hids⟩ := hwf
  have hcs : reader.readCompoundSize hd ⟨input, encodeIds ids ++ rest, none, k, cs⟩ id =
      Res.ok (⟨input, encodeIds ids ++ rest, none, k, cs⟩, (ids.length : Int)) := by
    simp only [reader.readCompoundSize, hsize, ne_eq, not_true_eq_false, if_false, pure]
    rw [if_neg (by omega)]
  have htail := readCompound_tail id ids rest input k cs hids hk h4
  rw [reader.readCompound, hcs]
  simp only [bind, Res.bind, Item.call]
  exact htail

theorem readCompound_counted (hd : Handler) (id : byte) (ids : List Nat)
    (rest input : List byte) (k : Nat) (cs : List Call)
    (hwf : (Item.counted id ids).wellFormed hd k cs)
    (hk : k < 2 ^ 32) (h4 : 4 * ids.length < 2 ^ 32) :
    reader.readCompound hd
        ⟨input, littleEndian4 ids.length ++ encodeIds ids ++ rest, none, k, cs⟩ id =
      Res.ok ⟨input, rest, none, k, cs ++ [(Item.counted id ids).call]⟩ := by
  obtain ⟨_, hneg, herr, hids⟩ := hwf
  have hrs := readSize_littleEndian4 ids.length (encodeIds ids ++ rest) input k cs (by omega)
  have hcs : reader.readCompoundSize hd
      ⟨input, littleEndian4 ids.length ++ encodeIds ids ++ rest, none, k, cs⟩ id =
      Res.ok (⟨input, encodeIds ids ++ rest, none, k, cs⟩, (ids.length : Int)) := by
    rw [reader.readCompoundSize]
    have hpair : hd.CompoundSize cs id = ((hd.CompoundSize cs id).1, none) := by
      rw [← herr]
    rw [hpair]
    simp only [ne_eq, not_true_eq_false, if_false, hneg, if_true, List.append_assoc, hrs, bind,
      Res.bind, pure, Bool.not_true, Bool.false_eq_true]
  have htail := readCompound_tail id ids rest input k cs hids hk h4
  rw [reader.readCompound, hcs]
  simp only [bind, Res.bind, Item.call]
  exact htail

/-- Reading one well-formed item takes it off the buffer, delivers its call and
counts it. -/
theorem readItem_wellFormed (hd : Handler) (it : Item) (rest input : List byte) (k : Nat)
    (cs : List Call) (hwf : it.wellFormed hd k cs) (hk : k + 1 < 2 ^ 32)
    (hlen : it.encode.length < 2 ^ 32) :
    reader.readItem hd ⟨input, it.encode ++ rest, none, k, cs⟩ =
      Res.ok ⟨input, rest, none, k + 1, cs ++ [it.call]⟩ := by
  cases it with
  | int vb =>
    rw [Item.encode, List.cons_append, readItem_cons, if_pos (by decide),
      readInt_wellFormed hd _ _ _ _ _ hwf]
    simp only [Res.bind, Nat.mod_eq_of_lt hk]
  | float bs =>
    rw [Item.encode, List.cons_append, readItem_cons, if_neg (by decide), if_pos (by decide),
      readFloat_wellFormed hd _ _ _ _ _ hwf]
    simp only [Res.bind, Nat.mod_eq_of_lt hk]
  | bytes payload =>
    rw [Item.encode, List.cons_append, readItem_cons, if_neg (by decide), if_neg (by decide),
      if_pos (by decide), readBytes_wellFormed hd _ _ _ _ _ hwf]
    simp only [Res.bind, Nat.mod_eq_of_lt hk]
  | compound id ids =>
    have h3 : 3 ≤ id.val := hwf.1
    have h4 : 4 * ids.length < 2 ^ 32 := by
      simp only [Item.encode, List.length_cons, length_encodeIds] at hlen
      omega
    rw [Item.encode, List.cons_append, readItem_cons, if_neg (by omega), if_neg (by omega),
      if_neg (by omega), readCompound_fixed hd _ _ _ _ _ _ hwf (by omega) h4]
    simp only [Res.bind, Nat.mod_eq_of_lt hk]
  | counted id ids =>
    have h3 : 3 ≤ id.val := hwf.1
    have h4 : 4 * ids.length < 2 ^ 32 := by
      simp only [Item.encode, List.length_cons, List.length_append, length_encodeIds] at hlen
      omega
    rw [Item.encode, List.cons_append, readItem_cons, if_neg (by omega), if_neg (by omega),
      if_neg (by omega),
      readCompound_counted hd _ _ _ _ _ _ hwf (by omega) h4]
    simp only [Res.bind, Nat.mod_eq_of_lt hk]

/-! ## Reading a well-formed body -/

theorem length_encode_pos (it : Item) : 0 < it.encode.length := by
  cases it <;> simp [Item.encode]

theorem length_le_encodeBody (items : List Item) : items.length ≤ (encodeBody items).length := by
  induction items with
  | nil => simp [encodeBody]
  | cons it rest ih =>
    have := length_encode_pos it
    simp only [encodeBody, List.length_cons, List.length_append]
    omega

theorem readLoop_wellFormed (hd : Handler) (input : List byte) (items : List Item) :
    ∀ (k : Nat) (cs : List Call) (fuel : Nat), wellFormedBody hd k cs items →
      k + (encodeBody items).length < 2 ^ 32 → items.length < fuel →
      reader.readLoop hd fuel ⟨input, encodeBody items, none, k, cs⟩ =
        Res.ok ⟨input, [], some Error.EOF, k + items.length, cs ++ items.map Item.call⟩ := by
  induction items with
  | nil =>
    intro k cs fuel _ _ hf
    obtain ⟨f, rfl⟩ : ∃ f, fuel = f + 1 := ⟨fuel - 1, by simp at hf; omega⟩
    simp only [encodeBody, reader.readLoop, if_true, reader.readItem, List.length_nil, pure,
      bind, Res.bind]
    rw [readLoop_of_err hd f _ (by simp)]
    simp
  | cons it rest ih =>
    intro k cs fuel hwf hlen hf
    obtain ⟨f, rfl⟩ : ∃ f, fuel = f + 1 := ⟨fuel - 1, by simp at hf; omega⟩
    obtain ⟨hit, hrest⟩ := hwf
    have hpos := length_encode_pos it
    simp only [encodeBody, List.length_append] at hlen
    have hstep := readItem_wellFormed hd it (encodeBody rest) input k cs hit (by omega)
      (by omega)
    simp only [encodeBody, reader.readLoop, if_true, hstep, bind, Res.bind]
    rw [ih (k + 1) (cs ++ [it.call]) f hrest (by omega)
      (by simp only [List.length_cons] at hf; omega)]
    simp only [List.length_cons, List.map_cons, List.append_assoc, List.singleton_append,
      Res.ok.injEq, reader.mk.injEq, and_true, true_and]
    omega

theorem readBuffer_all (r : reader) : r.readBuffer r.input.length =
    { r with input := [], buf := r.input, err := none } := by
  simp [reader.readBuffer, ReadFull]

/-- C16, as amended: for a handler that accepts every item and an image made
of the header, the body size and a body of well-formed items whose compounds
list only ids below their own, `ReadImage` returns nil and the handler
receives the calls of the items, with the decoded payloads, in body order; an
empty body yields no call. -/
theorem ReadImage_wellFormed (hd : Handler) (items : List Item)
    (hwf : wellFormedBody hd 0 [] items) (hlen : (encodeBody items).length < 2 ^ 32) :
    ReadImage (encodeImage items) hd = Res.ok (none, items.map Item.call) ∧
    ReadImage (encodeImage []) hd = Res.ok (none, []) := by
  have key : ∀ its : List Item, wellFormedBody hd 0 [] its →
      (encodeBody its).length < 2 ^ 32 →
      ReadImage (encodeImage its) hd = Res.ok (none, its.map Item.call) := by
    intro its hw hl
    have hh := readHead_twelve 0x00 0x53 0x43 0x52 0x01 0x00 0x00 0x00
      (Fin.ofNat (encodeBody its).length) (Fin.ofNat ((encodeBody its).length / 256))
      (Fin.ofNat ((encodeBody its).length / 65536))
      (Fin.ofNat ((encodeBody its).length / 16777216)) (encodeBody its)
    have hm : ¬ ([0x00, 0x53, 0x43, 0x52] : List byte) ≠ magicString := by decide
    have hf : ¬ ([0x01, 0x00, 0x00, 0x00] : List byte) ≠ formatString := by decide
    have hsz : (Fin.ofNat (encodeBody its).length : byte).val +
        (Fin.ofNat ((encodeBody its).length / 256) : byte).val * 2 ^ 8 +
        (Fin.ofNat ((encodeBody its).length / 65536) : byte).val * 2 ^ 16 +
        (Fin.ofNat ((encodeBody its).length / 16777216) : byte).val * 2 ^ 24 =
        (encodeBody its).length := by
      simp only [Fin.ofNat, Fin.val_mk]
      norm_num at hl ⊢
      omega
    simp only [if_neg hm, if_neg hf, not_or, hm, hf, or_self, if_false, hsz] at hh
    have himg : encodeImage its = 0x00 :: 0x53 :: 0x43 :: 0x52 :: 0x01 :: 0x00 :: 0x00 :: 0x00 ::
        Fin.ofNat (encodeBody its).length :: Fin.ofNat ((encodeBody its).length / 256) ::
        Fin.ofNat ((encodeBody its).length / 65536) ::
        Fin.ofNat ((encodeBody its).length / 16777216) :: encodeBody its := rfl
    have hbuf := readBuffer_all ⟨encodeBody its,
      [0x00, 0x53, 0x43, 0x52, 0x01, 0x00, 0x00, 0x00, Fin.ofNat (encodeBody its).length,
        Fin.ofNat ((encodeBody its).length / 256), Fin.ofNat ((encodeBody its).length / 65536),
        Fin.ofNat ((encodeBody its).length / 16777216)], none, 0, []⟩
    have hloop := readLoop_wellFormed hd [] its 0 [] ((encodeBody its).length + 1) hw
      (by omega) (by have := length_le_encodeBody its; omega)
    simp only [ReadImage, reader.read, reader.init, himg, hh, bind, Res.bind, pure, ne_eq,
      not_true_eq_false, if_false, hbuf, reader.ignoreEOF]
    simp only [reduceCtorEq, if_false, hloop]
    simp
  exact ⟨key items hwf hlen, key [] trivial (by simp [encodeBody])⟩

/-- Instance of `ReadImage_wellFormed`: the image of `TestRead` with an integer and a
compound of type 3 that lists the integer. -/
theorem ReadImage_wellFormed_witness :
    ReadImage (encodeImage [Item.int [0], Item.compound 3 [0]]) testHandler =
      Res.ok (none, [Call.Int 0, Call.Compound 3 [0]]) :=
  (ReadImage_wellFormed testHandler [Item.int [0], Item.compound 3 [0]]
    ⟨⟨rfl, rfl⟩, ⟨by decide, rfl, by decide⟩, trivial⟩ (by decide)).1

/-- C16, as stated, fails: the body of this image is an integer item followed
by a compound with tag 3, whose count `CompoundSize` fixes at 1, and one item
id of four little-endian bytes; the id is 7, and `ReadImage` returns
`ErrInvalidEntry` after the call for the integer, with no call for the
compound. -/
theorem ReadImage_forward_reference_counterexample :
    encodeImage [Item.int [0], Item.compound 3 [7]] =
      imageHeader ++ [7, 0, 0, 0] ++ [0, 0, 3, 7, 0, 0, 0] ∧
    ReadImage (encodeImage [Item.int [0], Item.compound 3 [7]]) testHandler =
      Res.ok (some Error.ErrInvalidEntry, [Call.Int 0]) := by
  decide

/-! ## Offsets within a shape -/

theorem mem_newItems_pos (cid : Nat) (size : Int) (m : Nat) (ms : List Nat) :
    ∀ (i : Nat) (e : nameItem), e ∈ newItems cid size m i ms →
      ∃ j : Nat, ms[j]? = some m ∧ e.offset = size + ((i + j : Nat) : Int) := by
  induction ms with
  | nil => intro i e h; simp [newItems] at h
  | cons n rest ih =>
    intro i e h
    simp only [newItems, List.mem_append] at h
    rcases h with h | h
    · split at h
      · next hn =>
        rw [List.mem_singleton] at h
        subst h
        exact ⟨0, by simp [hn], by simp⟩
      · simp at h
    · obtain ⟨j, h1, h2⟩ := ih (i + 1) e h
      refine ⟨j + 1, by simpa using h1, ?_⟩
      rw [h2]
      push_cast
      ring

theorem lookup_nameInit (σ : Store) (str : String) (s n : Nat) :
    lookup (Name.init σ str).1 s n = lookup σ s n := by
  have hsh : (Name.init σ str).1.getShape s = σ.getShape s := rfl
  simp only [lookup, nameInit_getItems, hsh]

theorem lookup_root (σ : Store) (hwf : WF σ) (hroom : σ.shapeIds + 1 < uint32Size)
    (t n : Nat) :
    lookup (shape.init σ [] [] 0).1 t n =
      if t = σ.shapeHeap.length then -1 else lookup σ t n := by
  have hi : getItems (shape.init σ [] [] 0).1 n = getItems σ n := rfl
  split
  · next h =>
    by_contra hne
    obtain ⟨it, hit, hmem⟩ := (lookup_found_iff (WF_root σ hwf hroom) t n).1 hne
    rw [hi] at hit
    rw [init_getShape, if_pos h] at hmem
    simp [next_eq_succ hroom] at hmem
    have := hwf.itemsBound n it hit
    omega
  · next h =>
    simp only [lookup, hi, init_getShape, if_neg h]

/-- Two distinct names that the new child resolves have distinct offsets there,
when that is so in its parent. -/
theorem lookup_createChild_injective (σ : Store) (s : Nat) (ns : List Nat) (hwf : WF σ)
    (hs : s < σ.shapeHeap.length) (hv : ∀ n ∈ ns, n < σ.nameHeap.length)
    (hroom : σ.shapeIds + 1 < uint32Size)
    (hinj : ∀ a b, a ≠ b → lookup σ s a ≠ -1 → lookup σ s b ≠ -1 →
      lookup σ s a ≠ lookup σ s b)
    (a b : Nat) (hab : a ≠ b)
    (ha : lookup (createChild σ s (missingNames σ s ns)).1 σ.shapeHeap.length a ≠ -1)
    (hb : lookup (createChild σ s (missingNames σ s ns)).1 σ.shapeHeap.length b ≠ -1) :
    lookup (createChild σ s (missingNames σ s ns)).1 σ.shapeHeap.length a ≠
      lookup (createChild σ s (missingNames σ s ns)).1 σ.shapeHeap.length b := by
  have hvm : ∀ n ∈ missingNames σ s ns, n < σ.nameHeap.length :=
    fun n hn => hv n (mem_missingNames.1 hn).1
  by_cases hma : a ∈ missingNames σ s ns <;> by_cases hmb : b ∈ missingNames σ s ns
  · obtain ⟨ea, hea, hla⟩ := lookup_createChild_new_item σ s _ hwf hs hvm hroom a hma
      (mem_missingNames.1 hma).2
    obtain ⟨eb, heb, hlb⟩ := lookup_createChild_new_item σ s _ hwf hs hvm hroom b hmb
      (mem_missingNames.1 hmb).2
    obtain ⟨i, hi1, hi2⟩ := mem_newItems_pos _ _ _ _ _ _ hea
    obtain ⟨j, hj1, hj2⟩ := mem_newItems_pos _ _ _ _ _ _ heb
    rw [hla, hlb, hi2, hj2]
    intro heq
    have hij : i = j := by omega
    subst hij
    rw [hi1] at hj1
    exact hab (Option.some.inj hj1)
  · obtain ⟨j, _, hj⟩ := lookup_createChild_new_mem σ s _ hwf hs hvm hroom a hma
      (mem_missingNames.1 hma).2
    have hob := lookup_createChild_new_other σ s _ hwf hs hvm hroom b hmb
    rw [hob] at hb ⊢
    have := lookup_range hwf s b hb
    rw [hj]
    omega
  · obtain ⟨j, _, hj⟩ := lookup_createChild_new_mem σ s _ hwf hs hvm hroom b hmb
      (mem_missingNames.1 hmb).2
    have hoa := lookup_createChild_new_other σ s _ hwf hs hvm hroom a hma
    rw [hoa] at ha ⊢
    have := lookup_range hwf s a ha
    rw [hj]
    omega
  · have hoa := lookup_createChild_new_other σ s _ hwf hs hvm hroom a hma
    have hob := lookup_createChild_new_other σ s _ hwf hs hvm hroom b hmb
    rw [hoa] at ha ⊢
    rw [hob] at hb ⊢
    exact hinj a b hab ha hb

/-- A call of `extend` keeps offsets distinct in every shape. -/
theorem extendResult_lookup_injective (σ : Store) (s : Nat) (ns : List Nat) (hwf : WF σ)
    (hs : s < σ.shapeHeap.length) (hv : ∀ n ∈ ns, n < σ.nameHeap.length)
    (hroom : σ.shapeIds + 1 < uint32Size)
    (hinj : ∀ t a b, a ≠ b → lookup σ t a ≠ -1 → lookup σ t b ≠ -1 →
      lookup σ t a ≠ lookup σ t b)
    (t a b : Nat) (hab : a ≠ b)
    (ha : lookup (extendResult σ s ns).1 t a ≠ -1)
    (hb : lookup (extendResult σ s ns).1 t b ≠ -1) :
    lookup (extendResult σ s ns).1 t a ≠ lookup (extendResult σ s ns).1 t b := by
  have hvm : ∀ n ∈ missingNames σ s ns, n < σ.nameHeap.length :=
    fun n hn => hv n (mem_missingNames.1 hn).1
  rcases extendResult_cases σ s ns with ⟨_, h⟩ | ⟨_, c, _, h⟩ | ⟨_, _, h⟩
  · rw [h] at ha hb ⊢
    exact hinj t a b hab ha hb
  · rw [h] at ha hb ⊢
    exact hinj t a b hab ha hb
  · rw [h] at ha hb ⊢
    by_cases ht : t = σ.shapeHeap.length
    · subst ht
      exact lookup_createChild_injective σ s ns hwf hs hv hroom (hinj s) a b hab ha hb
    · rw [lookup_createChild_old σ s _ hwf hs hvm hroom t a ht] at ha ⊢
      rw [lookup_createChild_old σ s _ hwf hs hvm hroom t b ht] at hb ⊢
      exact hinj t a b hab ha hb

/-- C22: in every state built from the empty store by allocating fresh names,
creating root shapes with `init(nil, nil, 0)` and calling `extend` (single
threaded, on allocated shapes and names, while the shape id counter has an id
left), two distinct names that both look up successfully in a shape `s` have
different offsets there, and both offsets lie in `[0, s.size)`. -/
theorem lookup_offsets_unambiguous (σ : Store) (hbuilt : Built σ) (s a b : Nat)
    (hab : a ≠ b) (ha : lookup σ s a ≠ -1) (hb : lookup σ s b ≠ -1) :
    lookup σ s a ≠ lookup σ s b ∧
    (0 ≤ lookup σ s a ∧ lookup σ s a < (σ.getShape s).size) ∧
    (0 ≤ lookup σ s b ∧ lookup σ s b < (σ.getShape s).size) := by
  refine ⟨?_, lookup_range hbuilt.wf s a ha, lookup_range hbuilt.wf s b hb⟩
  have key : ∀ t x y, x ≠ y → lookup σ t x ≠ -1 → lookup σ t y ≠ -1 →
      lookup σ t x ≠ lookup σ t y := by
    clear ha hb hab
    induction hbuilt with
    | empty =>
      intro t x y _ hx _
      exact absurd rfl hx
    | name σ str _ ih =>
      intro t x y hxy hx hy
      simp only [lookup_nameInit] at hx hy ⊢
      exact ih t x y hxy hx hy
    | root σ hprev hroom ih =>
      intro t x y hxy hx hy
      simp only [lookup_root σ hprev.wf hroom] at hx hy ⊢
      by_cases h : t = σ.shapeHeap.length
      · rw [if_pos h] at hx
        exact absurd rfl hx
      · simp only [if_neg h] at hx hy ⊢
        exact ih t x y hxy hx hy
    | extend σ σ1 fuel s r ns hprev hs hv hroom hext ih =>
      intro t x y hxy hx hy
      have heq := extend_some fuel σ s ns hprev.wf hs hv hroom _ hext
      have h1 : σ1 = (extendResult σ s ns).1 := congrArg Prod.fst heq
      subst h1
      exact extendResult_lookup_injective σ s ns hprev.wf hs hv hroom ih t x y hxy hx hy
  exact key s a b hab ha hb

theorem twoFieldStore_built : Built twoFieldStore :=
  Built.extend exampleStore twoFieldStore 2 0 1 [0, 1] exampleStore_built (by decide)
    (by decide) (by decide) (by decide)

theorem lookup_offsets_unambiguous_witness :
    (0 : Nat) ≠ 1 ∧ lookup twoFieldStore 1 0 ≠ -1 ∧ lookup twoFieldStore 1 1 ≠ -1 ∧
    (lookup twoFieldStore 1 0 ≠ lookup twoFieldStore 1 1 ∧
      (0 ≤ lookup twoFieldStore 1 0 ∧
        lookup twoFieldStore 1 0 < (twoFieldStore.getShape 1).size) ∧
      (0 ≤ lookup twoFieldStore 1 1 ∧
        lookup twoFieldStore 1 1 < (twoFieldStore.getShape 1).size)) :=
  ⟨by decide, by decide, by decide,
    lookup_offsets_unambiguous twoFieldStore twoFieldStore_built 1 0 1 (by decide)
      (by decide) (by decide)⟩

/-! ## The field read of `get` -/

/-- C21: `get` does not return after the field read.  The slot register holds
a `Field` object with offset 0 and the receiver is a user object with one
field; `get(false)` copies the field to the result register and then goes on
with the dispatch.  When the field holds `Int(42)`, whose class has no
`getSlot`, the call ends in the panic of `ClassOf` on the empty slot.  When the
field holds a primitive, `get` returns with a frame pushed on the control
stack, the field value pushed on the value stack, the slot register replaced
by the `getSlot` member and the result register overwritten by the native
function that was called. -/
theorem get_field_goes_on_to_dispatch (fuel : Nat) :
    (∀ natives : Nat → Native,
      Process.get natives (fuel + 1) fieldHeap (fieldProcess (V.object 1)) false =
        Res.fault "unkown object type") ∧
    Process.get markNatives (fuel + 1) fieldHeap (fieldProcess (V.object 2)) false =
      Res.ok (fieldHeap,
        ⟨exampleHost, V.int 9,
          { frame.zero with this := V.object 2, slot := V.primitive 0, argc := 1,
                            stack := [V.primitive 9], stackArray := 1, stackCap := 1 },
          [{ frame.zero with this := V.object 2, slot := V.object 0 }]⟩) :=
  ⟨fun _ => rfl, rfl⟩

/-! ## Compound counts that wrap -/

/-- C23: `ReadImage` panics on a compound item whose count times four wraps
around in `uint32`.  With the handler of the tests, type 5 reads its count
from the image.  A count of `0x40000000` gives `4*c = 0`, a count of
`0x40000001` gives `4*c = 4`, so `hasLen` accepts a body with no item id, or
with one (a reference from item 1 back to item 0), and the loop over the items
then reads past the end of the buffer. -/
theorem ReadImage_count_wrap_faults :
    ReadImage (imageHeader ++ littleEndian4 5 ++ [5, 0x00, 0x00, 0x00, 0x40]) testHandler =
      Res.fault "index out of range" ∧
    ReadImage (imageHeader ++ littleEndian4 11 ++
        [0, 0, 5, 0x01, 0x00, 0x00, 0x40, 0, 0, 0, 0]) testHandler =
      Res.fault "index out of range" := by
  decide

end Script
